import Mathlib

/-!
# Verification of `pkg/extract/pcapfiles.go` (gophercap)

The file embeds the pcap file-list builder of gophercap: the compilation of a
Suricata file-name template into a regular expression
(`buildPcapNameParsing`), the two list builders (`buildPcapList`,
`buildFullPcapList`), the constructor `NewPcapFileList` and the sequential
accessor `GetNext`.

Go strings are modelled as lists of characters.  The Go standard-library
functions the code calls (`strings.Index`, `strings.Replace`,
`strconv.ParseInt`, `time.Unix`, `Time.Before`, `path.Clean`, `path.Join`,
`path.Dir`, `path.Base`, `regexp.MustCompile`, `FindStringSubmatch`) are
modelled after their Go implementations; `ioutil.ReadDir` is a parameter.
-/

namespace Extract

/-- Go strings, as lists of characters. -/
abbrev Str := List Char

/-! ## `strings` -/

/-- Search loop of `strings.Index`: the offset of the first position of `s`
(counted from `k`) at which `sub` starts, or `-1`. -/
def strings.indexFrom (sub : Str) : Str → Nat → Int
  | [], k => if sub = [] then (k : Int) else -1
  | c :: s, k => if sub.isPrefixOf (c :: s) then (k : Int) else strings.indexFrom sub s (k + 1)

/-- Model of `strings.Index(s, sub)`: index of the first instance of `sub` in
`s`, or `-1` if `sub` is not present. -/
def strings.Index (s sub : Str) : Int := strings.indexFrom sub s 0

/-- Model of `strings.Replace(s, old, new, 1)`: a copy of `s` with the first
instance of `old` replaced by `new`. -/
def strings.Replace1 (s old new : Str) : Str :=
  if old = new then s
  else
    match strings.Index s old with
    | Int.ofNat j => s.take j ++ new ++ s.drop (j + old.length)
    | Int.negSucc _ => s

/-! ## `strconv` -/

/-- The two error kinds of `strconv.NumError`. -/
inductive NumError
  | ErrSyntax
  | ErrRange
  deriving DecidableEq, Repr

/-- Test `'0' <= c && c <= '9'`. -/
def isDigit (c : Char) : Bool := decide ('0'.toNat ≤ c.toNat) && decide (c.toNat ≤ '9'.toNat)

/-- Largest `uint64`. -/
def maxUint64 : Nat := 2 ^ 64 - 1

/-- Digit loop of `strconv.ParseUint(s, 10, 64)`, `n` being the value read so
far.  A non-digit is a syntax error (value 0); an overflow is a range error
(value `maxUint64`), reported as soon as it happens. -/
def strconv.parseUintLoop : Str → Nat → Nat × Option NumError
  | [], n => (n, none)
  | c :: cs, n =>
    if !isDigit c then (0, some NumError.ErrSyntax)
    else if n ≥ maxUint64 / 10 + 1 then (maxUint64, some NumError.ErrRange)
    else
      let n1 := n * 10 + (c.toNat - '0'.toNat)
      if n1 > maxUint64 then (maxUint64, some NumError.ErrRange)
      else strconv.parseUintLoop cs n1

/-- Model of `strconv.ParseUint(s, 10, 64)`. -/
def strconv.ParseUint (s : Str) : Nat × Option NumError :=
  if s = [] then (0, some NumError.ErrSyntax) else strconv.parseUintLoop s 0

/-- Model of `strconv.ParseInt(s, 10, 64)`: the value and the error.  On a
syntax error the value is 0, on a range error it is the nearest `int64`. -/
def strconv.ParseInt (s : Str) : Int × Option NumError :=
  match s with
  | [] => (0, some NumError.ErrSyntax)
  | c :: cs =>
    let neg : Bool := c = '-'
    let body : Str := if c = '+' ∨ c = '-' then cs else c :: cs
    match strconv.ParseUint body with
    | (_, some NumError.ErrSyntax) => (0, some NumError.ErrSyntax)
    | (un, _) =>
      if !neg ∧ un ≥ 2 ^ 63 then ((2 : Int) ^ 63 - 1, some NumError.ErrRange)
      else if neg ∧ un > 2 ^ 63 then (-(2 : Int) ^ 63, some NumError.ErrRange)
      else if neg then (-(un : Int), none)
      else ((un : Int), none)

/-! ## `time` -/

/-- Two's-complement wrap-around of an integer to `int64`. -/
def wrapInt64 (x : Int) : Int := (x + 2 ^ 63) % 2 ^ 64 - 2 ^ 63

/-- The constant `unixToInternal` of package `time`: seconds from year 1 to 1970. -/
def time.unixToInternal : Int := (1969 * 365 + 1969 / 4 - 1969 / 100 + 1969 / 400) * 86400

/-- The fields of `time.Time` that `Before` reads: `wall` (nanoseconds, no
monotonic reading) and `ext` (seconds since year 1). -/
structure Time where
  wall : Nat
  ext : Int
  deriving DecidableEq, Repr

/-- Model of `time.Unix(sec, 0)`: `Time{0, sec + unixToInternal, Local}`, the
sum being an `int64` addition. -/
def time.Unix (sec : Int) : Time := ⟨0, wrapInt64 (sec + time.unixToInternal)⟩

/-- Model of `t.Before(u)` for times without monotonic reading. -/
def Time.Before (t u : Time) : Bool :=
  decide (t.ext < u.ext) || (decide (t.ext = u.ext) && decide (t.wall < u.wall))

/-! ## `path` -/

/-- Test `c != '/'` of the copy loop of `path.Clean`. -/
def path.notSlash (c : Char) : Bool := decide (c ≠ '/')

/-- Backtracking of the `..` case of `path.Clean`: from width `w + 1`,
decrement once and then while above `dotdot` and not on a slash. -/
def path.backtrack (out : Str) (dotdot : Nat) : Nat → Nat
  | 0 => 0
  | w + 1 => if w + 1 > dotdot ∧ out.get? (w + 1) ≠ some '/' then path.backtrack out dotdot w else w + 1

/-- Main loop of `path.Clean`; `p` is the unread input `path[r:]`, `out` the
output buffer and `dotdot` the index below which `..` cannot backtrack.  Each
round reads at least one character, so `fuel = len(path)` is enough. -/
def path.cleanLoop (rooted : Bool) : Nat → Str → Str → Nat → Str
  | 0, _, out, _ => out
  | _ + 1, [], out, _ => out
  | fuel + 1, c :: r, out, dotdot =>
    if c = '/' then path.cleanLoop rooted fuel r out dotdot
    else if c = '.' ∧ (r = [] ∨ r.head? = some '/') then path.cleanLoop rooted fuel r out dotdot
    else if c = '.' ∧ r.head? = some '.' ∧ (r.tail = [] ∨ r.tail.head? = some '/') then
      if out.length > dotdot then
        path.cleanLoop rooted fuel r.tail (out.take (path.backtrack out dotdot (out.length - 1))) dotdot
      else if !rooted then
        let out1 := (if out.length > 0 then out ++ ['/'] else out) ++ ['.', '.']
        path.cleanLoop rooted fuel r.tail out1 out1.length
      else path.cleanLoop rooted fuel r.tail out dotdot
    else
      let out1 := if (rooted ∧ out.length ≠ 1) ∨ (!rooted ∧ out.length ≠ 0) then out ++ ['/'] else out
      path.cleanLoop rooted fuel ((c :: r).dropWhile path.notSlash)
        (out1 ++ (c :: r).takeWhile path.notSlash) dotdot

/-- Model of `path.Clean`. -/
def path.Clean (p : Str) : Str :=
  if p = [] then ['.']
  else
    let rooted : Bool := p.head? = some '/'
    let out := if rooted then path.cleanLoop true p.length p.tail ['/'] 1
               else path.cleanLoop false p.length p [] 0
    if out = [] then ['.'] else out

/-- Model of `path.Join(a, b)` for two elements: empty elements are ignored,
the others are joined by a slash and the result is cleaned. -/
def path.Join (a b : Str) : Str :=
  if a = [] ∧ b = [] then []
  else if a = [] then path.Clean b
  else path.Clean (a ++ '/' :: b)

/-- Index just after the last slash of `p` (0 when there is none): `i + 1`
for `i = strings.LastIndex(p, "/")`. -/
def path.afterLastSlash : Str → Nat
  | [] => 0
  | c :: r =>
    if r.contains '/' then path.afterLastSlash r + 1
    else if c = '/' then 1 else 0

/-- Model of `path.Dir`: the cleaned text up to and including the last slash. -/
def path.Dir (p : Str) : Str := path.Clean (p.take (path.afterLastSlash p))

/-- Removal of trailing slashes, first loop of `path.Base`. -/
def path.stripTrailingSlashes (p : Str) : Str := (p.reverse.dropWhile (fun x => x = '/')).reverse

/-- Model of `path.Base`: the last element of the path. -/
def path.Base (p : Str) : Str :=
  if p = [] then ['.']
  else
    let q := path.stripTrailingSlashes p
    let e := q.drop (path.afterLastSlash q)
    if e = [] then ['/'] else e

/-! ## `regexp`

The model covers the following fragment of Go's regular-expression syntax:
literal characters, `.`, `\d`, an escaped punctuation character, capturing
groups, alternation and the greedy operators `*`, `+`, `?`.  `MustCompile`
returns `none` both where Go's `MustCompile` panics and where the pattern
leaves the fragment. -/

/-- Abstract syntax of the modelled regular expressions. -/
inductive Regex
  | eps
  | lit (c : Char)
  | any
  | digit
  | cat (a b : Regex)
  | alt (a b : Regex)
  | star (a : Regex)
  | plus (a : Regex)
  | opt (a : Regex)
  | group (i : Nat) (a : Regex)
  deriving DecidableEq, Repr

/-- Lexical items of a pattern. -/
inductive RTok
  | chr (c : Char)
  | dot
  | dig
  | lpar
  | rpar
  | bar
  | star
  | plus
  | quest
  deriving DecidableEq, Repr

/-- ASCII letters and digits (`isalnum` of `regexp/syntax`). -/
def isAlnum (c : Char) : Bool :=
  isDigit c || (decide ('A'.toNat ≤ c.toNat) && decide (c.toNat ≤ 'Z'.toNat))
    || (decide ('a'.toNat ≤ c.toNat) && decide (c.toNat ≤ 'z'.toNat))

/-- Characters with a special meaning in a pattern. -/
def isMeta (c : Char) : Bool :=
  c = '\\' || c = '.' || c = '(' || c = ')' || c = '|' || c = '*' || c = '+' || c = '?'
    || c = '[' || c = '{' || c = '^' || c = '$'

/-- Lexer of the fragment: `\d` is the digit class, a backslash before an
ASCII character that is not alphanumeric quotes it, and `[`, `{`, `^`, `$` and
all other escapes are outside the fragment. -/
def lex : Str → Option (List RTok)
  | [] => some []
  | '\\' :: c :: r =>
    if c = 'd' then (lex r).map (fun ts => RTok.dig :: ts)
    else if c.toNat < 128 ∧ !isAlnum c then (lex r).map (fun ts => RTok.chr c :: ts)
    else none
  | c :: r =>
    if c = '\\' ∨ c = '[' ∨ c = '{' ∨ c = '^' ∨ c = '$' then none
    else
      let t : RTok :=
        if c = '.' then RTok.dot
        else if c = '(' then RTok.lpar
        else if c = ')' then RTok.rpar
        else if c = '|' then RTok.bar
        else if c = '*' then RTok.star
        else if c = '+' then RTok.plus
        else if c = '?' then RTok.quest
        else RTok.chr c
      (lex r).map (fun ts => t :: ts)

/-- A group being read: its capture index, the alternatives already closed by
`|` and the items of the current alternative, both most recent first. -/
structure Frame where
  cap : Nat
  alts : List Regex
  cur : List Regex
  deriving Repr

/-- State of the parser: the innermost open group, the enclosing ones, the
number of capturing groups seen, and whether the last item was a repetition
operator. -/
structure PState where
  top : Frame
  stack : List Frame
  ncap : Nat
  rep : Bool
  deriving Repr

/-- Concatenation of a list of expressions. -/
def catAll (l : List Regex) : Regex := l.foldr Regex.cat Regex.eps

/-- The expression of a frame: the alternation of its alternatives. -/
def Frame.close (f : Frame) : Regex :=
  f.alts.foldl (fun acc a => Regex.alt a acc) (catAll f.cur.reverse)

/-- Whether an expression can match the empty string. -/
def Regex.nullable : Regex → Bool
  | Regex.eps => true
  | Regex.lit _ => false
  | Regex.any => false
  | Regex.digit => false
  | Regex.cat a b => a.nullable && b.nullable
  | Regex.alt a b => a.nullable || b.nullable
  | Regex.star _ => true
  | Regex.plus a => a.nullable
  | Regex.opt _ => true
  | Regex.group _ a => a.nullable

/-- Adds an item to the current alternative. -/
def PState.push (st : PState) (r : Regex) : PState :=
  { st with top := { st.top with cur := r :: st.top.cur }, rep := false }

/-- Applies a repetition operator to the last item.  A repetition operator
directly after another one (a syntax error or a non-greedy operator in Go), one
without an argument, and `*` or `+` over an expression that matches the empty
string are not in the fragment. -/
def PState.repeat (st : PState) (op : Regex → Regex) (needsProgress : Bool) : Option PState :=
  if st.rep then none
  else
    match st.top.cur with
    | [] => none
    | a :: rest =>
      if needsProgress ∧ a.nullable then none
      else some { st with top := { st.top with cur := op a :: rest }, rep := true }

/-- One step of the parser. -/
def pstep (st : PState) : RTok → Option PState
  | RTok.chr c => some (st.push (Regex.lit c))
  | RTok.dot => some (st.push Regex.any)
  | RTok.dig => some (st.push Regex.digit)
  | RTok.lpar =>
    some { top := ⟨st.ncap + 1, [], []⟩, stack := st.top :: st.stack, ncap := st.ncap + 1, rep := false }
  | RTok.rpar =>
    match st.stack with
    | [] => none
    | parent :: rest =>
      some { top := { parent with cur := Regex.group st.top.cap st.top.close :: parent.cur },
             stack := rest, ncap := st.ncap, rep := false }
  | RTok.bar =>
    some { st with top := { st.top with alts := catAll st.top.cur.reverse :: st.top.alts, cur := [] },
                   rep := false }
  | RTok.star => st.repeat Regex.star true
  | RTok.plus => st.repeat Regex.plus true
  | RTok.quest => st.repeat Regex.opt false

/-- Runs the parser over a list of lexical items. -/
def pfold : PState → List RTok → Option PState
  | st, [] => some st
  | st, t :: ts => (pstep st t).bind (fun st1 => pfold st1 ts)

/-- A compiled pattern: the expression and its number of capturing groups
(`NumSubexp`). -/
structure Regexp where
  prog : Regex
  numSubexp : Nat
  deriving DecidableEq, Repr

/-- Initial state of the parser. -/
def PState.init : PState := ⟨⟨0, [], []⟩, [], 0, false⟩

/-- Model of `regexp.MustCompile` on the fragment; `none` stands for a panic
or for a pattern outside the fragment. -/
def MustCompile (pattern : Str) : Option Regexp :=
  (lex pattern).bind fun ts =>
    (pfold PState.init ts).bind fun st =>
      match st.stack with
      | [] => some ⟨st.top.close, st.ncap⟩
      | _ :: _ => none

/-- A thread of the backtracking search: the unread input and the captures. -/
abbrev Thread := Str × List Str

/-- Greedy iteration: the threads of `f*` in priority order, each round of `f`
having to consume input. -/
def starRun (f : Str → List Str → List Thread) : Nat → Str → List Str → List Thread
  | 0, s, caps => [(s, caps)]
  | n + 1, s, caps =>
    (((f s caps).filter (fun t => decide (t.1.length < s.length))).flatMap
      (fun t => starRun f n t.1 t.2)) ++ [(s, caps)]

/-- Backtracking matcher: all ways to match a prefix of `s`, in the order a
backtracking search tries them (leftmost-first semantics), each with the unread
rest of the input and the captures. -/
def Regex.run : Regex → Str → List Str → List Thread
  | Regex.eps, s, caps => [(s, caps)]
  | Regex.lit c, s, caps =>
    match s with
    | x :: xs => if x = c then [(xs, caps)] else []
    | [] => []
  | Regex.any, s, caps =>
    match s with
    | x :: xs => if x = '\n' then [] else [(xs, caps)]
    | [] => []
  | Regex.digit, s, caps =>
    match s with
    | x :: xs => if isDigit x then [(xs, caps)] else []
    | [] => []
  | Regex.cat a b, s, caps => (a.run s caps).flatMap (fun t => b.run t.1 t.2)
  | Regex.alt a b, s, caps => a.run s caps ++ b.run s caps
  | Regex.star a, s, caps => starRun a.run s.length s caps
  | Regex.plus a, s, caps => (a.run s caps).flatMap (fun t => starRun a.run t.1.length t.1 t.2)
  | Regex.opt a, s, caps => a.run s caps ++ [(s, caps)]
  | Regex.group i a, s, caps =>
    (a.run s caps).map (fun t => (t.1, t.2.set i (s.take (s.length - t.1.length))))

/-- Unanchored search: the first thread of the first start position that has one. -/
def searchFrom (re : Regexp) : Str → Option (List Str)
  | [] =>
    match re.prog.run [] (List.replicate (re.numSubexp + 1) []) with
    | t :: _ => some (t.2.set 0 [])
    | [] => none
  | c :: s =>
    match re.prog.run (c :: s) (List.replicate (re.numSubexp + 1) []) with
    | t :: _ => some (t.2.set 0 ((c :: s).take ((c :: s).length - t.1.length)))
    | [] => searchFrom re s

/-- Model of `re.FindStringSubmatch(s)`: the text of the leftmost match and of
its capturing groups, or `none` (Go's `nil`) when there is no match. -/
def Regexp.FindStringSubmatch (re : Regexp) (s : Str) : Option (List Str) := searchFrom re s

/-! ## The program: `pcapfiles.go` -/

/-- The errors the file returns: the type `ErrOutOfFiles` and the four errors
made with `errors.New` and `fmt.Errorf`. -/
inductive GoError
  | ErrOutOfFiles
  | NoFileAvailable
  | InvalidFileName
  | InvalidTimestamp
  | CantOpenDirectory
  deriving DecidableEq, Repr

/-- The message of an error (for `CantOpenDirectory`, its fixed beginning). -/
def GoError.Error : GoError → String
  | GoError.ErrOutOfFiles => "No more files"
  | GoError.NoFileAvailable => "No file available"
  | GoError.InvalidFileName => "Invalid file name in event"
  | GoError.InvalidTimestamp => "Invalid timestamp in file name"
  | GoError.CantOpenDirectory => "Can't open directory"

/-- Modelled from the spec: the type `Event` is declared in another file of the
package; the code here reads only its field `CaptureFile`, the optional name
of a known capture file. -/
structure Event where
  CaptureFile : Str
  deriving DecidableEq, Repr

/-- The struct `PcapFileList`.  `FileParsing` is a pointer, `none` being nil. -/
structure PcapFileList where
  Files : List Str
  DirName : Str
  FileName : Str
  Index : Int
  FileParsing : Option Regexp
  ThreadIndex : Int
  TimestampIndex : Int
  deriving DecidableEq, Repr

/-- Indexing of a slice by a Go `int`: `none` is the run-time panic "index out
of range". -/
def goIndex {α : Type} (l : List α) (i : Int) : Option α :=
  if i < 0 then none else l.get? i.toNat

/-- The token `%n` (thread number). -/
def tokN : Str := ['%', 'n']

/-- The token `%i` (thread id). -/
def tokI : Str := ['%', 'i']

/-- The token `%t` (timestamp). -/
def tokT : Str := ['%', 't']

/-- The replacement text `(\d+)`. -/
def digitsGroup : Str := ['(', '\\', 'd', '+', ')']

/-- The pattern text built by `buildPcapNameParsing`: the first `%n`, the first
`%i` and the first `%t` are replaced, in this order, by `(\d+)`. -/
def regexpString (fileFormat : Str) : Str :=
  strings.Replace1 (strings.Replace1 (strings.Replace1 fileFormat tokN digitsGroup) tokI digitsGroup)
    tokT digitsGroup

/-- The local `threadIndex` of `buildPcapNameParsing`: position of `%n`, else of `%i`. -/
def threadTokenIndex (fileFormat : Str) : Int :=
  if strings.Index fileFormat tokN = -1 then strings.Index fileFormat tokI
  else strings.Index fileFormat tokN

/-- The method `buildPcapNameParsing`; `none` is the panic of `MustCompile`. -/
def buildPcapNameParsing (pl : PcapFileList) (fileFormat : Str) : Option PcapFileList :=
  let threadIndex := threadTokenIndex fileFormat
  let timestampIndex := strings.Index fileFormat tokT
  let pl1 : PcapFileList :=
    if threadIndex < timestampIndex then { pl with ThreadIndex := 1, TimestampIndex := 2 }
    else { pl with ThreadIndex := 2, TimestampIndex := 1 }
  let pl2 : PcapFileList :=
    if threadIndex = -1 then { pl1 with ThreadIndex := -1, TimestampIndex := 1 } else pl1
  (MustCompile (regexpString fileFormat)).map fun re => { pl2 with FileParsing := some re }

/-- The result of `GetNext`: the returned string, the returned error and the
list after the call. -/
structure GetNextResult where
  file : Str
  err : Option GoError
  pl : PcapFileList
  deriving DecidableEq, Repr

/-- The method `GetNext`; `none` is an index-out-of-range panic. -/
def GetNext (pl : PcapFileList) : Option GetNextResult :=
  if pl.Index < pl.Files.length then
    match goIndex pl.Files pl.Index with
    | none => none
    | some pfile => some ⟨pfile, none, { pl with Index := pl.Index + 1 }⟩
  else some ⟨[], some GoError.ErrOutOfFiles, pl⟩

/-- Thread test of the loop of `buildPcapList` on the submatches of a
candidate: `some true` when the loop goes on to the timestamp, `some false`
when it continues with the next file, `none` on an index panic. -/
def threadCheck (ThreadIndex : Int) (threadIndex : Int) (lMatch : List Str) : Option Bool :=
  if ThreadIndex ≠ -1 then
    match goIndex lMatch ThreadIndex with
    | none => none
    | some f =>
      let r := strconv.ParseInt f
      if r.2 ≠ none then some false
      else if r.1 ≠ threadIndex then some false
      else some true
  else some true

/-- Timestamp test of the loop of `buildPcapList`: `some true` when the file is
appended, `none` on an index panic. -/
def timestampCheck (TimestampIndex : Int) (timestamp : Time) (lMatch : List Str) : Option Bool :=
  match goIndex lMatch TimestampIndex with
  | none => none
  | some f =>
    let r := strconv.ParseInt f
    let lTimestamp := time.Unix r.1
    if r.2 ≠ none then some false
    else some (timestamp.Before lTimestamp)

/-- Body of the loop of `buildPcapList` for the directory entry `name`:
`some true` when the entry is appended, `some false` when it is skipped,
`none` on a panic. -/
def visitEntry (pl : PcapFileList) (re : Regexp) (filePart : Str) (threadIndex : Int)
    (timestamp : Time) (name : Str) : Option Bool :=
  if name = filePart then some false
  else
    match re.FindStringSubmatch name with
    | none => some false
    | some lMatch =>
      match threadCheck pl.ThreadIndex threadIndex lMatch with
      | none => none
      | some false => some false
      | some true => timestampCheck pl.TimestampIndex timestamp lMatch

/-- The loop of `buildPcapList` over the directory entries, `acc` being
`pl.Files`. -/
def scanEntries (pl : PcapFileList) (re : Regexp) (filePart dName : Str) (threadIndex : Int)
    (timestamp : Time) : List Str → List Str → Option (List Str)
  | [], acc => some acc
  | name :: rest, acc =>
    match visitEntry pl re filePart threadIndex timestamp name with
    | none => none
    | some true =>
      scanEntries pl re filePart dName threadIndex timestamp rest (acc ++ [path.Join dName name])
    | some false => scanEntries pl re filePart dName threadIndex timestamp rest acc

/-- The method `buildPcapList`.  `readDir` is `ioutil.ReadDir` (entry names, or
`none` when it returns an error).  The result is the list after the call and
the returned error; `none` is a panic. -/
def buildPcapList (readDir : Str → Option (List Str)) (pl : PcapFileList) :
    Option (PcapFileList × Option GoError) :=
  match pl.Files with
  | [] => some (pl, some GoError.NoFileAvailable)
  | f0 :: _ =>
    let dName := path.Dir f0
    let filePart := path.Base f0
    match pl.FileParsing with
    | none => none
    | some re =>
      let m := (re.FindStringSubmatch filePart).getD []
      if m.length = 0 then some (pl, some GoError.InvalidFileName)
      else
        let thread : Option Int :=
          if pl.ThreadIndex ≠ -1 then (goIndex m pl.ThreadIndex).map (fun f => (strconv.ParseInt f).1)
          else some (-1)
        match thread with
        | none => none
        | some threadIndex =>
          match goIndex m pl.TimestampIndex with
          | none => none
          | some f =>
            let r := strconv.ParseInt f
            let timestamp := time.Unix r.1
            if r.2 ≠ none then some (pl, some GoError.InvalidTimestamp)
            else
              let files := (readDir dName).getD []
              (scanEntries pl re filePart dName threadIndex timestamp files pl.Files).map
                fun fs => ({ pl with Files := fs }, none)

/-- The loop of `buildFullPcapList`, `acc` being `pl.Files`. -/
def scanAll (re : Regexp) (DirName : Str) : List Str → List Str → List Str
  | [], acc => acc
  | name :: rest, acc =>
    match re.FindStringSubmatch name with
    | none => scanAll re DirName rest acc
    | some _ => scanAll re DirName rest (acc ++ [path.Join DirName name])

/-- The method `buildFullPcapList`; `none` is a panic (nil `FileParsing`). -/
def buildFullPcapList (readDir : Str → Option (List Str)) (pl : PcapFileList) :
    Option (PcapFileList × Option GoError) :=
  match readDir pl.DirName with
  | none => some (pl, some GoError.CantOpenDirectory)
  | some files =>
    match files, pl.FileParsing with
    | [], _ => some (pl, none)
    | _ :: _, none => none
    | _ :: _, some re => some ({ pl with Files := scanAll re pl.DirName files pl.Files }, none)

/-- The value of `new(PcapFileList)`. -/
def PcapFileList.zero : PcapFileList :=
  { Files := [], DirName := [], FileName := [], Index := 0, FileParsing := none,
    ThreadIndex := 0, TimestampIndex := 0 }

/-- The constructor `NewPcapFileList`.  The outer `none` is a panic, the inner
one the returned `nil`. -/
def NewPcapFileList (readDir : Str → Option (List Str)) (dname : Str) (event : Event)
    (fileFormat : Str) : Option (Option PcapFileList) :=
  match buildPcapNameParsing { PcapFileList.zero with DirName := dname } fileFormat with
  | none => none
  | some pl =>
    if event.CaptureFile.length > 0 then
      let fullName := path.Join dname event.CaptureFile
      match buildPcapList readDir { pl with Files := pl.Files ++ [fullName] } with
      | none => none
      | some (_, some _) => some none
      | some (pl1, none) => some (some { pl1 with FileName := event.CaptureFile })
    else
      match buildFullPcapList readDir pl with
      | none => none
      | some (_, some _) => some none
      | some (pl1, none) => some (some pl1)

/-- A caller that invokes `GetNext` `n` times in a row: the returned
(string, error) pairs in call order and the final list; `none` on a panic. -/
def drain : Nat → PcapFileList → Option (List (Str × Option GoError) × PcapFileList)
  | 0, pl => some ([], pl)
  | n + 1, pl =>
    match GetNext pl with
    | none => none
    | some r => (drain n r.pl).map fun q => ((r.file, r.err) :: q.1, q.2)

/-- A bare file name: not empty, without slash, and neither `.` nor `..`. -/
def isBareName (s : Str) : Bool :=
  decide (s ≠ []) && !s.contains '/' && decide (s ≠ ['.']) && decide (s ≠ ['.', '.'])

/-- The 64-bit integer that the submatch at ordinal `idx` parses to, if the
submatch exists and `strconv.ParseInt` accepts it. -/
def fieldValue (m : List Str) (idx : Int) : Option Int :=
  match goIndex m idx with
  | none => none
  | some f => if (strconv.ParseInt f).2 = none then some (strconv.ParseInt f).1 else none

/-- Selection of a directory entry in seed mode, as a rule on the entry's
name: the name is not the seed's, the rule matches it, its thread field parses
and equals the seed's thread `tv`, and its timestamp field parses to a value
`v` with `later sv v`, `sv` being the seed's timestamp. -/
def seedSelects (later : Int → Int → Bool) (re : Regexp) (ThreadIndex TimestampIndex : Int)
    (seed : Str) (tv sv : Int) (name : Str) : Bool :=
  decide (name ≠ seed) &&
    match re.FindStringSubmatch name with
    | none => false
    | some m =>
      decide (fieldValue m ThreadIndex = some tv) &&
        match fieldValue m TimestampIndex with
        | none => false
        | some v => later sv v

/-- Plain order of timestamps: `b` is strictly greater than `a`. -/
def laterPlain (a b : Int) : Bool := decide (a < b)

/-- Order of timestamps after the `int64` addition of `unixToInternal` that
`time.Unix` performs. -/
def laterUnix (a b : Int) : Bool :=
  decide (wrapInt64 (a + 62135596800) < wrapInt64 (b + 62135596800))

/-! ## Templates as lists of pieces -/

/-- The three tokens of a template. -/
inductive Tok
  | n
  | i
  | t
  deriving DecidableEq, Repr

/-- The text of a token. -/
def Tok.text : Tok → Str
  | Tok.n => tokN
  | Tok.i => tokI
  | Tok.t => tokT

/-- A piece of a template: a literal character or a token. -/
inductive Piece
  | chr (c : Char)
  | tok (k : Tok)
  deriving DecidableEq, Repr

/-- The text of a list of pieces under a substitution: a token `k` with
`σ k = some w` is written `w`, the others are written as they are. -/
def piecesText (σ : Tok → Option Str) : List Piece → Str
  | [] => []
  | Piece.chr c :: ps => c :: piecesText σ ps
  | Piece.tok k :: ps => (σ k).getD k.text ++ piecesText σ ps

/-- The template text of a list of pieces. -/
def templateText (ps : List Piece) : Str := piecesText (fun _ => none) ps

/-- The tokens of a list of pieces, in order. -/
def piecesToks : List Piece → List Tok
  | [] => []
  | Piece.chr _ :: ps => piecesToks ps
  | Piece.tok k :: ps => k :: piecesToks ps

/-- A literal character that the pattern takes as written or as `.`: not `%`
and no metacharacter other than `.`. -/
def literalChar (c : Char) : Bool := decide (c ≠ '%') && (decide (c = '.') || !isMeta c)

/-- All literal characters of the pieces satisfy `literalChar`. -/
def literalPieces : List Piece → Bool
  | [] => true
  | Piece.chr c :: ps => literalChar c && literalPieces ps
  | Piece.tok _ :: ps => literalPieces ps

/-- The expressions that the pieces compile to, `k` being the number of groups
before them: a character stands for itself (`.` for any character) and each
token for a group `(\d+)`. -/
def piecesRegex (k : Nat) : List Piece → List Regex
  | [] => []
  | Piece.chr c :: ps => (if c = '.' then Regex.any else Regex.lit c) :: piecesRegex k ps
  | Piece.tok _ :: ps =>
    Regex.group (k + 1) (catAll [Regex.plus Regex.digit]) :: piecesRegex (k + 1) ps

/-- No token is directly followed by a digit or by another token. -/
def separatedPieces : List Piece → Bool
  | [] => true
  | Piece.chr _ :: ps => separatedPieces ps
  | Piece.tok _ :: Piece.chr c :: ps => !isDigit c && separatedPieces ps
  | Piece.tok _ :: Piece.tok _ :: _ => false
  | [Piece.tok _] => true

/-- A non-empty string of decimal digits. -/
def isDigits (d : Str) : Bool := decide (d ≠ []) && d.all isDigit

/-- The lexical items of the pattern text of a piece. -/
def pieceRToks : Piece → List RTok
  | Piece.chr c => [if c = '.' then RTok.dot else RTok.chr c]
  | Piece.tok _ => [RTok.lpar, RTok.dig, RTok.plus, RTok.rpar]

/-- The substitution that writes every token as `(\d+)`. -/
def groupSubst : Tok → Option Str := fun _ => some digitsGroup

/-- No literal character of the pieces is `%`. -/
def noPercent : List Piece → Bool
  | [] => true
  | Piece.chr c :: ps => decide (c ≠ '%') && noPercent ps
  | Piece.tok _ :: ps => noPercent ps

/-- The captures after the groups `k + 1, k + 2, ...` have been set to the
given texts. -/
def setGroups (k : Nat) : List Str → List Str → List Str
  | [], caps => caps
  | d :: ds, caps => setGroups (k + 1) ds (caps.set (k + 1) d)

/-- Offset in the template text at which the token `k` is written, if it is. -/
def tokOffset (k : Tok) : List Piece → Option Nat
  | [] => none
  | Piece.chr _ :: ps => (tokOffset k ps).map (fun j => j + 1)
  | Piece.tok k2 :: ps => if k2 = k then some 0 else (tokOffset k ps).map (fun j => j + 2)

/-- A character that a pattern takes as written: not `%` and no metacharacter. -/
def plainChar (c : Char) : Bool := decide (c ≠ '%') && !isMeta c

/-- The value of the local `threadIndex` of `buildPcapList` after the seed's
match `m` has been read: `-1` without thread ordinal, else what
`strconv.ParseInt` returns for the thread field, error or not. -/
def seedThreadValue (pl : PcapFileList) (m : List Str) : Int :=
  if pl.ThreadIndex ≠ -1 then
    ((goIndex m pl.ThreadIndex).map (fun f => (strconv.ParseInt f).1)).getD (-1)
  else -1

/-- What `NewPcapFileList` returns for the result of one of the two builders:
`nil` on an error, the list otherwise. -/
def listOrNil (r : PcapFileList × Option GoError) : Option PcapFileList :=
  match r.2 with
  | some _ => none
  | none => some r.1

/-- The ordinal of the group that the token `k` compiles to: groups are
numbered from 1 in the order of the tokens in the template. -/
def tokOrdinal (k : Tok) (ps : List Piece) : Int := ((piecesToks ps).indexOf k : Int) + 1

/-- Largest timestamp that `time.Unix` takes without `int64` wrap-around:
`2^63 - 1 - 62135596800`. -/
def maxPlainTimestamp : Int := 9223371974719179007

/-- Every entry of the listing that the rule matches and whose submatch at
ordinal `idx` parses has there a value of at most `maxPlainTimestamp`. -/
def timestampsInRange (re : Regexp) (idx : Int) (listing : List Str) : Bool :=
  listing.all fun n =>
    match re.FindStringSubmatch n with
    | none => true
    | some lm =>
      match fieldValue lm idx with
      | none => true
      | some v => decide (v ≤ maxPlainTimestamp)

/-! ## Concrete data used in examples -/

/-- The template `cap.%n.%t.pcap`. -/
def capTemplate : Str := "cap.%n.%t.pcap".toList

/-- The rule compiled from `cap.(\d+).(\d+).pcap`. -/
def capRule : Regexp :=
  ⟨catAll [Regex.lit 'c', Regex.lit 'a', Regex.lit 'p', Regex.any,
      Regex.group 1 (catAll [Regex.plus Regex.digit]), Regex.any,
      Regex.group 2 (catAll [Regex.plus Regex.digit]), Regex.any,
      Regex.lit 'p', Regex.lit 'c', Regex.lit 'a', Regex.lit 'p'], 2⟩

/-- The list that `buildPcapNameParsing` makes of `capTemplate` in directory `/data`. -/
def capList : PcapFileList :=
  { PcapFileList.zero with
    DirName := "/data".toList, FileParsing := some capRule, ThreadIndex := 1, TimestampIndex := 2 }

/-- The rule compiled from `log.(\d+).(\d+).pcap`. -/
def logRule : Regexp :=
  ⟨catAll [Regex.lit 'l', Regex.lit 'o', Regex.lit 'g', Regex.any,
      Regex.group 1 (catAll [Regex.plus Regex.digit]), Regex.any,
      Regex.group 2 (catAll [Regex.plus Regex.digit]), Regex.any,
      Regex.lit 'p', Regex.lit 'c', Regex.lit 'a', Regex.lit 'p'], 2⟩

/-- The rule compiled from `cap.(\d+).pcap`. -/
def capTimeRule : Regexp :=
  ⟨catAll [Regex.lit 'c', Regex.lit 'a', Regex.lit 'p', Regex.any,
      Regex.group 1 (catAll [Regex.plus Regex.digit]), Regex.any,
      Regex.lit 'p', Regex.lit 'c', Regex.lit 'a', Regex.lit 'p'], 1⟩

/-- The pieces of the template `log.%n.%t.pcap`. -/
def logPieces : List Piece :=
  [Piece.chr 'l', Piece.chr 'o', Piece.chr 'g', Piece.chr '.', Piece.tok Tok.n, Piece.chr '.',
    Piece.tok Tok.t, Piece.chr '.', Piece.chr 'p', Piece.chr 'c', Piece.chr 'a', Piece.chr 'p']

/-- Digit strings for the tokens: `1` for `%n`, `7` for `%i`, `100` for `%t`. -/
def sampleDigits : Tok → Str
  | Tok.n => ['1']
  | Tok.i => ['7']
  | Tok.t => ['1', '0', '0']

/-- The rule compiled from `(\d+)(\d+)`, the pattern of the template `%n%t`. -/
def adjacentRule : Regexp :=
  ⟨catAll [Regex.group 1 (catAll [Regex.plus Regex.digit]),
      Regex.group 2 (catAll [Regex.plus Regex.digit])], 2⟩

/-- The rule compiled from `abc`. -/
def abcRule : Regexp := ⟨catAll [Regex.lit 'a', Regex.lit 'b', Regex.lit 'c'], 0⟩

/-- The rule compiled from `cap.(\d+).(\d+).(\d+).pcap`, the pattern of the
template `cap.%n.%i.%t.pcap`. -/
def threeGroupRule : Regexp :=
  ⟨catAll [Regex.lit 'c', Regex.lit 'a', Regex.lit 'p', Regex.any,
      Regex.group 1 (catAll [Regex.plus Regex.digit]), Regex.any,
      Regex.group 2 (catAll [Regex.plus Regex.digit]), Regex.any,
      Regex.group 3 (catAll [Regex.plus Regex.digit]), Regex.any,
      Regex.lit 'p', Regex.lit 'c', Regex.lit 'a', Regex.lit 'p'], 3⟩

/-- The list that `buildPcapNameParsing` makes of `cap.%n.%i.%t.pcap` and of
`cap.%i.%n.%t.pcap` in directory `/data`. -/
def threeGroupList : PcapFileList :=
  { PcapFileList.zero with
    DirName := "/data".toList, FileParsing := some threeGroupRule, ThreadIndex := 1,
    TimestampIndex := 2 }

/-- The pieces of the template `cap.%n.%t.pcap`. -/
def capPieces : List Piece :=
  [Piece.chr 'c', Piece.chr 'a', Piece.chr 'p', Piece.chr '.', Piece.tok Tok.n, Piece.chr '.',
    Piece.tok Tok.t, Piece.chr '.', Piece.chr 'p', Piece.chr 'c', Piece.chr 'a', Piece.chr 'p']

/-! # Properties -/

/-! ## The sequential accessor -/

theorem goIndex_natCast {α : Type} (l : List α) (i : Nat) : goIndex l (i : Int) = l.get? i := by
  unfold goIndex
  have h : ¬ ((i : Int) < 0) := by omega
  simp [h]

theorem GetNext_of_lt (pl : PcapFileList) (i : Nat) (hi : pl.Index = (i : Int))
    (h : i < pl.Files.length) :
    GetNext pl = some ⟨pl.Files.get ⟨i, h⟩, none, { pl with Index := pl.Index + 1 }⟩ := by
  unfold GetNext
  have h1 : pl.Index < (pl.Files.length : Int) := by omega
  rw [if_pos h1, hi, goIndex_natCast, List.get?_eq_get h]

theorem GetNext_of_ge (pl : PcapFileList) (h : (pl.Files.length : Int) ≤ pl.Index) :
    GetNext pl = some ⟨[], some GoError.ErrOutOfFiles, pl⟩ := by
  unfold GetNext
  have h1 : ¬ (pl.Index < (pl.Files.length : Int)) := by omega
  rw [if_neg h1]

theorem drain_available (k : Nat) : ∀ (pl : PcapFileList) (i : Nat), pl.Index = (i : Int) →
    i + k ≤ pl.Files.length →
    drain k pl = some (((pl.Files.drop i).take k).map (fun f => (f, none)),
      { pl with Index := ((i + k : Nat) : Int) }) := by
  induction k with
  | zero =>
    intro pl i hi _
    cases pl
    simp only [] at hi
    subst hi
    simp [drain]
  | succ k ih =>
    intro pl i hi hk
    have hlt : i < pl.Files.length := by omega
    have hstep := GetNext_of_lt pl i hi hlt
    have hrec := ih { pl with Index := pl.Index + 1 } (i + 1) (by simp [hi])
      (by simpa using (by omega : i + 1 + k ≤ pl.Files.length))
    simp only [] at hrec
    have hd : pl.Files.drop i = pl.Files.get ⟨i, hlt⟩ :: pl.Files.drop (i + 1) := by
      simp
    simp only [drain, hstep, hrec, Option.map_some', hd, List.take_succ_cons, List.map_cons]
    have e : i + 1 + k = i + (k + 1) := by omega
    rw [e]

theorem drain_exhausted (j : Nat) : ∀ (pl : PcapFileList), (pl.Files.length : Int) ≤ pl.Index →
    drain j pl = some (List.replicate j ([], some GoError.ErrOutOfFiles), pl) := by
  induction j with
  | zero => intro pl _; simp [drain]
  | succ j ih =>
    intro pl h
    simp [drain, GetNext_of_ge pl h, ih pl h, List.replicate_succ]

theorem drain_add (a : Nat) : ∀ (b : Nat) (pl : PcapFileList),
    drain (a + b) pl = (drain a pl).bind fun q => (drain b q.2).map fun q2 => (q.1 ++ q2.1, q2.2) := by
  induction a with
  | zero => intro b pl; simp [drain]
  | succ a ih =>
    intro b pl
    rw [Nat.succ_add]
    simp only [drain]
    cases hg : GetNext pl with
    | none => simp
    | some r =>
      simp only [ih b r.pl]
      cases hd : drain a r.pl with
      | none => simp
      | some q =>
        simp only [Option.map_some', Option.some_bind, Option.map_map]
        cases drain b q.2 <;> simp

/-- C3: on a list with `0 <= Index < len(Files)`, `GetNext` returns
`(Files[Index], nil)`, adds exactly 1 to `Index` and changes no other field;
hence, from `Index = 0`, `k` calls in a row (`k <= len(Files)`) return
`Files[0], ..., Files[k-1]` in list order, each once, and leave `Index = k`. -/
theorem getNext_returns_files_in_order (pl : PcapFileList) (i : Nat) (hi : pl.Index = (i : Int))
    (h : i < pl.Files.length) :
    GetNext pl = some ⟨pl.Files.get ⟨i, h⟩, none, { pl with Index := pl.Index + 1 }⟩ ∧
    ∀ k, k ≤ pl.Files.length →
      drain k { pl with Index := 0 } =
        some ((pl.Files.take k).map (fun f => (f, none)), { pl with Index := (k : Int) }) := by
  refine ⟨GetNext_of_lt pl i hi h, ?_⟩
  intro k hk
  have := drain_available k { pl with Index := 0 } 0 rfl (by simpa using hk)
  simpa using this

/-- Witness of C3 on a list of three files with the cursor on the second. -/
theorem getNext_returns_files_in_order_witness :
    GetNext { PcapFileList.zero with Files := [['a'], ['b'], ['c']], Index := 1 } =
      some ⟨['b'], none, { PcapFileList.zero with Files := [['a'], ['b'], ['c']], Index := 2 }⟩ ∧
    drain 3 { PcapFileList.zero with Files := [['a'], ['b'], ['c']], Index := 0 } =
      some ([(['a'], none), (['b'], none), (['c'], none)],
        { PcapFileList.zero with Files := [['a'], ['b'], ['c']], Index := 3 }) := by
  have h := getNext_returns_files_in_order
    { PcapFileList.zero with Files := [['a'], ['b'], ['c']], Index := 1 } 1 rfl (by decide)
  exact ⟨h.1, h.2 3 (by decide)⟩

/-- C4: on a list whose cursor starts at 0, `len(Files)` calls of `GetNext`
succeed and return the files, every one of `j` further calls returns the empty
string with `ErrOutOfFiles`, and the state after them is the state after the
last successful call (`Index = len(Files)`, all other fields as they were);
a failing call returns the list unchanged. -/
theorem getNext_exhaustion_is_terminal (pl : PcapFileList) (j : Nat) (h0 : pl.Index = 0) :
    drain (pl.Files.length + j) pl =
      some (pl.Files.map (fun f => (f, none)) ++ List.replicate j ([], some GoError.ErrOutOfFiles),
        { pl with Index := (pl.Files.length : Int) }) ∧
    ∀ q : PcapFileList, (q.Files.length : Int) ≤ q.Index →
      GetNext q = some ⟨[], some GoError.ErrOutOfFiles, q⟩ := by
  refine ⟨?_, fun q hq => GetNext_of_ge q hq⟩
  rw [drain_add]
  have h1 := drain_available pl.Files.length pl 0 (by simpa using h0) (by simp)
  simp only [List.drop_zero, List.take_length, Nat.zero_add] at h1
  rw [h1]
  simp only [Option.some_bind]
  rw [drain_exhausted j _ (by simp)]
  simp

/-- Witness of C4 on a list of two files and three calls after exhaustion. -/
theorem getNext_exhaustion_is_terminal_witness :
    drain 5 { PcapFileList.zero with Files := [['a'], ['b']] } =
      some ([(['a'], none), (['b'], none), ([], some GoError.ErrOutOfFiles),
          ([], some GoError.ErrOutOfFiles), ([], some GoError.ErrOutOfFiles)],
        { PcapFileList.zero with Files := [['a'], ['b']], Index := 2 }) :=
  (getNext_exhaustion_is_terminal { PcapFileList.zero with Files := [['a'], ['b']] } 3 rfl).1

/-! ## `strings.Index` -/

theorem indexFrom_spec (sub : Str) : ∀ (s : Str) (k : Nat),
    (strings.indexFrom sub s k = -1 ∧ ¬ sub <:+: s) ∨
    (∃ j : Nat, strings.indexFrom sub s k = ((k + j : Nat) : Int) ∧ j ≤ s.length ∧
      sub <+: s.drop j ∧ ∀ i, i < j → ¬ sub <+: s.drop i) := by
  intro s
  induction s with
  | nil =>
    intro k
    by_cases h : sub = []
    · right
      exact ⟨0, by simp [strings.indexFrom, h], by simp, by simp [h], by intro i hi; omega⟩
    · left
      exact ⟨by simp [strings.indexFrom, h], by simpa using h⟩
  | cons c s ih =>
    intro k
    by_cases h : sub.isPrefixOf (c :: s) = true
    · right
      refine ⟨0, by simp [strings.indexFrom, h], by simp, ?_, by intro i hi; omega⟩
      simpa using List.isPrefixOf_iff_prefix.mp h
    · have hp : ¬ sub <+: c :: s := fun hp => h (List.isPrefixOf_iff_prefix.mpr hp)
      rcases ih (k + 1) with ⟨h1, h2⟩ | ⟨j, h1, h2, h3, h4⟩
      · left
        refine ⟨by simp [strings.indexFrom, h, h1], ?_⟩
        rw [List.infix_cons_iff]
        exact fun hh => hh.elim hp h2
      · right
        refine ⟨j + 1, ?_, by simpa using h2, by simpa using h3, ?_⟩
        · simp only [strings.indexFrom, h, h1]
          simp only [Bool.false_eq_true, if_false]
          congr 1
          omega
        · intro i hi
          cases i with
          | zero => simpa using hp
          | succ i => simpa using h4 i (by omega)

theorem Index_eq_neg_one_iff (s sub : Str) : strings.Index s sub = -1 ↔ ¬ sub <:+: s := by
  unfold strings.Index
  rcases indexFrom_spec sub s 0 with ⟨h1, h2⟩ | ⟨j, h1, _, h3, _⟩
  · simp [h1, h2]
  · constructor
    · intro h
      rw [h1] at h
      omega
    · intro h
      obtain ⟨t, ht⟩ := h3
      exact absurd ⟨s.take j, t, by rw [List.append_assoc, ht, List.take_append_drop]⟩ h

theorem Index_of_infix (s sub : Str) (h : sub <:+: s) :
    ∃ j : Nat, strings.Index s sub = (j : Int) ∧ sub <+: s.drop j := by
  unfold strings.Index
  rcases indexFrom_spec sub s 0 with ⟨_, h2⟩ | ⟨j, h1, _, h3, _⟩
  · exact absurd h h2
  · exact ⟨j, by simpa using h1, h3⟩

theorem threadTokenIndex_eq_neg_one_iff (fmt : Str) :
    threadTokenIndex fmt = -1 ↔ ¬ tokN <:+: fmt ∧ ¬ tokI <:+: fmt := by
  unfold threadTokenIndex
  by_cases h : strings.Index fmt tokN = -1
  · rw [if_pos h, Index_eq_neg_one_iff]
    rw [Index_eq_neg_one_iff] at h
    simp [h]
  · rw [if_neg h]
    have h2 : tokN <:+: fmt := by
      by_contra hc
      exact h ((Index_eq_neg_one_iff _ _).mpr hc)
    simp [h, h2]

theorem threadToken_position (fmt : Str) (h : tokN <:+: fmt ∨ tokI <:+: fmt) :
    ∃ j : Nat, threadTokenIndex fmt = (j : Int) ∧ (tokN <+: fmt.drop j ∨ tokI <+: fmt.drop j) := by
  unfold threadTokenIndex
  by_cases hn : strings.Index fmt tokN = -1
  · rw [if_pos hn]
    have hi : tokI <:+: fmt :=
      h.elim (fun h1 => absurd h1 ((Index_eq_neg_one_iff _ _).mp hn)) id
    obtain ⟨j, h1, h2⟩ := Index_of_infix fmt tokI hi
    exact ⟨j, h1, Or.inr h2⟩
  · rw [if_neg hn]
    have h2 : tokN <:+: fmt := by
      by_contra hc
      exact hn ((Index_eq_neg_one_iff _ _).mpr hc)
    obtain ⟨j, h1, h3⟩ := Index_of_infix fmt tokN h2
    exact ⟨j, h1, Or.inl h3⟩

theorem threadTokenIndex_ne_timestampIndex (fmt : Str) (h : tokN <:+: fmt ∨ tokI <:+: fmt)
    (ht : tokT <:+: fmt) : threadTokenIndex fmt ≠ strings.Index fmt tokT := by
  obtain ⟨j, h1, h2⟩ := threadToken_position fmt h
  obtain ⟨k, h3, h4⟩ := Index_of_infix fmt tokT ht
  rw [h1, h3]
  intro he
  have hjk : j = k := by exact_mod_cast he
  subst hjk
  obtain ⟨b, hb⟩ := h4
  rcases h2 with ⟨a, ha⟩ | ⟨a, ha⟩
  · rw [← hb] at ha
    simp [tokN, tokT] at ha
  · rw [← hb] at ha
    simp [tokI, tokT] at ha

/-! ## The pattern compiler -/

/-- C5: for a template that contains a thread token (`%n`, or `%i` when `%n`
is absent) and `%t`, `buildPcapNameParsing` (when the pattern compiles) stores
`ThreadIndex = 1, TimestampIndex = 2` if the thread token starts before `%t`
and `ThreadIndex = 2, TimestampIndex = 1` if `%t` starts first; the two
positions are never equal. -/
theorem group_ordinals_follow_first_occurrence (pl : PcapFileList) (fmt : Str) (re : Regexp)
    (hthread : tokN <:+: fmt ∨ tokI <:+: fmt) (ht : tokT <:+: fmt)
    (hre : MustCompile (regexpString fmt) = some re) :
    threadTokenIndex fmt ≠ strings.Index fmt tokT ∧
    (threadTokenIndex fmt < strings.Index fmt tokT →
      buildPcapNameParsing pl fmt =
        some { pl with ThreadIndex := 1, TimestampIndex := 2, FileParsing := some re }) ∧
    (strings.Index fmt tokT < threadTokenIndex fmt →
      buildPcapNameParsing pl fmt =
        some { pl with ThreadIndex := 2, TimestampIndex := 1, FileParsing := some re }) := by
  have hne := threadTokenIndex_ne_timestampIndex fmt hthread ht
  have hpos : threadTokenIndex fmt ≠ -1 := by
    rw [Ne, threadTokenIndex_eq_neg_one_iff]
    intro hc
    exact hthread.elim hc.1 hc.2
  refine ⟨hne, ?_, ?_⟩
  · intro hlt
    simp [buildPcapNameParsing, hre, hlt, hpos]
  · intro hlt
    have hnlt : ¬ threadTokenIndex fmt < strings.Index fmt tokT := by omega
    simp [buildPcapNameParsing, hre, hnlt, hpos]

/-- C6: for a template that contains neither `%n` nor `%i`,
`buildPcapNameParsing` (when the pattern compiles) stores `ThreadIndex = -1`
and `TimestampIndex = 1`; and with `ThreadIndex = -1` the loop of
`buildPcapList` decides on an entry from its name, the match and the timestamp
only: the seed's thread value plays no part. -/
theorem thread_identity_absent (pl : PcapFileList) (fmt : Str) (re : Regexp)
    (hn : ¬ tokN <:+: fmt) (hi : ¬ tokI <:+: fmt)
    (hre : MustCompile (regexpString fmt) = some re) :
    buildPcapNameParsing pl fmt =
      some { pl with ThreadIndex := -1, TimestampIndex := 1, FileParsing := some re } ∧
    ∀ (q : PcapFileList) (rule : Regexp) (filePart : Str) (threadIndex : Int) (timestamp : Time)
      (name : Str), q.ThreadIndex = -1 →
      visitEntry q rule filePart threadIndex timestamp name =
        if name = filePart then some false
        else
          match rule.FindStringSubmatch name with
          | none => some false
          | some lMatch => timestampCheck q.TimestampIndex timestamp lMatch := by
  have h1 : threadTokenIndex fmt = -1 := (threadTokenIndex_eq_neg_one_iff fmt).mpr ⟨hn, hi⟩
  refine ⟨?_, ?_⟩
  · simp only [buildPcapNameParsing, hre, h1, Option.map_some', if_true]
    split <;> rfl
  · intro q rule filePart threadIndex timestamp name hq
    unfold visitEntry
    by_cases hname : name = filePart
    · simp [hname]
    · simp only [hname, if_false]
      cases rule.FindStringSubmatch name with
      | none => rfl
      | some lMatch => simp [threadCheck, hq]

/-! ## Full-scan mode -/

theorem scanAll_eq (re : Regexp) (DirName : Str) : ∀ (files acc : List Str),
    scanAll re DirName files acc =
      acc ++ (files.filter (fun n => (re.FindStringSubmatch n).isSome)).map (path.Join DirName) := by
  intro files
  induction files with
  | nil => intro acc; simp [scanAll]
  | cons name rest ih =>
    intro acc
    unfold scanAll
    cases h : re.FindStringSubmatch name with
    | none => simp [ih, h]
    | some m => simp [ih, h]

/-- Full-scan mode with the match test given as a predicate on names. -/
theorem buildFullPcapList_filter (readDir : Str → Option (List Str)) (pl : PcapFileList)
    (re : Regexp) (listing : List Str) (sel : Str → Bool) (hre : pl.FileParsing = some re)
    (hdir : readDir pl.DirName = some listing)
    (hsel : ∀ n, (re.FindStringSubmatch n).isSome = sel n) :
    buildFullPcapList readDir pl =
      some ({ pl with Files := pl.Files ++ (listing.filter sel).map (path.Join pl.DirName) },
        none) := by
  have hf : listing.filter (fun n => (re.FindStringSubmatch n).isSome) = listing.filter sel :=
    List.filter_congr (fun n _ => hsel n)
  unfold buildFullPcapList
  rw [hdir, hre]
  cases listing with
  | nil =>
    cases pl
    simp only [] at hre
    subst hre
    simp
  | cons a l =>
    simp only [scanAll_eq, hf]

/-- C2: when the directory is readable, `buildFullPcapList` appends to `Files`
the path `path.Join(DirName, name)` of exactly the entries whose name the
compiled rule matches, in listing order; nothing but the match decides, so
thread and timestamp values play no part. -/
theorem buildFullPcapList_exact (readDir : Str → Option (List Str)) (pl : PcapFileList)
    (re : Regexp) (listing : List Str) (hre : pl.FileParsing = some re)
    (hdir : readDir pl.DirName = some listing) :
    buildFullPcapList readDir pl =
      some ({ pl with Files := pl.Files ++
        (listing.filter (fun n => (re.FindStringSubmatch n).isSome)).map (path.Join pl.DirName) },
        none) := by
  unfold buildFullPcapList
  rw [hdir, hre]
  cases listing with
  | nil =>
    cases pl
    simp only [] at hre
    subst hre
    simp
  | cons a l => simp [scanAll_eq]

theorem capRule_compiles : MustCompile (regexpString capTemplate) = some capRule := by decide

theorem capList_built :
    buildPcapNameParsing { PcapFileList.zero with DirName := "/data".toList } capTemplate =
      some capList := by decide

/-- Witness of C5: `log.%n.%t.pcap` gives thread 1 and timestamp 2,
`log.%t.%n.pcap` gives timestamp 1 and thread 2. -/
theorem group_ordinals_follow_first_occurrence_witness :
    buildPcapNameParsing PcapFileList.zero "log.%n.%t.pcap".toList =
      some { PcapFileList.zero with ThreadIndex := 1, TimestampIndex := 2,
                                    FileParsing := some logRule } ∧
    buildPcapNameParsing PcapFileList.zero "log.%t.%n.pcap".toList =
      some { PcapFileList.zero with ThreadIndex := 2, TimestampIndex := 1,
                                    FileParsing := some logRule } :=
  ⟨(group_ordinals_follow_first_occurrence PcapFileList.zero "log.%n.%t.pcap".toList logRule
      (Or.inl (by decide)) (by decide) (by decide)).2.1 (by decide),
   (group_ordinals_follow_first_occurrence PcapFileList.zero "log.%t.%n.pcap".toList logRule
      (Or.inl (by decide)) (by decide) (by decide)).2.2 (by decide)⟩

/-- Witness of C6: the template `cap.%t.pcap` has no thread token. -/
theorem thread_identity_absent_witness :
    buildPcapNameParsing PcapFileList.zero "cap.%t.pcap".toList =
      some { PcapFileList.zero with ThreadIndex := -1, TimestampIndex := 1,
                                    FileParsing := some capTimeRule } :=
  (thread_identity_absent PcapFileList.zero "cap.%t.pcap".toList capTimeRule
    (by decide) (by decide) (by decide)).1

/-- Witness of C2: an entry with fields beyond 64 bits is listed, entries with
a non-numeric field or an unrelated name are not. -/
theorem buildFullPcapList_exact_witness :
    buildFullPcapList
        (fun _ => some ["cap.2.200.pcap".toList, "cap.x.100.pcap".toList,
          "cap.99999999999999999999.99999999999999999999.pcap".toList, "notes.txt".toList,
          "cap.1.50.pcap".toList])
        capList =
      some ({ capList with Files := ["/data/cap.2.200.pcap".toList,
          "/data/cap.99999999999999999999.99999999999999999999.pcap".toList,
          "/data/cap.1.50.pcap".toList] }, none) :=
  (buildFullPcapList_exact _ capList capRule _ rfl rfl).trans (by decide)

/-! ## `path`: the last element of a joined path -/

theorem cleanLoop_nil (rooted : Bool) (fuel : Nat) (out : Str) (dotdot : Nat) :
    path.cleanLoop rooted fuel [] out dotdot = out := by
  cases fuel <;> simp [path.cleanLoop]

theorem isBareName_iff (s : Str) :
    isBareName s = true ↔ s ≠ [] ∧ '/' ∉ s ∧ s ≠ ['.'] ∧ s ≠ ['.', '.'] := by
  simp [isBareName, and_assoc]

theorem notSlash_iff (c : Char) : path.notSlash c = true ↔ c ≠ '/' := by
  simp [path.notSlash]

theorem takeWhile_no_slash (s : Str) (h : '/' ∉ s) : s.takeWhile path.notSlash = s := by
  induction s with
  | nil => rfl
  | cons c r ih =>
    have hc : c ≠ '/' := fun e => h (by simp [e])
    have hr : '/' ∉ r := fun e => h (by simp [e])
    simp [List.takeWhile_cons, (notSlash_iff c).mpr hc, ih hr]

theorem dropWhile_no_slash (s : Str) (h : '/' ∉ s) : s.dropWhile path.notSlash = [] := by
  induction s with
  | nil => rfl
  | cons c r ih =>
    have hc : c ≠ '/' := fun e => h (by simp [e])
    have hr : '/' ∉ r := fun e => h (by simp [e])
    simp [List.dropWhile_cons, (notSlash_iff c).mpr hc, ih hr]

theorem dropWhile_append_slash (r s : Str) :
    (r ++ '/' :: s).dropWhile path.notSlash = r.dropWhile path.notSlash ++ '/' :: s := by
  induction r with
  | nil => simp [List.dropWhile_cons, path.notSlash]
  | cons c r ih =>
    by_cases hc : c = '/'
    · simp [List.dropWhile_cons, hc, path.notSlash]
    · simp [List.dropWhile_cons, (notSlash_iff c).mpr hc, ih]

theorem length_dropWhile_le (r : Str) (p : Char → Bool) : (r.dropWhile p).length ≤ r.length := by
  induction r with
  | nil => simp
  | cons c r ih =>
    rw [List.dropWhile_cons]
    split
    · simp; omega
    · simp

/-- The last step of `path.Clean` on a bare name: the name is copied to the
output, after a slash where one is needed. -/
theorem cleanLoop_bare (rooted : Bool) (s : Str) (hs : isBareName s = true) (fuel : Nat)
    (out : Str) (dotdot : Nat) :
    path.cleanLoop rooted (fuel + 1) s out dotdot =
      (if (rooted ∧ out.length ≠ 1) ∨ (!rooted ∧ out.length ≠ 0) then out ++ ['/'] else out) ++ s := by
  obtain ⟨h1, h2, h3, h4⟩ := (isBareName_iff s).mp hs
  cases s with
  | nil => exact absurd rfl h1
  | cons c r =>
    have hc : c ≠ '/' := fun e => h2 (by simp [e])
    have hr : '/' ∉ r := fun e => h2 (by simp [e])
    have hhead : r.head? ≠ some '/' := by
      cases r with
      | nil => simp
      | cons d r' => simpa using fun e => hr (by simp [e])
    have hdot : ¬ (c = '.' ∧ (r = [] ∨ r.head? = some '/')) := by
      rintro ⟨e, h | h⟩
      · exact h3 (by rw [e, h])
      · exact hhead h
    have hdd : ¬ (c = '.' ∧ r.head? = some '.' ∧ (r.tail = [] ∨ r.tail.head? = some '/')) := by
      rintro ⟨e, hh, h | h⟩
      · cases r with
        | nil => simp at hh
        | cons d r' =>
          simp at hh h
          exact h4 (by rw [e, hh, h])
      · cases r with
        | nil => simp at hh
        | cons d r' =>
          cases r' with
          | nil => simp at h
          | cons d' r'' =>
            simp at h
            exact hr (by simp [h])
    unfold path.cleanLoop
    rw [if_neg hc, if_neg hdot, if_neg hdd]
    simp only []
    rw [takeWhile_no_slash _ h2, dropWhile_no_slash _ h2, cleanLoop_nil]

theorem backtrack_ge (out : Str) (dotdot : Nat) : ∀ w, dotdot ≤ w → dotdot ≤ path.backtrack out dotdot w := by
  intro w
  induction w with
  | zero => intro h; simpa [path.backtrack] using h
  | succ w ih =>
    intro h
    unfold path.backtrack
    split
    · next hc => exact ih (by omega)
    · exact h

/-- The loop of `path.Clean` on a text that ends in a slash and a bare name
keeps the name as the end of its output, after nothing or after a slash. -/
theorem cleanLoop_keeps_last (rooted : Bool) (s : Str) (hs : isBareName s = true) :
    ∀ (fuel : Nat) (r out : Str) (dotdot : Nat), (r ++ '/' :: s).length ≤ fuel →
      (rooted = true → out.head? = some '/' ∧ 1 ≤ dotdot) →
      ∃ X, path.cleanLoop rooted fuel (r ++ '/' :: s) out dotdot = X ++ s ∧
        (X = [] ∨ X.getLast? = some '/') := by
  have hne : s ≠ [] := ((isBareName_iff s).mp hs).1
  have hlen : 1 ≤ s.length := List.length_pos.mpr hne
  have base : ∀ (fuel : Nat) (out : Str) (dotdot : Nat), 1 ≤ fuel →
      (rooted = true → out.head? = some '/' ∧ 1 ≤ dotdot) →
      ∃ X, path.cleanLoop rooted fuel s out dotdot = X ++ s ∧ (X = [] ∨ X.getLast? = some '/') := by
    intro fuel out dotdot hf hout
    obtain ⟨f, rfl⟩ : ∃ f, fuel = f + 1 := ⟨fuel - 1, by omega⟩
    refine ⟨_, cleanLoop_bare rooted s hs f out dotdot, ?_⟩
    split
    · right; simp
    · next hc =>
      cases rooted with
      | true =>
        have h1 : out.length = 1 := by
          by_contra hx
          exact hc (Or.inl ⟨rfl, hx⟩)
        have h2 := (hout rfl).1
        right
        cases out with
        | nil => simp at h1
        | cons a o =>
          cases o with
          | nil => simpa using h2
          | cons b o' => simp at h1
      | false =>
        left
        by_contra hx
        exact hc (Or.inr ⟨rfl, by simpa using hx⟩)
  intro fuel
  induction fuel with
  | zero => intro r out dotdot h; simp at h
  | succ fuel ih =>
    intro r out dotdot hfuel hout
    cases r with
    | nil =>
      simp only [List.nil_append, path.cleanLoop, if_true]
      exact base fuel out dotdot (by simp at hfuel; omega) hout
    | cons c r' =>
      have hfuel' : (r' ++ '/' :: s).length ≤ fuel := by simpa using hfuel
      rw [List.cons_append]
      unfold path.cleanLoop
      split
      · exact ih r' out dotdot hfuel' hout
      · split
        · exact ih r' out dotdot hfuel' hout
        · split
          · next hdd =>
            obtain ⟨_, hh, _⟩ := hdd
            cases r' with
            | nil => simp at hh
            | cons d r'' =>
              have hfuel'' : (r'' ++ '/' :: s).length ≤ fuel := by
                simp at hfuel' ⊢; omega
              simp only [List.cons_append, List.tail_cons]
              split
              · next hgt =>
                refine ih r'' _ dotdot hfuel'' ?_
                intro hr
                obtain ⟨h1, h2⟩ := hout hr
                refine ⟨?_, h2⟩
                have hb := backtrack_ge out dotdot (out.length - 1) (by omega)
                cases out with
                | nil => simp at h1
                | cons a o =>
                  obtain ⟨w, hw⟩ : ∃ w, path.backtrack (a :: o) dotdot ((a :: o).length - 1) = w + 1 :=
                    ⟨path.backtrack (a :: o) dotdot ((a :: o).length - 1) - 1, by omega⟩
                  rw [hw]
                  simpa using h1
              · split
                · next hnr =>
                  refine ih r'' _ _ hfuel'' ?_
                  intro hr
                  rw [hr] at hnr
                  simp at hnr
                · exact ih r'' out dotdot hfuel'' hout
          · next h1 h2 h3 =>
            simp only []
            have e : (c :: (r' ++ '/' :: s)).dropWhile path.notSlash =
                (c :: r').dropWhile path.notSlash ++ '/' :: s := by
              rw [← List.cons_append, dropWhile_append_slash]
            rw [e]
            refine ih _ _ dotdot ?_ ?_
            · have hl : ((c :: r').dropWhile path.notSlash).length ≤ r'.length := by
                rw [List.dropWhile_cons]
                rw [if_pos ((notSlash_iff c).mpr h1)]
                exact length_dropWhile_le _ _
              simp at hfuel' ⊢
              omega
            · intro hr
              obtain ⟨h4, h5⟩ := hout hr
              refine ⟨?_, h5⟩
              cases out with
              | nil => simp at h4
              | cons a o =>
                split <;> simpa using h4

theorem afterLastSlash_append_bare (X s : Str) (hs : '/' ∉ s) (hX : X = [] ∨ X.getLast? = some '/') :
    path.afterLastSlash (X ++ s) = X.length := by
  have hnil : path.afterLastSlash s = 0 := by
    induction s with
    | nil => rfl
    | cons c r ih =>
      have hc : c ≠ '/' := fun e => hs (by simp [e])
      have hr : '/' ∉ r := fun e => hs (by simp [e])
      simp [path.afterLastSlash, hc, hr]
  induction X with
  | nil => simpa using hnil
  | cons a X ih =>
    rcases hX with h | h
    · simp at h
    · cases X with
      | nil =>
        have ha : a = '/' := by simpa using h
        simp [path.afterLastSlash, ha, hs]
      | cons b X' =>
        have h' : (b :: X').getLast? = some '/' := by
          simpa [List.getLast?_cons_cons] using h
        have hmem : '/' ∈ b :: X' := List.mem_of_getLast?_eq_some h'
        have hc : (b :: X' ++ s).contains '/' = true := by
          simp only [List.contains_iff_exists_mem_beq]
          exact ⟨'/', List.mem_append_left _ hmem, by simp⟩
        rw [List.cons_append, path.afterLastSlash, if_pos hc, ih (Or.inr h')]
        simp

/-- The base name of `path.Join(d, s)` is `s` when `s` is a bare file name. -/
theorem Base_Join_bare (d s : Str) (hs : isBareName s = true) : path.Base (path.Join d s) = s := by
  obtain ⟨h1, h2, h3, h4⟩ := (isBareName_iff s).mp hs
  have key : ∃ X, path.Join d s = X ++ s ∧ (X = [] ∨ X.getLast? = some '/') := by
    unfold path.Join
    by_cases hd : d = []
    · have hlen : s.length = (s.length - 1) + 1 := by
        have := List.length_pos.mpr h1
        omega
      have hhead : ¬ (s.head? = some '/') := by
        cases s with
        | nil => simp
        | cons c r => simpa using fun e => h2 (by simp [e])
      simp only [hd, h1, and_false, if_false, if_true, path.Clean, hhead, decide_False,
        Bool.false_eq_true]
      rw [hlen, cleanLoop_bare false s hs]
      simp [h1]
    · have hds : d ++ '/' :: s ≠ [] := by simp
      simp only [hd, false_and, if_false, path.Clean, hds]
      cases d with
      | nil => exact absurd rfl hd
      | cons c d' =>
        by_cases hc : c = '/'
        · subst hc
          obtain ⟨X, hX, hX2⟩ := cleanLoop_keeps_last true s hs ('/' :: d' ++ '/' :: s).length d'
            ['/'] 1 (by simp) (by simp)
          refine ⟨X, ?_, hX2⟩
          simp only [List.cons_append, List.head?_cons, decide_True, if_true, List.tail_cons]
          simp only [List.cons_append] at hX
          rw [hX]
          simp [h1]
        · obtain ⟨X, hX, hX2⟩ := cleanLoop_keeps_last false s hs (c :: d' ++ '/' :: s).length
            (c :: d') [] 0 (by simp) (by simp)
          refine ⟨X, ?_, hX2⟩
          have hh : ¬ (some c = some '/') := by simpa using hc
          simp only [List.cons_append, List.head?_cons, hh, decide_False, Bool.false_eq_true,
            if_false]
          simp only [List.cons_append] at hX
          rw [hX]
          simp [h1]
  obtain ⟨X, hX, hX2⟩ := key
  rw [hX]
  unfold path.Base
  have hne : X ++ s ≠ [] := by simp [h1]
  have hstrip : path.stripTrailingSlashes (X ++ s) = X ++ s := by
    unfold path.stripTrailingSlashes
    obtain ⟨l, a, rfl⟩ : ∃ l a, s = l ++ [a] := ⟨s.dropLast, s.getLast h1, (List.dropLast_append_getLast h1).symm⟩
    have ha : a ≠ '/' := fun e => h2 (by simp [e])
    simp [List.reverse_append, List.dropWhile_cons, ha]
  simp only [hne, if_false, hstrip, afterLastSlash_append_bare X s h2 hX2, List.drop_left', h1]

/-! ## `regexp`: a match has one entry per capturing group -/

theorem starRun_caps_length (f : Str → List Str → List Thread)
    (hf : ∀ s caps t, t ∈ f s caps → t.2.length = caps.length) :
    ∀ (n : Nat) (s : Str) (caps : List Str) (t : Thread), t ∈ starRun f n s caps →
      t.2.length = caps.length := by
  intro n
  induction n with
  | zero =>
    intro s caps t ht
    simp only [starRun, List.mem_singleton] at ht
    rw [ht]
  | succ n ih =>
    intro s caps t ht
    simp only [starRun, List.mem_append, List.mem_flatMap, List.mem_filter, List.mem_singleton] at ht
    rcases ht with ⟨u, ⟨hu, _⟩, htu⟩ | ht
    · rw [ih u.1 u.2 t htu, hf s caps u hu]
    · rw [ht]

theorem run_caps_length (re : Regex) : ∀ (s : Str) (caps : List Str) (t : Thread),
    t ∈ re.run s caps → t.2.length = caps.length := by
  induction re with
  | eps =>
    intro s caps t ht
    simp only [Regex.run, List.mem_singleton] at ht
    rw [ht]
  | lit c =>
    intro s caps t ht
    cases s with
    | nil => simp [Regex.run] at ht
    | cons x xs =>
      simp only [Regex.run] at ht
      split at ht
      · simp only [List.mem_singleton] at ht; rw [ht]
      · simp at ht
  | any =>
    intro s caps t ht
    cases s with
    | nil => simp [Regex.run] at ht
    | cons x xs =>
      simp only [Regex.run] at ht
      split at ht
      · simp at ht
      · simp only [List.mem_singleton] at ht; rw [ht]
  | digit =>
    intro s caps t ht
    cases s with
    | nil => simp [Regex.run] at ht
    | cons x xs =>
      simp only [Regex.run] at ht
      split at ht
      · simp only [List.mem_singleton] at ht; rw [ht]
      · simp at ht
  | cat a b iha ihb =>
    intro s caps t ht
    simp only [Regex.run, List.mem_flatMap] at ht
    obtain ⟨u, hu, htu⟩ := ht
    rw [ihb u.1 u.2 t htu, iha s caps u hu]
  | alt a b iha ihb =>
    intro s caps t ht
    simp only [Regex.run, List.mem_append] at ht
    exact ht.elim (iha s caps t) (ihb s caps t)
  | star a iha =>
    intro s caps t ht
    simp only [Regex.run] at ht
    exact starRun_caps_length a.run iha _ s caps t ht
  | plus a iha =>
    intro s caps t ht
    simp only [Regex.run, List.mem_flatMap] at ht
    obtain ⟨u, hu, htu⟩ := ht
    rw [starRun_caps_length a.run iha _ u.1 u.2 t htu, iha s caps u hu]
  | opt a iha =>
    intro s caps t ht
    simp only [Regex.run, List.mem_append, List.mem_singleton] at ht
    rcases ht with ht | ht
    · exact iha s caps t ht
    · rw [ht]
  | group i a iha =>
    intro s caps t ht
    simp only [Regex.run, List.mem_map] at ht
    obtain ⟨u, hu, rfl⟩ := ht
    simp [iha s caps u hu]

/-- A match returned by `FindStringSubmatch` has `NumSubexp + 1` entries. -/
theorem FindStringSubmatch_length (re : Regexp) : ∀ (s : Str) (m : List Str),
    re.FindStringSubmatch s = some m → m.length = re.numSubexp + 1 := by
  unfold Regexp.FindStringSubmatch
  intro s
  induction s with
  | nil =>
    intro m hm
    simp only [searchFrom] at hm
    split at hm
    · next t ts heq =>
      have := run_caps_length re.prog [] _ t (by rw [heq]; simp)
      simp only [Option.some.injEq] at hm
      subst hm
      simpa using this
    · simp at hm
  | cons c s ih =>
    intro m hm
    simp only [searchFrom] at hm
    split at hm
    · next t ts heq =>
      have := run_caps_length re.prog (c :: s) _ t (by rw [heq]; simp)
      simp only [Option.some.injEq] at hm
      subst hm
      simpa using this
    · exact ih m hm

theorem goIndex_isSome_iff {α : Type} (l : List α) (i : Int) :
    (goIndex l i).isSome = true ↔ 0 ≤ i ∧ i < l.length := by
  unfold goIndex
  by_cases h : i < 0
  · simp [h]
  · simp only [h, if_false]
    rw [List.get?_eq_getElem?, ← Option.ne_none_iff_isSome, Ne, List.getElem?_eq_none_iff]
    omega

theorem goIndex_some_of_length_eq {α : Type} (l l2 : List α) (i : Int) (a : α)
    (h : goIndex l i = some a) (hl : l2.length = l.length) : ∃ b, goIndex l2 i = some b := by
  have h1 : (goIndex l i).isSome = true := by rw [h]; rfl
  rw [goIndex_isSome_iff] at h1
  have h2 : (goIndex l2 i).isSome = true := by rw [goIndex_isSome_iff]; omega
  exact Option.isSome_iff_exists.mp h2

/-! ## Seed mode -/

theorem unixToInternal_eq : time.unixToInternal = 62135596800 := by decide

theorem Before_Unix (a b : Int) : (time.Unix a).Before (time.Unix b) = laterUnix a b := by
  simp [Time.Before, time.Unix, laterUnix, unixToInternal_eq]

theorem fieldValue_eq_some (m : List Str) (idx v : Int) (h : fieldValue m idx = some v) :
    ∃ f, goIndex m idx = some f ∧ strconv.ParseInt f = (v, none) := by
  unfold fieldValue at h
  cases hg : goIndex m idx with
  | none => simp [hg] at h
  | some f =>
    simp only [hg] at h
    split at h
    · next hp =>
      simp only [Option.some.injEq] at h
      exact ⟨f, rfl, Prod.ext h hp⟩
    · simp at h

theorem visitEntry_eq_seedSelects (pl : PcapFileList) (re : Regexp) (seedName : Str)
    (m : List Str) (tv sv : Int) (hti : pl.ThreadIndex ≠ -1)
    (hm : re.FindStringSubmatch seedName = some m)
    (h1 : ∃ f, goIndex m pl.ThreadIndex = some f)
    (h2 : ∃ f, goIndex m pl.TimestampIndex = some f) (name : Str) :
    visitEntry pl re seedName tv (time.Unix sv) name =
      some (seedSelects laterUnix re pl.ThreadIndex pl.TimestampIndex seedName tv sv name) := by
  unfold visitEntry seedSelects
  by_cases hname : name = seedName
  · simp [hname]
  · simp only [hname, if_false, ne_eq, not_false_eq_true, decide_True, Bool.true_and]
    cases hl : re.FindStringSubmatch name with
    | none => rfl
    | some lm =>
      have hlen : lm.length = m.length := by
        rw [FindStringSubmatch_length re name lm hl, FindStringSubmatch_length re seedName m hm]
      obtain ⟨f1, hf1⟩ := h1
      obtain ⟨f2, hf2⟩ := h2
      obtain ⟨g1, hg1⟩ := goIndex_some_of_length_eq m lm _ f1 hf1 hlen
      obtain ⟨g2, hg2⟩ := goIndex_some_of_length_eq m lm _ f2 hf2 hlen
      simp only [threadCheck, timestampCheck, fieldValue, hg1, hg2, hti, ne_eq,
        not_false_eq_true, if_true]
      by_cases e1 : (strconv.ParseInt g1).2 = none
      · by_cases e2 : (strconv.ParseInt g1).1 = tv
        · by_cases e3 : (strconv.ParseInt g2).2 = none
          · simp [e1, e2, e3, Before_Unix]
          · simp [e1, e2, e3]
        · simp [e1, e2]
      · simp [e1]

theorem scanEntries_eq (pl : PcapFileList) (re : Regexp) (filePart dName : Str)
    (threadIndex : Int) (timestamp : Time) (sel : Str → Bool)
    (h : ∀ name, visitEntry pl re filePart threadIndex timestamp name = some (sel name)) :
    ∀ (files acc : List Str),
      scanEntries pl re filePart dName threadIndex timestamp files acc =
        some (acc ++ (files.filter sel).map (path.Join dName)) := by
  intro files
  induction files with
  | nil => intro acc; simp [scanEntries]
  | cons name rest ih =>
    intro acc
    unfold scanEntries
    rw [h name]
    cases hs : sel name with
    | true => simp [ih, hs]
    | false => simp [ih, hs]

/-- Seed mode on any list whose rule has a thread ordinal: when the seed's
base name matches and its two fields parse, `buildPcapList` returns no error
and appends exactly the entries selected by `seedSelects` with the order of
`time.Unix`. -/
theorem buildPcapList_eq (readDir : Str → Option (List Str)) (pl : PcapFileList) (re : Regexp)
    (f0 : Str) (more : List Str) (m : List Str) (tv sv : Int)
    (hfiles : pl.Files = f0 :: more) (hre : pl.FileParsing = some re)
    (hti : pl.ThreadIndex ≠ -1)
    (hm : re.FindStringSubmatch (path.Base f0) = some m)
    (htv : fieldValue m pl.ThreadIndex = some tv)
    (hsv : fieldValue m pl.TimestampIndex = some sv) :
    buildPcapList readDir pl =
      some ({ pl with
              Files := pl.Files ++
                (((readDir (path.Dir f0)).getD []).filter
                  (seedSelects laterUnix re pl.ThreadIndex pl.TimestampIndex (path.Base f0)
                    tv sv)).map (path.Join (path.Dir f0)) }, none) := by
  obtain ⟨f1, hf1, hp1⟩ := fieldValue_eq_some m _ tv htv
  obtain ⟨f2, hf2, hp2⟩ := fieldValue_eq_some m _ sv hsv
  have hlen : m.length ≠ 0 := by
    rw [FindStringSubmatch_length re _ m hm]
    omega
  have hscan := scanEntries_eq pl re (path.Base f0) (path.Dir f0) tv (time.Unix sv) _
    (visitEntry_eq_seedSelects pl re (path.Base f0) m tv sv hti hm ⟨f1, hf1⟩ ⟨f2, hf2⟩)
  unfold buildPcapList
  simp only [hfiles, hre, hm, Option.getD_some, hlen, if_false, hti, ne_eq, not_false_eq_true,
    if_true, hf1, hf2, Option.map_some', hp1, hp2, not_true_eq_false, hscan]

theorem buildPcapNameParsing_eq (p : PcapFileList) (fmt : Str) :
    buildPcapNameParsing p fmt =
      (MustCompile (regexpString fmt)).map fun re =>
        { p with
          ThreadIndex :=
            if threadTokenIndex fmt = -1 then -1
            else if threadTokenIndex fmt < strings.Index fmt tokT then 1 else 2,
          TimestampIndex :=
            if threadTokenIndex fmt = -1 then 1
            else if threadTokenIndex fmt < strings.Index fmt tokT then 2 else 1,
          FileParsing := some re } := by
  unfold buildPcapNameParsing
  cases MustCompile (regexpString fmt) with
  | none => rfl
  | some re =>
    simp only [Option.map_some']
    by_cases h1 : threadTokenIndex fmt = -1
    · simp only [h1, if_true]
      split <;> rfl
    · by_cases h2 : threadTokenIndex fmt < strings.Index fmt tokT
      · simp only [h1, h2, if_true, if_false]
      · simp only [h1, h2, if_false]

theorem laterUnix_eq_laterPlain (a b : Int) (ha : -9223372036854775808 ≤ a)
    (ha2 : a ≤ 9223371974719179007) (hb : -9223372036854775808 ≤ b)
    (hb2 : b ≤ 9223371974719179007) : laterUnix a b = laterPlain a b := by
  unfold laterUnix laterPlain wrapInt64
  have e1 : (a + 62135596800 + 2 ^ 63) % 2 ^ 64 = a + 62135596800 + 2 ^ 63 := by
    apply Int.emod_eq_of_lt <;> norm_num <;> omega
  have e2 : (b + 62135596800 + 2 ^ 63) % 2 ^ 64 = b + 62135596800 + 2 ^ 63 := by
    apply Int.emod_eq_of_lt <;> norm_num <;> omega
  rw [e1, e2]
  congr 1
  apply propext
  constructor <;> intro h <;> omega

/-- Seed mode from the constructor, with the fields read at the stored
ordinals and the order of `time.Unix`: for a template with a thread token and a
bare seed name whose match has parsing entries at `ThreadIndex` and
`TimestampIndex`, `NewPcapFileList` returns the seed path followed by the paths
of the entries that `seedSelects` keeps. -/
theorem NewPcapFileList_seed_eq (readDir : Str → Option (List Str)) (dname seed fmt : Str)
    (pl : PcapFileList) (re : Regexp) (m : List Str) (tv sv : Int)
    (hthread : tokN <:+: fmt ∨ tokI <:+: fmt)
    (hpl : buildPcapNameParsing { PcapFileList.zero with DirName := dname } fmt = some pl)
    (hre : pl.FileParsing = some re)
    (hbare : isBareName seed = true)
    (hm : re.FindStringSubmatch seed = some m)
    (htv : fieldValue m pl.ThreadIndex = some tv)
    (hsv : fieldValue m pl.TimestampIndex = some sv) :
    NewPcapFileList readDir dname ⟨seed⟩ fmt =
      some (some { pl with
                   Files := path.Join dname seed ::
                     (((readDir (path.Dir (path.Join dname seed))).getD []).filter
                       (seedSelects laterUnix re pl.ThreadIndex pl.TimestampIndex seed
                         tv sv)).map (path.Join (path.Dir (path.Join dname seed))),
                   FileName := seed }) := by
  have hne : seed ≠ [] := ((isBareName_iff seed).mp hbare).1
  have hlen : seed.length > 0 := List.length_pos.mpr hne
  have hti : pl.ThreadIndex ≠ -1 := by
    have hx : threadTokenIndex fmt ≠ -1 := by
      rw [Ne, threadTokenIndex_eq_neg_one_iff]
      intro hc
      exact hthread.elim hc.1 hc.2
    rw [buildPcapNameParsing_eq] at hpl
    cases hc : MustCompile (regexpString fmt) with
    | none => simp [hc] at hpl
    | some r =>
      simp only [hc, Option.map_some', Option.some.injEq] at hpl
      rw [← hpl]
      simp only [hx, if_false]
      split <;> decide
  have hfiles : pl.Files = [] := by
    rw [buildPcapNameParsing_eq] at hpl
    cases hc : MustCompile (regexpString fmt) with
    | none => simp [hc] at hpl
    | some r =>
      simp only [hc, Option.map_some', Option.some.injEq] at hpl
      rw [← hpl]
      rfl
  have hb := Base_Join_bare dname seed hbare
  have key := buildPcapList_eq readDir { pl with Files := pl.Files ++ [path.Join dname seed] } re
    (path.Join dname seed) [] m tv sv (by simp [hfiles]) hre hti (by rw [hb]; exact hm) htv hsv
  simp only [hfiles, List.nil_append, hb] at key
  unfold NewPcapFileList
  simp only [hpl, hlen, if_true, hfiles, List.nil_append, key, List.singleton_append]

/-- Counterexample to C1 as stated: with seed `cap.1.100.pcap`, the entry
`cap.1.9223372036854775807.pcap` is not named like the seed, matches the rule,
has the seed's thread and a timestamp that parses as a 64-bit integer and is
strictly greater than 100, yet the list built is the seed alone. -/
theorem seed_mode_plain_order_counterexample :
    NewPcapFileList (fun _ => some ["cap.1.9223372036854775807.pcap".toList])
        [] ⟨"cap.1.100.pcap".toList⟩ capTemplate =
      some (some { PcapFileList.zero with
                   Files := ["cap.1.100.pcap".toList],
                   FileName := "cap.1.100.pcap".toList, FileParsing := some capRule,
                   ThreadIndex := 1, TimestampIndex := 2 }) ∧
    seedSelects laterPlain capRule 1 2 "cap.1.100.pcap".toList 1 100
      "cap.1.9223372036854775807.pcap".toList = true := by
  decide

/-! ## `strings.Replace` on templates -/

theorem indexFrom_succ (sub : Str) : ∀ (s : Str) (k : Nat),
    strings.indexFrom sub s (k + 1) =
      if strings.indexFrom sub s k = -1 then -1 else strings.indexFrom sub s k + 1 := by
  intro s k
  have mk : ∀ j : Nat, sub <+: s.drop j → sub <:+: s := by
    intro j hp
    obtain ⟨t, ht⟩ := hp
    exact ⟨s.take j, t, by rw [List.append_assoc, ht, List.take_append_drop]⟩
  rcases indexFrom_spec sub s k with ⟨h1, hn⟩ | ⟨j, h1, _, hp, hmin⟩
  · rcases indexFrom_spec sub s (k + 1) with ⟨h2, _⟩ | ⟨j2, _, _, h3, _⟩
    · rw [h1, h2]; rfl
    · exact absurd (mk j2 h3) hn
  · rcases indexFrom_spec sub s (k + 1) with ⟨_, h2⟩ | ⟨j2, h2, _, h3, h4⟩
    · exact absurd (mk j hp) h2
    · have hj : j = j2 := by
        rcases Nat.lt_trichotomy j j2 with h | h | h
        · exact absurd hp (h4 j h)
        · exact h
        · exact absurd h3 (hmin j2 h)
      rw [h1, h2, hj]
      have : ¬ (((k + j2 : Nat) : Int) = -1) := by omega
      rw [if_neg this]
      push_cast
      omega

theorem Index_cons (sub : Str) (c : Char) (s : Str) :
    strings.Index (c :: s) sub =
      if sub.isPrefixOf (c :: s) then 0
      else if strings.Index s sub = -1 then -1 else strings.Index s sub + 1 := by
  unfold strings.Index
  rw [strings.indexFrom]
  split
  · rfl
  · rw [indexFrom_succ]

theorem Index_nonneg_or (s sub : Str) :
    strings.Index s sub = -1 ∨ ∃ j : Nat, strings.Index s sub = (j : Int) := by
  unfold strings.Index
  rcases indexFrom_spec sub s 0 with ⟨h1, _⟩ | ⟨j, h1, _⟩
  · exact Or.inl h1
  · exact Or.inr ⟨j, by simpa using h1⟩

/-- Unfolding of `strings.Replace1` along the text, for a pattern different
from its replacement. -/
theorem Replace1_cons (old new : Str) (hne : old ≠ new) (c : Char) (s : Str) :
    strings.Replace1 (c :: s) old new =
      if old.isPrefixOf (c :: s) then new ++ (c :: s).drop old.length
      else c :: strings.Replace1 s old new := by
  unfold strings.Replace1
  rw [if_neg hne, if_neg hne, Index_cons]
  by_cases hp : old.isPrefixOf (c :: s) = true
  · simp only [hp, if_true]
    show List.take 0 (c :: s) ++ new ++ List.drop (0 + old.length) (c :: s) = _
    simp
  · simp only [hp, Bool.false_eq_true, if_false]
    rcases Index_nonneg_or s old with h | ⟨j, h⟩
    · simp only [h, if_true]
      rfl
    · have hj : ¬ ((j : Int) = -1) := by omega
      simp only [h, hj, if_false]
      show (match Int.ofNat (j + 1) with
        | Int.ofNat j => List.take j (c :: s) ++ new ++ List.drop (j + old.length) (c :: s)
        | Int.negSucc _ => c :: s) =
        c :: (match Int.ofNat j with
        | Int.ofNat j => List.take j s ++ new ++ List.drop (j + old.length) s
        | Int.negSucc _ => s)
      simp [Nat.add_right_comm]

theorem Replace1_nil (old new : Str) (ho : old ≠ []) : strings.Replace1 [] old new = [] := by
  unfold strings.Replace1
  split
  · rfl
  · simp only [strings.Index, strings.indexFrom, ho, if_false]
    rfl

theorem piecesText_update_of_not_mem (σ : Tok → Option Str) (k : Tok) (x : Option Str) :
    ∀ ps : List Piece, k ∉ piecesToks ps →
      piecesText (Function.update σ k x) ps = piecesText σ ps := by
  intro ps
  induction ps with
  | nil => intro _; rfl
  | cons p ps ih =>
    intro h
    cases p with
    | chr c =>
      simp only [piecesToks] at h
      simp only [piecesText, ih h]
    | tok k2 =>
      simp only [piecesToks, List.mem_cons, not_or] at h
      have hk : k2 ≠ k := fun e => h.1 e.symm
      simp only [piecesText, ih h.2, Function.update_noteq hk]

theorem Replace1_append_of_no_percent (x : Char) (new : Str) (hne : ['%', x] ≠ new) :
    ∀ (w s : Str), '%' ∉ w →
      strings.Replace1 (w ++ s) ['%', x] new = w ++ strings.Replace1 s ['%', x] new := by
  intro w
  induction w with
  | nil => intro s _; rfl
  | cons c w ih =>
    intro s h
    have hc : c ≠ '%' := fun e => h (by simp [e])
    have hw : '%' ∉ w := fun e => h (by simp [e])
    rw [List.cons_append, Replace1_cons _ _ hne]
    have hp : List.isPrefixOf ['%', x] (c :: (w ++ s)) = false := by
      simp [List.isPrefixOf, Ne.symm hc]
    rw [hp, ih s hw]
    rfl

theorem Tok_text_eq (k : Tok) : ∃ x : Char, k.text = ['%', x] ∧ x ≠ '%' ∧
    ∀ k2 : Tok, k2 ≠ k → ∀ y, k2.text = ['%', y] → y ≠ x := by
  cases k
  · refine ⟨'n', rfl, by decide, ?_⟩
    intro k2 h y hy
    cases k2 <;> simp [Tok.text, tokN, tokI, tokT] at hy h ⊢ <;> rw [← hy] <;> decide
  · refine ⟨'i', rfl, by decide, ?_⟩
    intro k2 h y hy
    cases k2 <;> simp [Tok.text, tokN, tokI, tokT] at hy h ⊢ <;> rw [← hy] <;> decide
  · refine ⟨'t', rfl, by decide, ?_⟩
    intro k2 h y hy
    cases k2 <;> simp [Tok.text, tokN, tokI, tokT] at hy h ⊢ <;> rw [← hy] <;> decide

/-- Replacing the first instance of a token that the substitution leaves as
written substitutes this token. -/
theorem Replace1_piecesText (σ : Tok → Option Str) (k : Tok) (new : Str)
    (hnew : '%' ∉ new) (hσ : ∀ k2 w, σ k2 = some w → '%' ∉ w) (hk : σ k = none) :
    ∀ ps : List Piece, noPercent ps = true → (piecesToks ps).Nodup →
      strings.Replace1 (piecesText σ ps) k.text new =
        piecesText (Function.update σ k (some new)) ps := by
  obtain ⟨x, hx, hxp, hother⟩ := Tok_text_eq k
  have hne : ['%', x] ≠ new := by
    intro e
    exact hnew (by rw [← e]; simp)
  rw [hx]
  intro ps
  induction ps with
  | nil =>
    intro _ _
    exact Replace1_nil _ _ (by simp)
  | cons p ps ih =>
    intro hp hnd
    cases p with
    | chr c =>
      simp only [noPercent, Bool.and_eq_true, decide_eq_true_eq] at hp
      simp only [piecesToks] at hnd
      simp only [piecesText]
      rw [Replace1_cons _ _ hne]
      have hpre : List.isPrefixOf ['%', x] (c :: piecesText σ ps) = false := by
        simp [List.isPrefixOf, Ne.symm hp.1]
      rw [hpre, ih hp.2 hnd]
      rfl
    | tok k2 =>
      simp only [noPercent] at hp
      simp only [piecesToks, List.nodup_cons] at hnd
      simp only [piecesText]
      by_cases hkk : k2 = k
      · subst hkk
        rw [hk, Function.update_same, piecesText_update_of_not_mem σ k2 _ ps hnd.1]
        simp only [Option.getD_none, Option.getD_some, hx, List.cons_append, List.nil_append]
        rw [Replace1_cons _ _ hne]
        simp [List.isPrefixOf]
      · rw [Function.update_noteq hkk]
        cases hs : σ k2 with
        | some w =>
          simp only [Option.getD_some]
          rw [Replace1_append_of_no_percent x new hne w _ (hσ k2 w hs), ih hp hnd.2]
        | none =>
          obtain ⟨y, hy, hyp, _⟩ := Tok_text_eq k2
          have hyx : y ≠ x := hother k2 hkk y hy
          simp only [Option.getD_none, hy, List.cons_append, List.nil_append]
          rw [Replace1_cons _ _ hne]
          have hpre : List.isPrefixOf ['%', x] ('%' :: y :: piecesText σ ps) = false := by
            simp [List.isPrefixOf, Ne.symm hyx]
          rw [hpre]
          simp only [Bool.false_eq_true, if_false]
          rw [Replace1_cons _ _ hne]
          have hpre2 : List.isPrefixOf ['%', x] (y :: piecesText σ ps) = false := by
            simp [List.isPrefixOf, Ne.symm hyp]
          rw [hpre2, ih hp hnd.2]
          rfl

/-- The pattern text of a template given by pieces: every token is written
`(\d+)`. -/
theorem regexpString_templateText (ps : List Piece) (hp : noPercent ps = true)
    (hnd : (piecesToks ps).Nodup) :
    regexpString (templateText ps) = piecesText groupSubst ps := by
  have hdg : '%' ∉ digitsGroup := by decide
  unfold regexpString templateText
  have h1 := Replace1_piecesText (fun _ => none) Tok.n digitsGroup hdg (by simp) rfl ps hp hnd
  simp only [Tok.text] at h1
  rw [h1]
  have h2 := Replace1_piecesText (Function.update (fun _ => none) Tok.n (some digitsGroup)) Tok.i
    digitsGroup hdg (by
      intro k2 w hw
      cases k2 <;> simp [Function.update] at hw
      rw [← hw]
      exact hdg)
    (by simp [Function.update]) ps hp hnd
  simp only [Tok.text] at h2
  rw [h2]
  have h3 := Replace1_piecesText
    (Function.update (Function.update (fun _ => none) Tok.n (some digitsGroup)) Tok.i
      (some digitsGroup)) Tok.t digitsGroup hdg (by
      intro k2 w hw
      cases k2 <;> simp [Function.update] at hw <;> rw [← hw] <;> exact hdg)
    (by simp [Function.update]) ps hp hnd
  simp only [Tok.text] at h3
  rw [h3]
  congr 1
  funext k
  cases k <;> simp [Function.update, groupSubst]

/-! ## Compilation of a template given by pieces -/

theorem lex_cons_literal (c : Char) (r : Str) (h : literalChar c = true) :
    lex (c :: r) = (lex r).map (fun ts => (if c = '.' then RTok.dot else RTok.chr c) :: ts) := by
  simp only [literalChar, isMeta, Bool.and_eq_true, Bool.or_eq_true, decide_eq_true_eq,
    Bool.not_eq_true', Bool.or_eq_false_iff, decide_eq_false_iff_not] at h
  obtain ⟨_, h | h⟩ := h
  · subst h
    cases r <;> simp [lex]
  · obtain ⟨⟨⟨⟨⟨⟨⟨⟨⟨⟨⟨h1, h2⟩, h3⟩, h4⟩, h5⟩, h6⟩, h7⟩, h8⟩, h9⟩, h10⟩, h11⟩, h12⟩ := h
    cases r <;> simp [lex, h1, h2, h3, h4, h5, h6, h7, h8, h9, h10, h11, h12]

theorem lex_digitsGroup (r : Str) :
    lex (digitsGroup ++ r) =
      (lex r).map (fun ts => RTok.lpar :: RTok.dig :: RTok.plus :: RTok.rpar :: ts) := by
  cases h : lex r <;> cases r <;> simp_all [digitsGroup, lex]

theorem lex_piecesText : ∀ ps : List Piece, literalPieces ps = true →
    lex (piecesText groupSubst ps) = some (ps.flatMap pieceRToks) := by
  intro ps
  induction ps with
  | nil => intro _; rfl
  | cons p ps ih =>
    intro h
    cases p with
    | chr c =>
      simp only [literalPieces, Bool.and_eq_true] at h
      simp only [piecesText, lex_cons_literal c _ h.1, ih h.2, Option.map_some',
        List.flatMap_cons, pieceRToks, List.singleton_append]
    | tok k =>
      simp only [literalPieces] at h
      simp only [piecesText, groupSubst, Option.getD_some, lex_digitsGroup, ih h,
        Option.map_some', List.flatMap_cons, pieceRToks, List.cons_append, List.nil_append]

theorem pfold_append : ∀ (a b : List RTok) (st : PState),
    pfold st (a ++ b) = (pfold st a).bind (fun st1 => pfold st1 b) := by
  intro a
  induction a with
  | nil => intro b st; rfl
  | cons t a ih =>
    intro b st
    simp only [List.cons_append, pfold]
    cases pstep st t with
    | none => rfl
    | some st1 => simp [ih]

theorem pfold_pieces : ∀ (ps : List Piece) (st : PState),
    ∃ b, pfold st (ps.flatMap pieceRToks) =
      some ⟨⟨st.top.cap, st.top.alts, (piecesRegex st.ncap ps).reverse ++ st.top.cur⟩, st.stack,
        st.ncap + (piecesToks ps).length, b⟩ := by
  intro ps
  induction ps with
  | nil =>
    intro st
    exact ⟨st.rep, by simp [pfold, piecesRegex, piecesToks]⟩
  | cons p ps ih =>
    intro st
    cases p with
    | chr c =>
      obtain ⟨b, hb⟩ := ih (st.push (if c = '.' then Regex.any else Regex.lit c))
      refine ⟨b, ?_⟩
      rw [List.flatMap_cons, pfold_append]
      have h1 : pfold st (pieceRToks (Piece.chr c)) =
          some (st.push (if c = '.' then Regex.any else Regex.lit c)) := by
        by_cases hc : c = '.' <;> simp [pieceRToks, pfold, pstep, hc]
      rw [h1, Option.some_bind, hb]
      simp [PState.push, piecesRegex, piecesToks]
    | tok k =>
      obtain ⟨b, hb⟩ := ih ⟨⟨st.top.cap, st.top.alts,
        Regex.group (st.ncap + 1) (catAll [Regex.plus Regex.digit]) :: st.top.cur⟩, st.stack,
        st.ncap + 1, false⟩
      refine ⟨b, ?_⟩
      rw [List.flatMap_cons, pfold_append]
      have h1 : pfold st (pieceRToks (Piece.tok k)) =
          some ⟨⟨st.top.cap, st.top.alts,
            Regex.group (st.ncap + 1) (catAll [Regex.plus Regex.digit]) :: st.top.cur⟩, st.stack,
            st.ncap + 1, false⟩ := by
        simp [pieceRToks, pfold, pstep, PState.push, PState.repeat, Regex.nullable, Frame.close,
          catAll]
      rw [h1, Option.some_bind, hb]
      simp [piecesRegex, piecesToks, Nat.add_assoc, Nat.add_comm 1]

/-- A template given by pieces whose literal characters are not `%` and not
metacharacters other than `.` compiles, to the concatenation of its pieces
with one group per token. -/
theorem MustCompile_pieces (ps : List Piece) (h : literalPieces ps = true) :
    MustCompile (piecesText groupSubst ps) =
      some ⟨catAll (piecesRegex 0 ps), (piecesToks ps).length⟩ := by
  unfold MustCompile
  rw [lex_piecesText ps h, Option.some_bind]
  obtain ⟨b, hb⟩ := pfold_pieces ps PState.init
  rw [hb]
  simp [PState.init, Frame.close]

theorem noPercent_of_literalPieces : ∀ ps : List Piece, literalPieces ps = true →
    noPercent ps = true := by
  intro ps
  induction ps with
  | nil => intro _; rfl
  | cons p ps ih =>
    intro h
    cases p with
    | chr c =>
      simp only [literalPieces, literalChar, Bool.and_eq_true, decide_eq_true_eq] at h
      simp [noPercent, h.1.1, ih h.2]
    | tok k =>
      simp only [literalPieces] at h
      simp [noPercent, ih h]

/-! ## Matching the text generated from a template -/

theorem head?_flatMap {α β : Type} (l : List α) (f : α → List β) (x : α) (y : β)
    (hx : l.head? = some x) (hy : (f x).head? = some y) : (l.flatMap f).head? = some y := by
  cases l with
  | nil => simp at hx
  | cons a l =>
    simp only [List.head?_cons, Option.some.injEq] at hx
    subst hx
    rw [List.flatMap_cons, List.head?_append, hy]
    rfl

theorem run_cat (a b : Regex) (s : Str) (caps : List Str) :
    (Regex.cat a b).run s caps = (a.run s caps).flatMap (fun t => b.run t.1 t.2) := by
  simp [Regex.run]

theorem run_group (i : Nat) (a : Regex) (s : Str) (caps : List Str) :
    (Regex.group i a).run s caps =
      (a.run s caps).map (fun t => (t.1, t.2.set i (s.take (s.length - t.1.length)))) := by
  simp [Regex.run]

theorem run_plus (a : Regex) (s : Str) (caps : List Str) :
    (Regex.plus a).run s caps =
      (a.run s caps).flatMap (fun t => starRun a.run t.1.length t.1 t.2) := by
  simp [Regex.run]

theorem run_eps (s : Str) (caps : List Str) : Regex.eps.run s caps = [(s, caps)] := by
  simp [Regex.run]

theorem digit_run_cons (x : Char) (s : Str) (caps : List Str) (hx : isDigit x = true) :
    Regex.digit.run (x :: s) caps = [(s, caps)] := by
  simp [Regex.run, hx]

theorem digit_run_of_not_digit (s : Str) (caps : List Str)
    (h : ∀ x, s.head? = some x → isDigit x = false) : Regex.digit.run s caps = [] := by
  cases s with
  | nil => simp [Regex.run]
  | cons x s => simp [Regex.run, h x rfl]

/-- The greedy loop `\d*` first takes all the digits in front of a non-digit. -/
theorem starRun_digits_head (caps : List Str) (tail : Str)
    (htail : ∀ x, tail.head? = some x → isDigit x = false) :
    ∀ (d : Str) (n : Nat), d.all isDigit = true → d.length ≤ n →
      (starRun Regex.digit.run n (d ++ tail) caps).head? = some (tail, caps) := by
  intro d
  induction d with
  | nil =>
    intro n _ _
    cases n with
    | zero => simp [starRun]
    | succ n => simp [starRun, digit_run_of_not_digit tail caps htail]
  | cons x d ih =>
    intro n hd hn
    simp only [List.all_cons, Bool.and_eq_true] at hd
    cases n with
    | zero => simp at hn
    | succ n =>
      have hn2 : d.length ≤ n := by simpa using hn
      simp only [List.cons_append, starRun, digit_run_cons x _ caps hd.1]
      simp only [List.filter_cons, List.length_cons, Nat.lt_succ_self, decide_True, if_true,
        List.filter_nil, List.flatMap_cons, List.flatMap_nil, List.append_nil]
      rw [List.head?_append, ih n hd.2 hn2]
      rfl

/-- The group `(\d+)` in front of a non-empty digit string followed by a
non-digit first captures the whole digit string. -/
theorem group_digits_head (i : Nat) (caps : List Str) (d tail : Str) (hd : isDigits d = true)
    (htail : ∀ x, tail.head? = some x → isDigit x = false) :
    ((Regex.group i (catAll [Regex.plus Regex.digit])).run (d ++ tail) caps).head? =
      some (tail, caps.set i d) := by
  simp only [isDigits, Bool.and_eq_true, decide_eq_true_eq] at hd
  obtain ⟨hne, hall⟩ := hd
  cases d with
  | nil => exact absurd rfl hne
  | cons x d =>
    simp only [List.all_cons, Bool.and_eq_true] at hall
    have h1 : ((Regex.plus Regex.digit).run (x :: d ++ tail) caps).head? = some (tail, caps) := by
      rw [run_plus, List.cons_append, digit_run_cons x _ caps hall.1]
      simp only [List.flatMap_cons, List.flatMap_nil, List.append_nil]
      exact starRun_digits_head caps tail htail d _ hall.2 (by simp)
    have h2 : ((catAll [Regex.plus Regex.digit]).run (x :: d ++ tail) caps).head? =
        some (tail, caps) := by
      simp only [catAll, List.foldr_cons, List.foldr_nil]
      rw [run_cat]
      exact head?_flatMap _ _ _ _ h1 (by simp [run_eps])
    rw [run_group, List.head?_map, h2]
    have e : (x :: d ++ tail).length - tail.length = (x :: d).length := by
      simp only [List.length_append, List.length_cons]
      omega
    simp only [Option.map_some', e]
    rw [List.take_left']
    rfl

theorem piece_text_head (τ : Tok → Option Str) (c : Char) (ps : List Piece) (rest : Str) :
    (piecesText τ (Piece.chr c :: ps) ++ rest).head? = some c := by
  simp [piecesText]

/-- On the text generated from separated pieces, the first thread of the
compiled expression reads the whole text and captures, group by group, the
digit strings written for the tokens. -/
theorem run_pieces_head (d : Tok → Str) (rest : Str)
    (hrest : ∀ x, rest.head? = some x → isDigit x = false) :
    ∀ (ps : List Piece) (k : Nat) (caps : List Str), literalPieces ps = true →
      separatedPieces ps = true → (∀ k ∈ piecesToks ps, isDigits (d k) = true) →
      ((catAll (piecesRegex k ps)).run (piecesText (fun k => some (d k)) ps ++ rest) caps).head? =
        some (rest, setGroups k ((piecesToks ps).map d) caps) := by
  intro ps
  induction ps with
  | nil =>
    intro k caps _ _ _
    simp [piecesRegex, catAll, Regex.run, piecesText, piecesToks, setGroups]
  | cons p ps ih =>
    intro k caps hlit hsep hd
    cases p with
    | chr c =>
      simp only [literalPieces, Bool.and_eq_true] at hlit
      simp only [separatedPieces] at hsep
      simp only [piecesToks] at hd
      have h1 : ((if c = '.' then Regex.any else Regex.lit c).run
          (c :: (piecesText (fun k => some (d k)) ps ++ rest)) caps) =
          [(piecesText (fun k => some (d k)) ps ++ rest, caps)] := by
        by_cases hc : c = '.'
        · subst hc
          simp [Regex.run]
        · simp [Regex.run, hc]
      simp only [piecesRegex, catAll, List.foldr_cons, piecesText, List.cons_append, piecesToks]
      rw [run_cat, h1]
      simp only [List.flatMap_cons, List.flatMap_nil, List.append_nil]
      exact ih k caps hlit.2 hsep hd
    | tok tk =>
      simp only [literalPieces] at hlit
      have hsep2 : separatedPieces ps = true := by
        cases ps with
        | nil => rfl
        | cons q qs =>
          cases q with
          | chr c =>
            simp only [separatedPieces, Bool.and_eq_true] at hsep
            simpa [separatedPieces] using hsep.2
          | tok t2 => simp [separatedPieces] at hsep
      have htail : ∀ x, (piecesText (fun k => some (d k)) ps ++ rest).head? = some x →
          isDigit x = false := by
        cases ps with
        | nil => simpa [piecesText] using hrest
        | cons q qs =>
          cases q with
          | chr c =>
            intro x hx
            rw [piece_text_head] at hx
            simp only [Option.some.injEq] at hx
            subst hx
            simp only [separatedPieces, Bool.and_eq_true, Bool.not_eq_true'] at hsep
            exact hsep.1
          | tok t2 => simp [separatedPieces] at hsep
      have hdt : isDigits (d tk) = true := hd tk (by simp [piecesToks])
      have hd2 : ∀ t2 ∈ piecesToks ps, isDigits (d t2) = true := by
        intro t2 ht2
        exact hd t2 (by simp [piecesToks, ht2])
      have hg := group_digits_head (k + 1) caps (d tk) _ hdt htail
      simp only [piecesRegex, catAll, List.foldr_cons, piecesText, Option.getD_some,
        List.append_assoc, piecesToks, List.map_cons, setGroups]
      rw [run_cat]
      exact head?_flatMap _ _ _ _ hg (ih (k + 1) _ hlit hsep2 hd2)

theorem setGroups_append : ∀ (ds : List Str) (k : Nat) (pre : List Str), pre.length = k + 1 →
    setGroups k ds (pre ++ List.replicate ds.length []) = pre ++ ds := by
  intro ds
  induction ds with
  | nil => intro k pre _; simp [setGroups]
  | cons d ds ih =>
    intro k pre hpre
    simp only [setGroups, List.length_cons, List.replicate_succ]
    have e : (pre ++ [] :: List.replicate ds.length []).set (k + 1) d =
        (pre ++ [d]) ++ List.replicate ds.length ([] : Str) := by
      rw [← hpre, List.set_append_right _ _ (le_refl _)]
      simp
    rw [e, ih (k + 1) (pre ++ [d]) (by simp [hpre])]
    simp

/-- The rule compiled from separated pieces matches the text generated from
them, and the match lists the text followed by the digit strings of the
tokens in template order. -/
theorem FindStringSubmatch_pieces (d : Tok → Str) (ps : List Piece)
    (hlit : literalPieces ps = true) (hsep : separatedPieces ps = true)
    (hd : ∀ k ∈ piecesToks ps, isDigits (d k) = true) :
    Regexp.FindStringSubmatch ⟨catAll (piecesRegex 0 ps), (piecesToks ps).length⟩
        (piecesText (fun k => some (d k)) ps) =
      some (piecesText (fun k => some (d k)) ps :: (piecesToks ps).map d) := by
  have h := run_pieces_head d [] (by simp) ps 0
    (List.replicate ((piecesToks ps).length + 1) []) hlit hsep hd
  rw [List.append_nil] at h
  have hs : setGroups 0 ((piecesToks ps).map d) (List.replicate ((piecesToks ps).length + 1) []) =
      [] :: (piecesToks ps).map d := by
    have := setGroups_append ((piecesToks ps).map d) 0 [[]] rfl
    simpa [List.replicate_succ] using this
  rw [hs] at h
  unfold Regexp.FindStringSubmatch
  cases hx : piecesText (fun k => some (d k)) ps with
  | nil =>
    rw [hx] at h
    simp only [searchFrom]
    cases hr : (catAll (piecesRegex 0 ps)).run [] (List.replicate ((piecesToks ps).length + 1) []) with
    | nil => simp [hr] at h
    | cons t ts =>
      simp only [hr, List.head?_cons, Option.some.injEq] at h
      simp [h]
  | cons c s =>
    rw [hx] at h
    simp only [searchFrom]
    cases hr : (catAll (piecesRegex 0 ps)).run (c :: s)
        (List.replicate ((piecesToks ps).length + 1) []) with
    | nil => simp [hr] at h
    | cons t ts =>
      simp only [hr, List.head?_cons, Option.some.injEq] at h
      simp [h]

/-! ## Positions of the tokens in a template given by pieces -/

theorem Index_templateText (k : Tok) : ∀ ps : List Piece, noPercent ps = true →
    strings.Index (templateText ps) k.text =
      match tokOffset k ps with
      | some j => (j : Int)
      | none => -1 := by
  obtain ⟨x, hx, hxp, hother⟩ := Tok_text_eq k
  rw [hx]
  intro ps
  induction ps with
  | nil =>
    intro _
    simp [templateText, piecesText, tokOffset, strings.Index, strings.indexFrom]
  | cons p ps ih =>
    intro hp
    cases p with
    | chr c =>
      simp only [noPercent, Bool.and_eq_true, decide_eq_true_eq] at hp
      have hpre : List.isPrefixOf ['%', x] (c :: templateText ps) = false := by
        simp [List.isPrefixOf, Ne.symm hp.1]
      have e : templateText (Piece.chr c :: ps) = c :: templateText ps := rfl
      rw [e, Index_cons, hpre, ih hp.2]
      simp only [Bool.false_eq_true, if_false, tokOffset]
      cases tokOffset k ps with
      | none => simp
      | some j =>
        have : ¬ ((j : Int) = -1) := by omega
        simp [this]
    | tok k2 =>
      simp only [noPercent] at hp
      obtain ⟨y, hy, hyp, _⟩ := Tok_text_eq k2
      have e : templateText (Piece.tok k2 :: ps) = '%' :: y :: templateText ps := by
        simp [templateText, piecesText, hy]
      rw [e]
      by_cases hkk : k2 = k
      · subst hkk
        have hyx : y = x := by
          rw [hx] at hy
          simpa using hy.symm
        subst hyx
        rw [Index_cons]
        simp [List.isPrefixOf, tokOffset]
      · have hyx : y ≠ x := hother k2 hkk y hy
        have hpre : List.isPrefixOf ['%', x] ('%' :: y :: templateText ps) = false := by
          simp [List.isPrefixOf, Ne.symm hyx]
        have hpre2 : List.isPrefixOf ['%', x] (y :: templateText ps) = false := by
          simp [List.isPrefixOf, Ne.symm hyp]
        rw [Index_cons, hpre, Index_cons, hpre2, ih hp]
        simp only [Bool.false_eq_true, if_false, tokOffset, hkk]
        cases tokOffset k ps with
        | none => simp
        | some j =>
          have h1 : ¬ ((j : Int) = -1) := by omega
          have h2 : ¬ ((j : Int) + 1 = -1) := by omega
          simp only [h1, h2, if_false, Option.map_some']
          show (j : Int) + 1 + 1 = ((j + 2 : Nat) : Int)
          push_cast
          ring

theorem tokOffset_eq_none (k : Tok) : ∀ ps : List Piece, k ∉ piecesToks ps →
    tokOffset k ps = none := by
  intro ps
  induction ps with
  | nil => intro _; rfl
  | cons p ps ih =>
    intro h
    cases p with
    | chr c =>
      simp only [piecesToks] at h
      simp [tokOffset, ih h]
    | tok k2 =>
      simp only [piecesToks, List.mem_cons, not_or] at h
      have hk : k2 ≠ k := fun e => h.1 e.symm
      simp [tokOffset, hk, ih h.2]

theorem tokOffset_of_mem (k : Tok) : ∀ ps : List Piece, k ∈ piecesToks ps →
    ∃ j, tokOffset k ps = some j := by
  intro ps
  induction ps with
  | nil => intro h; simp [piecesToks] at h
  | cons p ps ih =>
    intro h
    cases p with
    | chr c =>
      simp only [piecesToks] at h
      obtain ⟨j, hj⟩ := ih h
      exact ⟨j + 1, by simp [tokOffset, hj]⟩
    | tok k2 =>
      by_cases hk : k2 = k
      · exact ⟨0, by simp [tokOffset, hk]⟩
      · simp only [piecesToks, List.mem_cons] at h
        obtain ⟨j, hj⟩ := ih (h.resolve_left (fun e => hk e.symm))
        exact ⟨j + 2, by simp [tokOffset, hk, hj]⟩

/-- A token that comes first among the tokens is written before the others. -/
theorem tokOffset_lt (a b : Tok) (hab : a ≠ b) : ∀ (ps : List Piece) (l : List Tok),
    piecesToks ps = a :: l → b ∈ l →
    ∃ i j, tokOffset a ps = some i ∧ tokOffset b ps = some j ∧ i < j := by
  intro ps
  induction ps with
  | nil => intro l h _; simp [piecesToks] at h
  | cons p ps ih =>
    intro l h hb
    cases p with
    | chr c =>
      simp only [piecesToks] at h
      obtain ⟨i, j, h1, h2, h3⟩ := ih l h hb
      exact ⟨i + 1, j + 1, by simp [tokOffset, h1], by simp [tokOffset, h2], by omega⟩
    | tok k2 =>
      simp only [piecesToks, List.cons.injEq] at h
      obtain ⟨h1, h2⟩ := h
      subst h1
      obtain ⟨j, hj⟩ := tokOffset_of_mem b ps (by rw [h2]; exact hb)
      exact ⟨0, j + 2, by simp [tokOffset], by simp [tokOffset, hab, hj], by omega⟩

/-- What `buildPcapNameParsing` makes of a template given by pieces. -/
theorem buildPcapNameParsing_pieces (pl : PcapFileList) (ps : List Piece)
    (hlit : literalPieces ps = true) (hnd : (piecesToks ps).Nodup) :
    buildPcapNameParsing pl (templateText ps) =
      some { pl with
             ThreadIndex :=
               if threadTokenIndex (templateText ps) = -1 then -1
               else if threadTokenIndex (templateText ps) < strings.Index (templateText ps) tokT
               then 1 else 2,
             TimestampIndex :=
               if threadTokenIndex (templateText ps) = -1 then 1
               else if threadTokenIndex (templateText ps) < strings.Index (templateText ps) tokT
               then 2 else 1,
             FileParsing := some ⟨catAll (piecesRegex 0 ps), (piecesToks ps).length⟩ } := by
  rw [buildPcapNameParsing_eq, regexpString_templateText ps (noPercent_of_literalPieces ps hlit) hnd,
    MustCompile_pieces ps hlit]
  rfl

/-! ## Round trip between template and rule -/

/-- C7 (amended): for a template made of literal characters (none of them `%`
or a regex metacharacter other than `.`) and of tokens, with exactly one `%t`
and at most one thread token, in which no token is directly followed by a digit
or by another token, and for every choice of non-empty digit strings, the text
obtained by writing the digit strings for the tokens is matched by the compiled
rule, and the submatches at `TimestampIndex` and `ThreadIndex` are the digit
strings written for `%t` and for the thread token. -/
theorem template_round_trip (pl : PcapFileList) (ps : List Piece) (d : Tok → Str)
    (hlit : literalPieces ps = true) (hsep : separatedPieces ps = true)
    (htoks : piecesToks ps ∈
      [[Tok.t], [Tok.n, Tok.t], [Tok.t, Tok.n], [Tok.i, Tok.t], [Tok.t, Tok.i]])
    (hd : ∀ k, isDigits (d k) = true) :
    ∃ pl2 re m, buildPcapNameParsing pl (templateText ps) = some pl2 ∧
      pl2.FileParsing = some re ∧
      re.FindStringSubmatch (piecesText (fun k => some (d k)) ps) = some m ∧
      goIndex m pl2.TimestampIndex = some (d Tok.t) ∧
      (Tok.n ∈ piecesToks ps → goIndex m pl2.ThreadIndex = some (d Tok.n)) ∧
      (Tok.i ∈ piecesToks ps → goIndex m pl2.ThreadIndex = some (d Tok.i)) := by
  have hnp := noPercent_of_literalPieces ps hlit
  have hnd : (piecesToks ps).Nodup := by
    simp only [List.mem_cons, List.mem_singleton, List.not_mem_nil, or_false] at htoks
    rcases htoks with h | h | h | h | h <;> rw [h] <;> decide
  have hb := buildPcapNameParsing_pieces pl ps hlit hnd
  have hf := FindStringSubmatch_pieces d ps hlit hsep (fun k _ => hd k)
  have hN := Index_templateText Tok.n ps hnp
  have hI := Index_templateText Tok.i ps hnp
  have hT := Index_templateText Tok.t ps hnp
  simp only [Tok.text] at hN hI hT
  refine ⟨_, _, _, hb, rfl, hf, ?_⟩
  simp only [List.mem_cons, List.mem_singleton, List.not_mem_nil, or_false] at htoks
  rcases htoks with h | h | h | h | h
  · have h1 := tokOffset_eq_none Tok.n ps (by rw [h]; decide)
    have h2 := tokOffset_eq_none Tok.i ps (by rw [h]; decide)
    rw [h1] at hN
    rw [h2] at hI
    simp [threadTokenIndex, hN, hI, h, goIndex]
  · obtain ⟨a, b, h1, h2, h3⟩ := tokOffset_lt Tok.n Tok.t (by decide) ps [Tok.t] h (by decide)
    rw [h1] at hN
    rw [h2] at hT
    have e1 : ¬ ((a : Int) = -1) := by omega
    have e2 : (a : Int) < (b : Int) := by omega
    simp [threadTokenIndex, hN, hT, h, goIndex, e1, e2]
  · obtain ⟨a, b, h1, h2, h3⟩ := tokOffset_lt Tok.t Tok.n (by decide) ps [Tok.n] h (by decide)
    rw [h1] at hT
    rw [h2] at hN
    have e1 : ¬ ((b : Int) = -1) := by omega
    have e2 : ¬ ((b : Int) < (a : Int)) := by omega
    simp [threadTokenIndex, hN, hT, h, goIndex, e1, e2]
  · obtain ⟨a, b, h1, h2, h3⟩ := tokOffset_lt Tok.i Tok.t (by decide) ps [Tok.t] h (by decide)
    have h0 := tokOffset_eq_none Tok.n ps (by rw [h]; decide)
    rw [h0] at hN
    rw [h1] at hI
    rw [h2] at hT
    have e1 : ¬ ((a : Int) = -1) := by omega
    have e2 : (a : Int) < (b : Int) := by omega
    simp [threadTokenIndex, hN, hI, hT, h, goIndex, e1, e2]
  · obtain ⟨a, b, h1, h2, h3⟩ := tokOffset_lt Tok.t Tok.i (by decide) ps [Tok.i] h (by decide)
    have h0 := tokOffset_eq_none Tok.n ps (by rw [h]; decide)
    rw [h0] at hN
    rw [h1] at hT
    rw [h2] at hI
    have e1 : ¬ ((b : Int) = -1) := by omega
    have e2 : ¬ ((b : Int) < (a : Int)) := by omega
    simp [threadTokenIndex, hN, hI, hT, h, goIndex, e1, e2]

/-- Witness of C7: `log.%n.%t.pcap` with `1` for `%n` and `100` for `%t`. -/
theorem template_round_trip_witness :
    ∃ pl2 re m, buildPcapNameParsing PcapFileList.zero (templateText logPieces) = some pl2 ∧
      pl2.FileParsing = some re ∧
      re.FindStringSubmatch (piecesText (fun k => some (sampleDigits k)) logPieces) = some m ∧
      goIndex m pl2.TimestampIndex = some (sampleDigits Tok.t) ∧
      goIndex m pl2.ThreadIndex = some (sampleDigits Tok.n) := by
  obtain ⟨pl2, re, m, h1, h2, h3, h4, h5, _⟩ :=
    template_round_trip PcapFileList.zero logPieces sampleDigits (by decide) (by decide)
      (by decide) (by intro k; cases k <;> decide)
  exact ⟨pl2, re, m, h1, h2, h3, h4, h5 (by decide)⟩

/-- Counterexample to C7 as stated: in the template `%n%t`, writing `12` for
`%n` and `34` for `%t` gives `1234`; the rule matches it, but the submatch at
`ThreadIndex` is `123` and the one at `TimestampIndex` is `4`. -/
theorem adjacent_tokens_counterexample :
    buildPcapNameParsing PcapFileList.zero (templateText [Piece.tok Tok.n, Piece.tok Tok.t]) =
      some { PcapFileList.zero with ThreadIndex := 1, TimestampIndex := 2,
                                    FileParsing := some adjacentRule } ∧
    piecesText (fun k => some (if k = Tok.n then ['1', '2'] else ['3', '4']))
      [Piece.tok Tok.n, Piece.tok Tok.t] = ['1', '2', '3', '4'] ∧
    adjacentRule.FindStringSubmatch ['1', '2', '3', '4'] =
      some [['1', '2', '3', '4'], ['1', '2', '3'], ['4']] := by
  decide

/-- C8 (evaluation at the failing input): the rule compiled from
`log.%n.%t.pcap` accepts `logX1X100Xpcap`, the dots of the template matching
the `X`. -/
theorem dot_of_template_matches_any_character :
    buildPcapNameParsing PcapFileList.zero "log.%n.%t.pcap".toList =
      some { PcapFileList.zero with ThreadIndex := 1, TimestampIndex := 2,
                                    FileParsing := some logRule } ∧
    logRule.FindStringSubmatch "logX1X100Xpcap".toList =
      some ["logX1X100Xpcap".toList, "1".toList, "100".toList] := by
  decide

/-- C10 (evaluation at the failing input): the template `cap.%n.%i.%t.pcap`
compiles to three groups while `ThreadIndex = 1` and `TimestampIndex = 2`, so
on `cap.1.2.300.pcap` the field read as timestamp is `2`, the text at `%i`. -/
theorem both_thread_tokens_shift_the_timestamp :
    buildPcapNameParsing PcapFileList.zero "cap.%n.%i.%t.pcap".toList =
      some { PcapFileList.zero with ThreadIndex := 1, TimestampIndex := 2,
                                    FileParsing := some threeGroupRule } ∧
    threeGroupRule.numSubexp = 3 ∧
    threeGroupRule.FindStringSubmatch "cap.1.2.300.pcap".toList =
      some ["cap.1.2.300.pcap".toList, "1".toList, "2".toList, "300".toList] ∧
    (threeGroupRule.FindStringSubmatch "cap.1.2.300.pcap".toList).bind
      (fun m => goIndex m 2) = some "2".toList := by
  decide

/-- Counterexample to C9 as stated: the template `abc` has no token, yet its
rule accepts `abc` and `xabcx`, and full-scan mode lists both. -/
theorem zero_token_template_counterexample :
    NewPcapFileList (fun _ => some ["abc".toList, "xabcx".toList, "ab".toList]) "/data".toList
        ⟨[]⟩ "abc".toList =
      some (some { PcapFileList.zero with
                   Files := ["/data/abc".toList, "/data/xabcx".toList],
                   DirName := "/data".toList, FileParsing := some abcRule,
                   ThreadIndex := -1, TimestampIndex := 1 }) := by
  decide

/-! ## Templates without token -/

theorem pieces_of_plain (fmt : Str) (h : ∀ c ∈ fmt, plainChar c = true) :
    templateText (fmt.map Piece.chr) = fmt ∧ piecesToks (fmt.map Piece.chr) = [] ∧
      literalPieces (fmt.map Piece.chr) = true ∧
      piecesRegex 0 (fmt.map Piece.chr) = fmt.map Regex.lit := by
  induction fmt with
  | nil => exact ⟨rfl, rfl, rfl, rfl⟩
  | cons c fmt ih =>
    obtain ⟨h1, h2, h3, h4⟩ := ih (fun x hx => h x (List.mem_cons_of_mem _ hx))
    have hc := h c (List.mem_cons_self _ _)
    simp only [plainChar, Bool.and_eq_true, decide_eq_true_eq, Bool.not_eq_true'] at hc
    have hdot : c ≠ '.' := by
      intro e
      rw [e] at hc
      exact absurd hc.2 (by decide)
    refine ⟨?_, ?_, ?_, ?_⟩
    · simp only [templateText] at h1 ⊢
      simp [piecesText, h1]
    · simpa [piecesToks] using h2
    · simp [literalPieces, literalChar, hc.1, hc.2, h3]
    · simp [piecesRegex, hdot, h4]

/-- A concatenation of literal characters matches exactly at a position where
the characters are written. -/
theorem run_lits : ∀ (l s : Str) (caps : List Str),
    (catAll (l.map Regex.lit)).run s caps =
      if l.isPrefixOf s then [(s.drop l.length, caps)] else [] := by
  intro l
  induction l with
  | nil => intro s caps; simp [catAll, run_eps]
  | cons c l ih =>
    intro s caps
    simp only [List.map_cons, catAll, List.foldr_cons]
    rw [run_cat]
    cases s with
    | nil => simp [Regex.run]
    | cons x xs =>
      by_cases hx : x = c
      · subst hx
        have e : (Regex.lit x).run (x :: xs) caps = [(xs, caps)] := by simp [Regex.run]
        rw [e]
        simp only [List.flatMap_cons, List.flatMap_nil, List.append_nil]
        have := ih xs caps
        simp only [catAll] at this
        rw [this]
        simp [List.isPrefixOf]
      · have e : (Regex.lit c).run (x :: xs) caps = [] := by simp [Regex.run, hx]
        rw [e]
        simp [List.isPrefixOf, Ne.symm hx]

/-- The rule of a text of plain characters accepts exactly the names that
contain the text. -/
theorem search_lits_isSome (l : Str) (n : Nat) : ∀ s : Str,
    (Regexp.FindStringSubmatch ⟨catAll (l.map Regex.lit), n⟩ s).isSome = true ↔ l <:+: s := by
  unfold Regexp.FindStringSubmatch
  intro s
  induction s with
  | nil =>
    simp only [searchFrom, run_lits]
    cases l with
    | nil => simp
    | cons c l => simp [List.isPrefixOf]
  | cons x s ih =>
    simp only [searchFrom, run_lits]
    rw [List.infix_cons_iff]
    by_cases hp : l.isPrefixOf (x :: s) = true
    · simp only [hp, if_true, Option.isSome_some, true_iff]
      exact Or.inl (List.isPrefixOf_iff_prefix.mp hp)
    · have hp2 : ¬ l <+: x :: s := fun h => hp (List.isPrefixOf_iff_prefix.mpr h)
      simp only [hp, Bool.false_eq_true, if_false, ih]
      simp [hp2]

/-- C9 (amended): for a template without token made of plain characters (no
`%`, no regex metacharacter), the compiled rule accepts exactly the file names
that contain the template text, so full-scan mode lists exactly the entries
whose name contains it (every entry for the empty template). -/
theorem zero_token_template_matches_its_text (readDir : Str → Option (List Str))
    (pl : PcapFileList) (fmt : Str) (listing : List Str)
    (hplain : ∀ c ∈ fmt, plainChar c = true) (hdir : readDir pl.DirName = some listing) :
    ∃ pl2 re, buildPcapNameParsing pl fmt = some pl2 ∧ pl2.FileParsing = some re ∧
      (∀ name, (re.FindStringSubmatch name).isSome = true ↔ fmt <:+: name) ∧
      buildFullPcapList readDir pl2 =
        some ({ pl2 with
                Files := pl2.Files ++
                  (listing.filter (fun name => decide (fmt <:+: name))).map
                    (path.Join pl2.DirName) }, none) := by
  obtain ⟨h1, h2, h3, h4⟩ := pieces_of_plain fmt hplain
  have hb := buildPcapNameParsing_pieces pl (fmt.map Piece.chr) h3 (by rw [h2]; exact List.nodup_nil)
  rw [h1, h2, h4] at hb
  have hacc := search_lits_isSome fmt ([] : List Tok).length
  have hsel : ∀ n, (Regexp.FindStringSubmatch
      ⟨catAll (fmt.map Regex.lit), ([] : List Tok).length⟩ n).isSome = decide (fmt <:+: n) := by
    intro name
    rw [Bool.eq_iff_iff, hacc name]
    simp
  generalize (if threadTokenIndex fmt = -1 then (-1 : Int)
    else if threadTokenIndex fmt < strings.Index fmt tokT then 1 else 2) = ti at hb
  generalize (if threadTokenIndex fmt = -1 then (1 : Int)
    else if threadTokenIndex fmt < strings.Index fmt tokT then 2 else 1) = tsi at hb
  have hfull := buildFullPcapList_filter readDir
    { pl with ThreadIndex := ti, TimestampIndex := tsi,
              FileParsing := some ⟨catAll (fmt.map Regex.lit), ([] : List Tok).length⟩ }
    ⟨catAll (fmt.map Regex.lit), ([] : List Tok).length⟩ listing _ rfl hdir hsel
  exact ⟨_, _, hb, rfl, hacc, hfull⟩

/-- Witness of C9: the template `abc` in a directory with `abc`, `xabcx`, `ab`. -/
theorem zero_token_template_matches_its_text_witness :
    ∃ pl2 re, buildPcapNameParsing capList "abc".toList = some pl2 ∧ pl2.FileParsing = some re ∧
      (∀ name, (re.FindStringSubmatch name).isSome = true ↔ "abc".toList <:+: name) ∧
      buildFullPcapList (fun _ => some ["abc".toList, "xabcx".toList, "ab".toList]) pl2 =
        some ({ pl2 with
                Files := pl2.Files ++
                  (["abc".toList, "xabcx".toList, "ab".toList].filter
                    (fun name => decide ("abc".toList <:+: name))).map
                    (path.Join pl2.DirName) }, none) :=
  zero_token_template_matches_its_text _ capList "abc".toList _ (by decide) rfl

/-! ## Errors at construction -/

theorem buildPcapNameParsing_fields (p : PcapFileList) (fmt : Str) (pl : PcapFileList)
    (h : buildPcapNameParsing p fmt = some pl) :
    pl.Files = p.Files ∧ pl.DirName = p.DirName ∧ pl.FileName = p.FileName ∧
      pl.Index = p.Index ∧ ∃ re, pl.FileParsing = some re := by
  rw [buildPcapNameParsing_eq] at h
  cases hc : MustCompile (regexpString fmt) with
  | none => simp [hc] at h
  | some r =>
    simp only [hc, Option.map_some', Option.some.injEq] at h
    rw [← h]
    exact ⟨rfl, rfl, rfl, rfl, r, rfl⟩

/-- The two branches of `NewPcapFileList`: seed mode for a non-empty capture
file name, full-scan mode for an empty one. -/
theorem NewPcapFileList_branches (readDir : Str → Option (List Str)) (dname fmt : Str)
    (event : Event) (pl : PcapFileList)
    (hpl : buildPcapNameParsing { PcapFileList.zero with DirName := dname } fmt = some pl) :
    (event.CaptureFile = [] →
      NewPcapFileList readDir dname event fmt =
        (buildFullPcapList readDir pl).map listOrNil) ∧
    (event.CaptureFile ≠ [] →
      NewPcapFileList readDir dname event fmt =
        (buildPcapList readDir { pl with Files := pl.Files ++ [path.Join dname event.CaptureFile] }).map
          (fun r => (listOrNil r).map
            (fun q => { q with FileName := event.CaptureFile }))) := by
  constructor
  · intro he
    unfold NewPcapFileList
    simp only [hpl, he, List.length_nil, gt_iff_lt, lt_self_iff_false, if_false]
    cases hb : buildFullPcapList readDir pl with
    | none => rfl
    | some r =>
      obtain ⟨q, e⟩ := r
      cases e <;> rfl
  · intro he
    have hlen : event.CaptureFile.length > 0 := List.length_pos.mpr he
    unfold NewPcapFileList
    simp only [hpl, hlen, if_true]
    cases hb : buildPcapList readDir
        { pl with Files := pl.Files ++ [path.Join dname event.CaptureFile] } with
    | none => rfl
    | some r =>
      obtain ⟨q, e⟩ := r
      cases e <;> rfl

/-- C11: for a non-empty event file name whose base name the compiled rule
does not match, `buildPcapList` returns the error "Invalid file name in event"
and leaves the list as it was (nothing appended), and `NewPcapFileList`
returns nil. -/
theorem invalid_seed_name_is_rejected (readDir : Str → Option (List Str)) (dname seed fmt : Str)
    (pl : PcapFileList) (re : Regexp)
    (hpl : buildPcapNameParsing { PcapFileList.zero with DirName := dname } fmt = some pl)
    (hre : pl.FileParsing = some re) (hne : seed ≠ [])
    (hno : re.FindStringSubmatch (path.Base (path.Join dname seed)) = none) :
    buildPcapList readDir { pl with Files := [path.Join dname seed] } =
      some ({ pl with Files := [path.Join dname seed] }, some GoError.InvalidFileName) ∧
    GoError.InvalidFileName.Error = "Invalid file name in event" ∧
    NewPcapFileList readDir dname ⟨seed⟩ fmt = some none := by
  have hb : buildPcapList readDir { pl with Files := [path.Join dname seed] } =
      some ({ pl with Files := [path.Join dname seed] }, some GoError.InvalidFileName) := by
    unfold buildPcapList
    simp [hre, hno]
  refine ⟨hb, rfl, ?_⟩
  have hf := (buildPcapNameParsing_fields _ fmt pl hpl).1
  simp only [PcapFileList.zero] at hf
  rw [(NewPcapFileList_branches readDir dname fmt ⟨seed⟩ pl hpl).2 hne]
  simp only [hf, List.nil_append, hb, Option.map_some', listOrNil, Option.map_none']

/-- Seed mode when the submatch at `TimestampIndex` is rejected: for a seed
whose base name the rule matches and whose submatch at the stored timestamp
ordinal `strconv.ParseInt` rejects, `buildPcapList` returns the error "Invalid
timestamp in file name" and leaves the list as it was, whatever the directory
holds, and `NewPcapFileList` returns nil. -/
theorem rejected_timestamp_submatch_is_fatal (readDir : Str → Option (List Str))
    (dname seed fmt : Str) (pl : PcapFileList) (re : Regexp) (m : List Str) (f : Str)
    (hpl : buildPcapNameParsing { PcapFileList.zero with DirName := dname } fmt = some pl)
    (hre : pl.FileParsing = some re) (hne : seed ≠ [])
    (hm : re.FindStringSubmatch (path.Base (path.Join dname seed)) = some m)
    (hth : pl.ThreadIndex = -1 ∨ ∃ g, goIndex m pl.ThreadIndex = some g)
    (hts : goIndex m pl.TimestampIndex = some f)
    (herr : (strconv.ParseInt f).2 ≠ none) :
    buildPcapList readDir { pl with Files := [path.Join dname seed] } =
      some ({ pl with Files := [path.Join dname seed] }, some GoError.InvalidTimestamp) ∧
    GoError.InvalidTimestamp.Error = "Invalid timestamp in file name" ∧
    NewPcapFileList readDir dname ⟨seed⟩ fmt = some none := by
  have hlen : m.length ≠ 0 := by
    rw [FindStringSubmatch_length re _ m hm]
    omega
  have hb : buildPcapList readDir { pl with Files := [path.Join dname seed] } =
      some ({ pl with Files := [path.Join dname seed] }, some GoError.InvalidTimestamp) := by
    unfold buildPcapList
    rcases hth with h | ⟨g, hg⟩
    · simp [hre, hm, hlen, h, hts, herr]
    · by_cases h : pl.ThreadIndex = -1
      · simp [hre, hm, hlen, h, hts, herr]
      · simp [hre, hm, hlen, h, hg, hts, herr]
  refine ⟨hb, rfl, ?_⟩
  have hf := (buildPcapNameParsing_fields _ fmt pl hpl).1
  simp only [PcapFileList.zero] at hf
  rw [(NewPcapFileList_branches readDir dname fmt ⟨seed⟩ pl hpl).2 hne]
  simp only [hf, List.nil_append, hb, Option.map_some', listOrNil, Option.map_none']

/-- C16: when the directory cannot be read, `buildFullPcapList` returns an
error and leaves the list as it was, and `NewPcapFileList` for an event without
capture file returns nil; `NewPcapFileList` runs `buildFullPcapList` when the
capture file name is empty and `buildPcapList` when it is not. -/
theorem full_scan_fails_on_unreadable_directory (readDir : Str → Option (List Str))
    (dname fmt : Str) (pl : PcapFileList)
    (hpl : buildPcapNameParsing { PcapFileList.zero with DirName := dname } fmt = some pl)
    (hdir : readDir dname = none) :
    buildFullPcapList readDir pl = some (pl, some GoError.CantOpenDirectory) ∧
    NewPcapFileList readDir dname ⟨[]⟩ fmt = some none ∧
    ∀ event : Event,
      (event.CaptureFile = [] →
        NewPcapFileList readDir dname event fmt =
          (buildFullPcapList readDir pl).map listOrNil) ∧
      (event.CaptureFile ≠ [] →
        NewPcapFileList readDir dname event fmt =
          (buildPcapList readDir
            { pl with Files := pl.Files ++ [path.Join dname event.CaptureFile] }).map
            (fun r => (listOrNil r).map
              (fun q => { q with FileName := event.CaptureFile }))) := by
  have hd := (buildPcapNameParsing_fields _ fmt pl hpl).2.1
  simp only [PcapFileList.zero] at hd
  have hb : buildFullPcapList readDir pl = some (pl, some GoError.CantOpenDirectory) := by
    unfold buildFullPcapList
    rw [hd, hdir]
  refine ⟨hb, ?_, fun event => NewPcapFileList_branches readDir dname fmt event pl hpl⟩
  rw [(NewPcapFileList_branches readDir dname fmt ⟨[]⟩ pl hpl).1 rfl, hb]
  rfl

/-- Witness of C11: the seed `notes.txt` does not match `cap.%n.%t.pcap`. -/
theorem invalid_seed_name_is_rejected_witness :
    buildPcapList (fun _ => some ["cap.1.150.pcap".toList])
        { capList with Files := [path.Join "/data".toList "notes.txt".toList] } =
      some ({ capList with Files := [path.Join "/data".toList "notes.txt".toList] },
        some GoError.InvalidFileName) ∧
    NewPcapFileList (fun _ => some ["cap.1.150.pcap".toList]) "/data".toList
      ⟨"notes.txt".toList⟩ capTemplate = some none := by
  have h := invalid_seed_name_is_rejected (fun _ => some ["cap.1.150.pcap".toList])
    "/data".toList "notes.txt".toList capTemplate capList capRule (by decide) rfl (by decide)
    (by decide)
  exact ⟨h.1, h.2.2⟩

/-- Example: the timestamp of the seed `cap.1.99999999999999999999.pcap` is
beyond 64 bits. -/
theorem rejected_timestamp_submatch_is_fatal_example :
    buildPcapList (fun _ => some ["cap.1.150.pcap".toList])
        { capList with
          Files := [path.Join "/data".toList "cap.1.99999999999999999999.pcap".toList] } =
      some ({ capList with
              Files := [path.Join "/data".toList "cap.1.99999999999999999999.pcap".toList] },
        some GoError.InvalidTimestamp) ∧
    NewPcapFileList (fun _ => some ["cap.1.150.pcap".toList]) "/data".toList
      ⟨"cap.1.99999999999999999999.pcap".toList⟩ capTemplate = some none := by
  have h := rejected_timestamp_submatch_is_fatal (fun _ => some ["cap.1.150.pcap".toList])
    "/data".toList "cap.1.99999999999999999999.pcap".toList capTemplate capList capRule
    ["cap.1.99999999999999999999.pcap".toList, "1".toList, "99999999999999999999".toList]
    "99999999999999999999".toList (by decide) rfl (by decide) (by decide)
    (Or.inr ⟨"1".toList, by decide⟩) (by decide) (by decide)
  exact ⟨h.1, h.2.2⟩

/-- Witness of C16: no directory can be read. -/
theorem full_scan_fails_on_unreadable_directory_witness :
    buildFullPcapList (fun _ => none) capList = some (capList, some GoError.CantOpenDirectory) ∧
    NewPcapFileList (fun _ => none) "/data".toList ⟨[]⟩ capTemplate = some none := by
  have h := full_scan_fails_on_unreadable_directory (fun _ => none) "/data".toList capTemplate
    capList (by decide) rfl
  exact ⟨h.1, h.2.1⟩

/-! ## Seed mode without assumption on the thread field -/

theorem visitEntry_no_panic (pl : PcapFileList) (re : Regexp) (seedName : Str) (m : List Str)
    (hm : re.FindStringSubmatch seedName = some m)
    (hth : pl.ThreadIndex = -1 ∨ ∃ g, goIndex m pl.ThreadIndex = some g)
    (hts : ∃ f, goIndex m pl.TimestampIndex = some f)
    (filePart : Str) (threadIndex : Int) (timestamp : Time) (name : Str) :
    ∃ b, visitEntry pl re filePart threadIndex timestamp name = some b := by
  unfold visitEntry
  by_cases hname : name = filePart
  · exact ⟨false, by simp [hname]⟩
  · simp only [hname, if_false]
    cases hl : re.FindStringSubmatch name with
    | none => exact ⟨false, rfl⟩
    | some lm =>
      have hlen : lm.length = m.length := by
        rw [FindStringSubmatch_length re name lm hl, FindStringSubmatch_length re seedName m hm]
      obtain ⟨f2, hf2⟩ := hts
      obtain ⟨g2, hg2⟩ := goIndex_some_of_length_eq m lm _ f2 hf2 hlen
      have hts2 : ∃ b, timestampCheck pl.TimestampIndex timestamp lm = some b := by
        unfold timestampCheck
        simp only [hg2]
        split
        · exact ⟨false, rfl⟩
        · exact ⟨_, rfl⟩
      by_cases hti : pl.ThreadIndex = -1
      · simpa [threadCheck, hti] using hts2
      · obtain ⟨f1, hf1⟩ := hth.resolve_left hti
        obtain ⟨g1, hg1⟩ := goIndex_some_of_length_eq m lm _ f1 hf1 hlen
        simp only [threadCheck, hti, ne_eq, not_false_eq_true, if_true, hg1]
        by_cases e1 : (strconv.ParseInt g1).2 = none
        · by_cases e2 : (strconv.ParseInt g1).1 = threadIndex
          · simpa [e1, e2] using hts2
          · exact ⟨false, by simp [e1, e2]⟩
        · exact ⟨false, by simp [e1]⟩

/-- Seed mode in general: when the seed's base name matches, the stored
ordinals are within the match and the timestamp field parses, `buildPcapList`
returns no error and appends the entries that its loop body accepts. -/
theorem buildPcapList_general (readDir : Str → Option (List Str)) (pl : PcapFileList)
    (re : Regexp) (f0 : Str) (more : List Str) (m : List Str) (f : Str)
    (hfiles : pl.Files = f0 :: more) (hre : pl.FileParsing = some re)
    (hm : re.FindStringSubmatch (path.Base f0) = some m)
    (hth : pl.ThreadIndex = -1 ∨ ∃ g, goIndex m pl.ThreadIndex = some g)
    (hts : goIndex m pl.TimestampIndex = some f)
    (hok : (strconv.ParseInt f).2 = none) :
    buildPcapList readDir pl =
      some ({ pl with
              Files := pl.Files ++
                (((readDir (path.Dir f0)).getD []).filter
                  (fun n => decide (visitEntry pl re (path.Base f0) (seedThreadValue pl m)
                    (time.Unix (strconv.ParseInt f).1) n = some true))).map
                  (path.Join (path.Dir f0)) }, none) := by
  have hlen : m.length ≠ 0 := by
    rw [FindStringSubmatch_length re _ m hm]
    omega
  have hscan := scanEntries_eq pl re (path.Base f0) (path.Dir f0) (seedThreadValue pl m)
    (time.Unix (strconv.ParseInt f).1)
    (fun n => decide (visitEntry pl re (path.Base f0) (seedThreadValue pl m)
      (time.Unix (strconv.ParseInt f).1) n = some true))
    (by
      intro name
      obtain ⟨b, hb⟩ := visitEntry_no_panic pl re (path.Base f0) m hm hth ⟨f, hts⟩ (path.Base f0)
        (seedThreadValue pl m) (time.Unix (strconv.ParseInt f).1) name
      cases b <;> simp [hb])
  unfold buildPcapList
  by_cases hti : pl.ThreadIndex = -1
  · have hv : seedThreadValue pl m = -1 := by simp [seedThreadValue, hti]
    rw [hv] at hscan
    simp only [hfiles, hre, hm, Option.getD_some, hlen, if_false, hti, ne_eq, not_true_eq_false,
      hts, hok, Option.map_some', hscan] at hscan ⊢
    simp only [not_false_eq_true, if_true, hscan, Option.map_some', hv]
  · obtain ⟨g, hg⟩ := hth.resolve_left hti
    have hv : seedThreadValue pl m = (strconv.ParseInt g).1 := by
      simp [seedThreadValue, hti, hg]
    rw [hv] at hscan
    simp only [hfiles, hre, hm, Option.getD_some, hlen, if_false, hti, ne_eq, not_false_eq_true,
      if_true, hg, hts, hok, Option.map_some', not_true_eq_false, hscan, hv] at hscan ⊢

/-- Seed mode when the submatch at `ThreadIndex` is rejected: for a seed whose
base name the rule matches, whose submatch at the stored timestamp ordinal
parses and whose submatch at the stored thread ordinal `strconv.ParseInt`
rejects, `buildPcapList` returns no error and the list it leaves starts with
the seed path; `NewPcapFileList` returns that list. -/
theorem rejected_thread_submatch_is_not_fatal (readDir : Str → Option (List Str))
    (dname seed fmt : Str) (pl : PcapFileList) (re : Regexp) (m : List Str) (g f : Str)
    (hpl : buildPcapNameParsing { PcapFileList.zero with DirName := dname } fmt = some pl)
    (hre : pl.FileParsing = some re) (hne : seed ≠ [])
    (hm : re.FindStringSubmatch (path.Base (path.Join dname seed)) = some m)
    (hg : goIndex m pl.ThreadIndex = some g) (_hbad : (strconv.ParseInt g).2 ≠ none)
    (hts : goIndex m pl.TimestampIndex = some f) (hok : (strconv.ParseInt f).2 = none) :
    ∃ rest : List Str,
      buildPcapList readDir { pl with Files := [path.Join dname seed] } =
        some ({ pl with Files := path.Join dname seed :: rest }, none) ∧
      NewPcapFileList readDir dname ⟨seed⟩ fmt =
        some (some { pl with Files := path.Join dname seed :: rest, FileName := seed }) := by
  have hb := buildPcapList_general readDir { pl with Files := [path.Join dname seed] } re
    (path.Join dname seed) [] m f rfl hre hm (Or.inr ⟨g, hg⟩) hts hok
  simp only [List.singleton_append] at hb
  refine ⟨_, hb, ?_⟩
  have hf := (buildPcapNameParsing_fields _ fmt pl hpl).1
  simp only [PcapFileList.zero] at hf
  rw [(NewPcapFileList_branches readDir dname fmt ⟨seed⟩ pl hpl).2 hne]
  simp only [hf, List.nil_append, hb, Option.map_some', listOrNil]

/-- Example: the thread field of the seed
`cap.99999999999999999999.100.pcap` is beyond 64 bits. -/
theorem rejected_thread_submatch_is_not_fatal_example :
    ∃ rest : List Str,
      buildPcapList (fun _ => some ["cap.1.150.pcap".toList])
          { capList with
            Files := [path.Join "/data".toList "cap.99999999999999999999.100.pcap".toList] } =
        some ({ capList with
                Files := path.Join "/data".toList "cap.99999999999999999999.100.pcap".toList ::
                  rest }, none) := by
  obtain ⟨rest, h, _⟩ := rejected_thread_submatch_is_not_fatal
    (fun _ => some ["cap.1.150.pcap".toList])
    "/data".toList "cap.99999999999999999999.100.pcap".toList capTemplate capList capRule
    ["cap.99999999999999999999.100.pcap".toList, "99999999999999999999".toList, "100".toList]
    "99999999999999999999".toList "100".toList (by decide) rfl (by decide) (by decide)
    (by decide) (by decide) (by decide) (by decide)
  exact ⟨rest, h⟩

/-- Seed mode with an unreadable directory: for a seed whose base name the rule
matches and whose submatch at the stored timestamp ordinal parses, when the
directory of the seed cannot be read `buildPcapList` returns no error and
`NewPcapFileList` returns a list whose `Files` is the seed path alone, with
`Index = 0`. -/
theorem seed_list_without_directory (readDir : Str → Option (List Str))
    (dname seed fmt : Str) (pl : PcapFileList) (re : Regexp) (m : List Str) (f : Str)
    (hpl : buildPcapNameParsing { PcapFileList.zero with DirName := dname } fmt = some pl)
    (hre : pl.FileParsing = some re) (hne : seed ≠ [])
    (hm : re.FindStringSubmatch (path.Base (path.Join dname seed)) = some m)
    (hth : pl.ThreadIndex = -1 ∨ ∃ g, goIndex m pl.ThreadIndex = some g)
    (hts : goIndex m pl.TimestampIndex = some f) (hok : (strconv.ParseInt f).2 = none)
    (hdir : readDir (path.Dir (path.Join dname seed)) = none) :
    buildPcapList readDir { pl with Files := [path.Join dname seed] } =
      some ({ pl with Files := [path.Join dname seed] }, none) ∧
    NewPcapFileList readDir dname ⟨seed⟩ fmt =
      some (some { pl with Files := [path.Join dname seed], FileName := seed }) ∧
    pl.Index = 0 := by
  have hb := buildPcapList_general readDir { pl with Files := [path.Join dname seed] } re
    (path.Join dname seed) [] m f rfl hre hm hth hts hok
  simp only [hdir, Option.getD_none, List.filter_nil, List.map_nil, List.append_nil] at hb
  have hfs := buildPcapNameParsing_fields _ fmt pl hpl
  have hf := hfs.1
  have hi := hfs.2.2.2.1
  simp only [PcapFileList.zero] at hf hi
  refine ⟨hb, ?_, hi⟩
  rw [(NewPcapFileList_branches readDir dname fmt ⟨seed⟩ pl hpl).2 hne]
  simp only [hf, List.nil_append, hb, Option.map_some', listOrNil]

/-- Example: seed `cap.1.100.pcap` in `/data`, no directory readable. -/
theorem seed_list_without_directory_example :
    NewPcapFileList (fun _ => none) "/data".toList ⟨"cap.1.100.pcap".toList⟩ capTemplate =
      some (some { capList with Files := ["/data/cap.1.100.pcap".toList],
                                FileName := "cap.1.100.pcap".toList }) ∧
    capList.Index = 0 := by
  have h := seed_list_without_directory (fun _ => none) "/data".toList
    "cap.1.100.pcap".toList capTemplate capList capRule
    ["cap.1.100.pcap".toList, "1".toList, "100".toList] "100".toList (by decide) rfl (by decide)
    (by decide) (Or.inr ⟨"1".toList, by decide⟩) (by decide) (by decide) rfl
  exact ⟨h.2.1.trans (by decide), h.2.2⟩

/-- C14 (evaluation at the failing input): the thread field of the seed
`cap.99999999999999999999.100.pcap` is beyond 64 bits, `strconv.ParseInt`
returns the largest `int64` with a range error, the loop compares with this
value, and the entry `cap.9223372036854775807.200.pcap`, whose thread is
another number, is appended. -/
theorem clamped_seed_thread_takes_other_thread :
    strconv.ParseInt "99999999999999999999".toList =
      (9223372036854775807, some NumError.ErrRange) ∧
    strconv.ParseInt "9223372036854775807".toList = (9223372036854775807, none) ∧
    NewPcapFileList (fun _ => some ["cap.9223372036854775807.200.pcap".toList]) "/data".toList
        ⟨"cap.99999999999999999999.100.pcap".toList⟩ capTemplate =
      some (some { capList with
                   Files := ["/data/cap.99999999999999999999.100.pcap".toList,
                     "/data/cap.9223372036854775807.200.pcap".toList],
                   FileName := "cap.99999999999999999999.100.pcap".toList }) := by
  decide

/-- Counterexample to C18 as stated: 100 and 9223372036854775807 both parse as
64-bit integers and 100 is the smaller, yet `time.Unix(100, 0)` is not before
`time.Unix(9223372036854775807, 0)`. -/
theorem timestamp_order_counterexample :
    strconv.ParseInt "100".toList = (100, none) ∧
    strconv.ParseInt "9223372036854775807".toList = (9223372036854775807, none) ∧
    (100 : Int) < 9223372036854775807 ∧
    (time.Unix 100).Before (time.Unix 9223372036854775807) = false := by
  decide

/-- C18 (amended): for 64-bit timestamps `a` (seed) and `b` (candidate) that
are both at most 9223371974719179007, `time.Unix(a, 0).Before(time.Unix(b, 0))`
holds if and only if `a < b`; hence the timestamp test of the loop accepts a
candidate whose timestamp field parses to `b` exactly when `a < b`. -/
theorem timestamp_order_within_range (a b : Int) (ha : -9223372036854775808 ≤ a)
    (ha2 : a ≤ 9223371974719179007) (hb : -9223372036854775808 ≤ b)
    (hb2 : b ≤ 9223371974719179007) :
    ((time.Unix a).Before (time.Unix b) = true ↔ a < b) ∧
    ∀ (TimestampIndex : Int) (lMatch : List Str) (g : Str),
      goIndex lMatch TimestampIndex = some g → strconv.ParseInt g = (b, none) →
      timestampCheck TimestampIndex (time.Unix a) lMatch = some (decide (a < b)) := by
  have h := laterUnix_eq_laterPlain a b ha ha2 hb hb2
  rw [← Before_Unix] at h
  constructor
  · rw [h]
    simp [laterPlain]
  · intro idx lm g hg hp
    unfold timestampCheck
    simp only [hg, hp, ne_eq, not_true_eq_false, if_false, h, laterPlain]

/-- Witness of C18: timestamps 100 and 150. -/
theorem timestamp_order_within_range_witness :
    ((time.Unix 100).Before (time.Unix 150) = true ↔ (100 : Int) < 150) ∧
    timestampCheck 2 (time.Unix 100) ["cap.1.150.pcap".toList, "1".toList, "150".toList] =
      some (decide ((100 : Int) < 150)) := by
  have h := timestamp_order_within_range 100 150 (by decide) (by decide) (by decide) (by decide)
  exact ⟨h.1, h.2 2 _ "150".toList (by decide) (by decide)⟩

/-- C19 (evaluation at the failing inputs): the template `cap.%n.pcap` has a
thread token and no `%t`; it compiles to one group while `ThreadIndex = 2`, so
for the seed `cap.1.pcap` the match has two entries and `match[2]` is out of
range: `NewPcapFileList` panics.  The template `abc` has no token; it compiles
to no group while `TimestampIndex = 1`, and the seed `abc` panics as well. -/
theorem ordinals_beyond_the_groups_panic :
    buildPcapNameParsing PcapFileList.zero "cap.%n.pcap".toList =
      some { PcapFileList.zero with ThreadIndex := 2, TimestampIndex := 1,
                                    FileParsing := some capTimeRule } ∧
    capTimeRule.FindStringSubmatch "cap.1.pcap".toList =
      some ["cap.1.pcap".toList, "1".toList] ∧
    goIndex ["cap.1.pcap".toList, "1".toList] 2 = none ∧
    NewPcapFileList (fun _ => some []) "/data".toList ⟨"cap.1.pcap".toList⟩
      "cap.%n.pcap".toList = none ∧
    buildPcapNameParsing PcapFileList.zero "abc".toList =
      some { PcapFileList.zero with ThreadIndex := -1, TimestampIndex := 1,
                                    FileParsing := some abcRule } ∧
    abcRule.FindStringSubmatch "abc".toList = some ["abc".toList] ∧
    NewPcapFileList (fun _ => some []) "/data".toList ⟨"abc".toList⟩ "abc".toList = none := by
  decide

/-! ## `regexp`: what a thread has read and captured -/

theorem starRun_inv (f : Str → List Str → List Thread)
    (hf : ∀ s caps t, t ∈ f s caps → t.1 <:+ s ∧ ∀ c ∈ t.2, c ∈ caps ∨ c <:+: s) :
    ∀ (n : Nat) (s : Str) (caps : List Str) (t : Thread), t ∈ starRun f n s caps →
      t.1 <:+ s ∧ ∀ c ∈ t.2, c ∈ caps ∨ c <:+: s := by
  intro n
  induction n with
  | zero =>
    intro s caps t ht
    simp only [starRun, List.mem_singleton] at ht
    subst ht
    exact ⟨List.suffix_refl _, fun c hc => Or.inl hc⟩
  | succ n ih =>
    intro s caps t ht
    simp only [starRun, List.mem_append, List.mem_flatMap, List.mem_filter, List.mem_singleton] at ht
    rcases ht with ⟨u, ⟨hu, _⟩, htu⟩ | ht
    · obtain ⟨h1, h2⟩ := hf s caps u hu
      obtain ⟨h3, h4⟩ := ih u.1 u.2 t htu
      refine ⟨h3.trans h1, ?_⟩
      intro c hc
      rcases h4 c hc with h | h
      · exact h2 c h
      · exact Or.inr (h.trans h1.isInfix)
    · subst ht
      exact ⟨List.suffix_refl _, fun c hc => Or.inl hc⟩

/-- A thread of the matcher has read a prefix of the input, and each of its
captures is one it started with or a piece of the input. -/
theorem run_inv (re : Regex) : ∀ (s : Str) (caps : List Str) (t : Thread),
    t ∈ re.run s caps → t.1 <:+ s ∧ ∀ c ∈ t.2, c ∈ caps ∨ c <:+: s := by
  have single : ∀ (x : Char) (xs : Str) (caps : List Str),
      xs <:+ x :: xs ∧ ∀ c ∈ caps, c ∈ caps ∨ c <:+: x :: xs :=
    fun x xs caps => ⟨List.suffix_cons x xs, fun c hc => Or.inl hc⟩
  induction re with
  | eps =>
    intro s caps t ht
    simp only [Regex.run, List.mem_singleton] at ht
    subst ht
    exact ⟨List.suffix_refl _, fun c hc => Or.inl hc⟩
  | lit c =>
    intro s caps t ht
    cases s with
    | nil => simp [Regex.run] at ht
    | cons x xs =>
      simp only [Regex.run] at ht
      split at ht
      · simp only [List.mem_singleton] at ht
        subst ht
        exact single x xs caps
      · simp at ht
  | any =>
    intro s caps t ht
    cases s with
    | nil => simp [Regex.run] at ht
    | cons x xs =>
      simp only [Regex.run] at ht
      split at ht
      · simp at ht
      · simp only [List.mem_singleton] at ht
        subst ht
        exact single x xs caps
  | digit =>
    intro s caps t ht
    cases s with
    | nil => simp [Regex.run] at ht
    | cons x xs =>
      simp only [Regex.run] at ht
      split at ht
      · simp only [List.mem_singleton] at ht
        subst ht
        exact single x xs caps
      · simp at ht
  | cat a b iha ihb =>
    intro s caps t ht
    simp only [Regex.run, List.mem_flatMap] at ht
    obtain ⟨u, hu, htu⟩ := ht
    obtain ⟨h1, h2⟩ := iha s caps u hu
    obtain ⟨h3, h4⟩ := ihb u.1 u.2 t htu
    refine ⟨h3.trans h1, ?_⟩
    intro c hc
    rcases h4 c hc with h | h
    · exact h2 c h
    · exact Or.inr (h.trans h1.isInfix)
  | alt a b iha ihb =>
    intro s caps t ht
    simp only [Regex.run, List.mem_append] at ht
    exact ht.elim (iha s caps t) (ihb s caps t)
  | star a iha =>
    intro s caps t ht
    simp only [Regex.run] at ht
    exact starRun_inv a.run iha _ s caps t ht
  | plus a iha =>
    intro s caps t ht
    simp only [Regex.run, List.mem_flatMap] at ht
    obtain ⟨u, hu, htu⟩ := ht
    obtain ⟨h1, h2⟩ := iha s caps u hu
    obtain ⟨h3, h4⟩ := starRun_inv a.run iha _ u.1 u.2 t htu
    refine ⟨h3.trans h1, ?_⟩
    intro c hc
    rcases h4 c hc with h | h
    · exact h2 c h
    · exact Or.inr (h.trans h1.isInfix)
  | opt a iha =>
    intro s caps t ht
    simp only [Regex.run, List.mem_append, List.mem_singleton] at ht
    rcases ht with ht | ht
    · exact iha s caps t ht
    · subst ht
      exact ⟨List.suffix_refl _, fun c hc => Or.inl hc⟩
  | group i a iha =>
    intro s caps t ht
    simp only [Regex.run, List.mem_map] at ht
    obtain ⟨u, hu, rfl⟩ := ht
    obtain ⟨h1, h2⟩ := iha s caps u hu
    refine ⟨h1, ?_⟩
    intro c hc
    rcases List.mem_or_eq_of_mem_set hc with h | h
    · exact h2 c h
    · right
      rw [h]
      exact (List.take_prefix _ _).isInfix

/-! ## `regexp`: matching is not anchored -/

theorem starRun_fuel_succ (f : Str → List Str → List Thread) :
    ∀ (n : Nat) (s : Str) (caps : List Str) (t : Thread), t ∈ starRun f n s caps →
      t ∈ starRun f (n + 1) s caps := by
  intro n
  induction n with
  | zero =>
    intro s caps t ht
    simp only [starRun, List.mem_singleton] at ht
    subst ht
    simp [starRun]
  | succ n ih =>
    intro s caps t ht
    rw [starRun] at ht
    simp only [List.mem_append, List.mem_flatMap, List.mem_singleton] at ht
    rw [starRun]
    simp only [List.mem_append, List.mem_flatMap, List.mem_singleton]
    rcases ht with ⟨u, hu, htu⟩ | ht
    · exact Or.inl ⟨u, hu, ih u.1 u.2 t htu⟩
    · exact Or.inr ht

theorem starRun_fuel_le (f : Str → List Str → List Thread) (n k : Nat) (s : Str)
    (caps : List Str) (t : Thread) (ht : t ∈ starRun f n s caps) :
    t ∈ starRun f (n + k) s caps := by
  induction k with
  | zero => exact ht
  | succ k ih => exact starRun_fuel_succ f (n + k) s caps t ih

theorem starRun_append (f : Str → List Str → List Thread) (x : Str)
    (hf : ∀ s caps t, t ∈ f s caps → (t.1 ++ x, t.2) ∈ f (s ++ x) caps) :
    ∀ (n : Nat) (s : Str) (caps : List Str) (t : Thread), t ∈ starRun f n s caps →
      (t.1 ++ x, t.2) ∈ starRun f n (s ++ x) caps := by
  intro n
  induction n with
  | zero =>
    intro s caps t ht
    simp only [starRun, List.mem_singleton] at ht
    subst ht
    simp [starRun]
  | succ n ih =>
    intro s caps t ht
    rw [starRun] at ht
    simp only [List.mem_append, List.mem_flatMap, List.mem_filter, List.mem_singleton,
      decide_eq_true_eq] at ht
    rw [starRun]
    simp only [List.mem_append, List.mem_flatMap, List.mem_filter, List.mem_singleton,
      decide_eq_true_eq]
    rcases ht with ⟨u, ⟨hu, hlt⟩, htu⟩ | ht
    · refine Or.inl ⟨(u.1 ++ x, u.2), ⟨hf s caps u hu, ?_⟩, ih u.1 u.2 t htu⟩
      simp only [List.length_append]
      omega
    · subst ht
      exact Or.inr rfl

/-- A thread on an input is also a thread on the input followed by more text. -/
theorem run_append (re : Regex) (x : Str) : ∀ (s : Str) (caps : List Str) (t : Thread),
    t ∈ re.run s caps → (t.1 ++ x, t.2) ∈ re.run (s ++ x) caps := by
  have hlen : ∀ (r : Regex) (s : Str) (caps : List Str) (t : Thread), t ∈ r.run s caps →
      t.1.length ≤ s.length := fun r s caps t ht => (run_inv r s caps t ht).1.length_le
  induction re with
  | eps =>
    intro s caps t ht
    simp only [Regex.run, List.mem_singleton] at ht
    subst ht
    simp [Regex.run]
  | lit c =>
    intro s caps t ht
    cases s with
    | nil => simp [Regex.run] at ht
    | cons y ys =>
      simp only [Regex.run] at ht
      split at ht
      · next h =>
        simp only [List.mem_singleton] at ht
        subst ht
        simp [Regex.run, h]
      · simp at ht
  | any =>
    intro s caps t ht
    cases s with
    | nil => simp [Regex.run] at ht
    | cons y ys =>
      simp only [Regex.run] at ht
      split at ht
      · simp at ht
      · next h =>
        simp only [List.mem_singleton] at ht
        subst ht
        simp [Regex.run, h]
  | digit =>
    intro s caps t ht
    cases s with
    | nil => simp [Regex.run] at ht
    | cons y ys =>
      simp only [Regex.run] at ht
      split at ht
      · next h =>
        simp only [List.mem_singleton] at ht
        subst ht
        simp [Regex.run, h]
      · simp at ht
  | cat a b iha ihb =>
    intro s caps t ht
    simp only [Regex.run, List.mem_flatMap] at ht ⊢
    obtain ⟨u, hu, htu⟩ := ht
    exact ⟨(u.1 ++ x, u.2), iha s caps u hu, ihb u.1 u.2 t htu⟩
  | alt a b iha ihb =>
    intro s caps t ht
    simp only [Regex.run, List.mem_append] at ht ⊢
    exact ht.elim (fun h => Or.inl (iha s caps t h)) (fun h => Or.inr (ihb s caps t h))
  | star a iha =>
    intro s caps t ht
    simp only [Regex.run] at ht ⊢
    have h := starRun_append a.run x iha _ s caps t ht
    rw [List.length_append]
    exact starRun_fuel_le a.run _ _ _ _ _ h
  | plus a iha =>
    intro s caps t ht
    simp only [Regex.run, List.mem_flatMap] at ht ⊢
    obtain ⟨u, hu, htu⟩ := ht
    refine ⟨(u.1 ++ x, u.2), iha s caps u hu, ?_⟩
    have h := starRun_append a.run x iha _ u.1 u.2 t htu
    simp only [List.length_append]
    exact starRun_fuel_le a.run _ _ _ _ _ h
  | opt a iha =>
    intro s caps t ht
    simp only [Regex.run, List.mem_append, List.mem_singleton] at ht ⊢
    rcases ht with ht | ht
    · exact Or.inl (iha s caps t ht)
    · subst ht
      exact Or.inr rfl
  | group i a iha =>
    intro s caps t ht
    simp only [Regex.run, List.mem_map] at ht ⊢
    obtain ⟨u, hu, rfl⟩ := ht
    refine ⟨(u.1 ++ x, u.2), iha s caps u hu, ?_⟩
    have hl := hlen a s caps u hu
    have e : (s ++ x).length - (u.1 ++ x).length = s.length - u.1.length := by
      simp only [List.length_append]
      omega
    simp only [e]
    rw [List.take_append_of_le_length (by omega)]

/-- The search finds a match exactly when the expression has a thread at some
position of the input. -/
theorem searchFrom_isSome_iff (re : Regexp) : ∀ s : Str,
    (searchFrom re s).isSome = true ↔
      ∃ u, u <:+ s ∧ re.prog.run u (List.replicate (re.numSubexp + 1) []) ≠ [] := by
  intro s
  induction s with
  | nil =>
    simp only [searchFrom]
    constructor
    · intro h
      refine ⟨[], List.suffix_refl _, ?_⟩
      intro hr
      rw [hr] at h
      simp at h
    · rintro ⟨u, hu, hr⟩
      have : u = [] := List.eq_nil_of_suffix_nil hu
      subst this
      cases hrun : re.prog.run [] (List.replicate (re.numSubexp + 1) []) with
      | nil => exact absurd hrun hr
      | cons t ts => simp
  | cons c s ih =>
    simp only [searchFrom]
    cases hrun : re.prog.run (c :: s) (List.replicate (re.numSubexp + 1) []) with
    | nil =>
      simp only [ih]
      constructor
      · rintro ⟨u, hu, hr⟩
        exact ⟨u, hu.trans (List.suffix_cons c s), hr⟩
      · rintro ⟨u, hu, hr⟩
        rcases List.suffix_cons_iff.mp hu with h | h
        · subst h
          exact absurd hrun hr
        · exact ⟨u, h, hr⟩
    | cons t ts =>
      simp only [Option.isSome_some, true_iff]
      exact ⟨c :: s, List.suffix_refl _, by rw [hrun]; simp⟩

/-- A rule that accepts a name accepts the name with any text before and after. -/
theorem FindStringSubmatch_unanchored (re : Regexp) (pre f suf : Str)
    (h : (re.FindStringSubmatch f).isSome = true) :
    (re.FindStringSubmatch (pre ++ f ++ suf)).isSome = true := by
  unfold Regexp.FindStringSubmatch at h ⊢
  rw [searchFrom_isSome_iff] at h ⊢
  obtain ⟨u, hu, hr⟩ := h
  refine ⟨u ++ suf, ?_, ?_⟩
  · obtain ⟨v, hv⟩ := hu
    exact ⟨pre ++ v, by rw [← hv]; simp⟩
  · cases hrun : re.prog.run u (List.replicate (re.numSubexp + 1) []) with
    | nil => exact absurd hrun hr
    | cons t ts =>
      have := run_append re.prog suf u _ t (by rw [hrun]; simp)
      exact List.ne_nil_of_mem this

/-- C20: for every template whose pattern compiles and every file name `f`
that the compiled rule accepts, the rule accepts `pre ++ f ++ suf` for all
texts `pre` and `suf`; so in full-scan mode a directory entry of this form is
listed. -/
theorem matching_is_unanchored (readDir : Str → Option (List Str)) (pl0 : PcapFileList)
    (fmt : Str) (re : Regexp) (pre f suf : Str) (listing : List Str)
    (hre : MustCompile (regexpString fmt) = some re)
    (hacc : (re.FindStringSubmatch f).isSome = true) :
    ∃ pl, buildPcapNameParsing pl0 fmt = some pl ∧ pl.FileParsing = some re ∧
      (re.FindStringSubmatch (pre ++ f ++ suf)).isSome = true ∧
      (readDir pl.DirName = some listing → pre ++ f ++ suf ∈ listing →
        ∃ pl2, buildFullPcapList readDir pl = some (pl2, none) ∧
          path.Join pl.DirName (pre ++ f ++ suf) ∈ pl2.Files) := by
  have hun := FindStringSubmatch_unanchored re pre f suf hacc
  rw [buildPcapNameParsing_eq, hre]
  refine ⟨_, rfl, rfl, hun, ?_⟩
  intro hdir hmem
  refine ⟨_, buildFullPcapList_filter readDir _ re listing
    (fun n => (re.FindStringSubmatch n).isSome) rfl hdir (fun _ => rfl), ?_⟩
  simp only [List.mem_append, List.mem_map, List.mem_filter]
  exact Or.inr ⟨pre ++ f ++ suf, ⟨hmem, hun⟩, rfl⟩

/-- Witness of C20: `cap.1.100.pcap.tmp` is listed like `cap.1.100.pcap`. -/
theorem matching_is_unanchored_witness :
    ∃ pl, buildPcapNameParsing { PcapFileList.zero with DirName := "/data".toList } capTemplate =
        some pl ∧
      pl.FileParsing = some capRule ∧
      (capRule.FindStringSubmatch ([] ++ "cap.1.100.pcap".toList ++ ".tmp".toList)).isSome = true ∧
      ∃ pl2, buildFullPcapList (fun _ => some ["cap.1.100.pcap.tmp".toList]) pl = some (pl2, none) ∧
        path.Join pl.DirName ([] ++ "cap.1.100.pcap".toList ++ ".tmp".toList) ∈ pl2.Files := by
  obtain ⟨pl, h1, h2, h3, h4⟩ := matching_is_unanchored
    (fun _ => some ["cap.1.100.pcap.tmp".toList])
    { PcapFileList.zero with DirName := "/data".toList } capTemplate capRule []
    "cap.1.100.pcap".toList ".tmp".toList ["cap.1.100.pcap.tmp".toList] (by decide) (by decide)
  exact ⟨pl, h1, h2, h3, h4 rfl (by decide)⟩

/-! ## Uniqueness of the entries -/

/-- Every entry of a match is a piece of the matched name. -/
theorem FindStringSubmatch_entries_in_name (re : Regexp) : ∀ (s : Str) (m : List Str),
    re.FindStringSubmatch s = some m → ∀ c ∈ m, c <:+: s := by
  unfold Regexp.FindStringSubmatch
  have key : ∀ (u : Str) (t : Thread),
      t ∈ re.prog.run u (List.replicate (re.numSubexp + 1) []) →
      ∀ c ∈ t.2.set 0 (u.take (u.length - t.1.length)), c <:+: u := by
    intro u t ht c hc
    obtain ⟨_, h2⟩ := run_inv re.prog u _ t ht
    rcases List.mem_or_eq_of_mem_set hc with h | h
    · rcases h2 c h with h3 | h3
      · rw [List.eq_of_mem_replicate h3]
        exact List.nil_infix
      · exact h3
    · rw [h]
      exact (List.take_prefix _ _).isInfix
  intro s
  induction s with
  | nil =>
    intro m hm c hc
    simp only [searchFrom] at hm
    split at hm
    · next t ts heq =>
      simp only [Option.some.injEq] at hm
      subst hm
      exact key [] t (by rw [heq]; simp) c (by simpa using hc)
    · simp at hm
  | cons x s ih =>
    intro m hm c hc
    simp only [searchFrom] at hm
    split at hm
    · next t ts heq =>
      simp only [Option.some.injEq] at hm
      subst hm
      exact key (x :: s) t (by rw [heq]; simp) c hc
    · exact (ih m hm c hc).trans (List.suffix_cons x s).isInfix

/-- A text that `strconv.ParseInt` accepts starts with a sign or a digit. -/
theorem ParseInt_ok_head (f : Str) (h : (strconv.ParseInt f).2 = none) :
    ∃ c cs, f = c :: cs ∧ (c = '+' ∨ c = '-' ∨ isDigit c = true) := by
  cases f with
  | nil => simp [strconv.ParseInt] at h
  | cons c cs =>
    refine ⟨c, cs, rfl, ?_⟩
    by_contra hc
    simp only [not_or] at hc
    obtain ⟨h1, h2, h3⟩ := hc
    have hu : strconv.ParseUint (c :: cs) = (0, some NumError.ErrSyntax) := by
      simp [strconv.ParseUint, strconv.parseUintLoop, h3]
    simp [strconv.ParseInt, h1, h2, hu] at h

theorem isBareName_of_parsed_field (n f : Str) (hinf : f <:+: n)
    (hok : (strconv.ParseInt f).2 = none) (hslash : '/' ∉ n) : isBareName n = true := by
  obtain ⟨c, cs, rfl, hc⟩ := ParseInt_ok_head f hok
  have hmem : c ∈ n := hinf.subset (List.mem_cons_self c cs)
  have hdot : c ≠ '.' := by
    intro e
    subst e
    rcases hc with h | h | h
    · exact absurd h (by decide)
    · exact absurd h (by decide)
    · exact absurd h (by decide)
  rw [isBareName_iff]
  refine ⟨List.ne_nil_of_mem hmem, hslash, ?_, ?_⟩
  · intro e
    rw [e] at hmem
    simp at hmem
    exact hdot hmem
  · intro e
    rw [e] at hmem
    simp at hmem
    exact hdot hmem

theorem goIndex_mem {α : Type} (l : List α) (i : Int) (a : α) (h : goIndex l i = some a) :
    a ∈ l := by
  unfold goIndex at h
  split at h
  · simp at h
  · exact List.get?_mem h

/-- An entry that the loop body of `buildPcapList` accepts is not named like the
seed and has a timestamp field that parses. -/
theorem visitEntry_true_inv (pl : PcapFileList) (re : Regexp) (filePart : Str)
    (threadIndex : Int) (timestamp : Time) (name : Str)
    (h : visitEntry pl re filePart threadIndex timestamp name = some true) :
    name ≠ filePart ∧ ∃ lm f, re.FindStringSubmatch name = some lm ∧
      goIndex lm pl.TimestampIndex = some f ∧ (strconv.ParseInt f).2 = none := by
  unfold visitEntry at h
  by_cases hname : name = filePart
  · simp [hname] at h
  · refine ⟨hname, ?_⟩
    simp only [hname, if_false] at h
    cases hl : re.FindStringSubmatch name with
    | none => simp [hl] at h
    | some lm =>
      simp only [hl] at h
      have hts : timestampCheck pl.TimestampIndex timestamp lm = some true := by
        cases htc : threadCheck pl.ThreadIndex threadIndex lm with
        | none => simp [htc] at h
        | some b =>
          cases b with
          | false => simp [htc] at h
          | true => simpa [htc] using h
      unfold timestampCheck at hts
      cases hg : goIndex lm pl.TimestampIndex with
      | none => simp [hg] at hts
      | some f =>
        simp only [hg] at hts
        refine ⟨lm, f, rfl, hg, ?_⟩
        by_contra hc
        simp [hc] at hts

theorem scanEntries_some (pl : PcapFileList) (re : Regexp) (filePart dName : Str)
    (threadIndex : Int) (timestamp : Time) : ∀ (files acc fs : List Str),
    scanEntries pl re filePart dName threadIndex timestamp files acc = some fs →
    fs = acc ++ (files.filter
      (fun n => decide (visitEntry pl re filePart threadIndex timestamp n = some true))).map
      (path.Join dName) := by
  intro files
  induction files with
  | nil =>
    intro acc fs h
    simp only [scanEntries, Option.some.injEq] at h
    simp [h]
  | cons name rest ih =>
    intro acc fs h
    unfold scanEntries at h
    cases hv : visitEntry pl re filePart threadIndex timestamp name with
    | none => simp [hv] at h
    | some b =>
      cases b with
      | true =>
        simp only [hv] at h
        rw [ih _ fs h]
        simp [hv]
      | false =>
        simp only [hv] at h
        rw [ih _ fs h]
        simp [hv]

/-- The list that a successful `buildPcapList` leaves. -/
theorem buildPcapList_ok_inv (readDir : Str → Option (List Str)) (pl pl2 : PcapFileList)
    (f0 : Str) (more : List Str) (hfiles : pl.Files = f0 :: more)
    (h : buildPcapList readDir pl = some (pl2, none)) :
    ∃ re threadIndex timestamp,
      pl2.Files = pl.Files ++ (((readDir (path.Dir f0)).getD []).filter
        (fun n => decide (visitEntry pl re (path.Base f0) threadIndex timestamp n =
          some true))).map (path.Join (path.Dir f0)) := by
  unfold buildPcapList at h
  simp only [hfiles] at h
  cases hre : pl.FileParsing with
  | none => simp [hre] at h
  | some re =>
    simp only [hre] at h
    split at h
    · simp at h
    · split at h
      · simp at h
      · next threadIndex _ =>
        split at h
        · simp at h
        · next f _ =>
          split at h
          · simp at h
          · cases hs : scanEntries pl re (path.Base f0) (path.Dir f0) threadIndex
                (time.Unix (strconv.ParseInt f).1) ((readDir (path.Dir f0)).getD [])
                (f0 :: more) with
            | none => simp [hs] at h
            | some fs =>
              simp only [hs, Option.map_some', Option.some.injEq, Prod.mk.injEq, and_true] at h
              refine ⟨re, threadIndex, time.Unix (strconv.ParseInt f).1, ?_⟩
              rw [← h, hfiles]
              exact scanEntries_some pl re _ _ _ _ _ _ fs hs

theorem Join_injective_on_bare (d a b : Str) (ha : isBareName a = true)
    (hb : isBareName b = true) (h : path.Join d a = path.Join d b) : a = b := by
  rw [← Base_Join_bare d a ha, ← Base_Join_bare d b hb, h]

/-- C17: for a directory listing whose entry names are pairwise distinct,
(seed mode) if no name contains a path separator, the list that a successful
`buildPcapList` leaves from the seed path alone contains no path twice and the
seed path only at position 0; (full-scan mode) if the names are those of
directory entries as `ioutil.ReadDir` returns them, bare file names without
separator (never empty, `.` or `..`), the list that a successful
`buildFullPcapList` leaves from the empty list contains no path twice. -/
theorem entries_are_unique (readDir : Str → Option (List Str)) (pl pl2 : PcapFileList)
    (listing : List Str) (hnd : listing.Nodup) :
    (∀ f0, pl.Files = [f0] → (readDir (path.Dir f0)).getD [] = listing →
      (∀ n ∈ listing, '/' ∉ n) → buildPcapList readDir pl = some (pl2, none) →
      pl2.Files.Nodup ∧ pl2.Files.head? = some f0 ∧ f0 ∉ pl2.Files.tail) ∧
    (pl.Files = [] → readDir pl.DirName = some listing →
      (∀ n ∈ listing, isBareName n = true) → buildFullPcapList readDir pl = some (pl2, none) →
      pl2.Files.Nodup) := by
  constructor
  · intro f0 hfiles hlist hslash hb
    obtain ⟨re, ti, ts, hinv⟩ := buildPcapList_ok_inv readDir pl pl2 f0 [] hfiles hb
    rw [hlist, hfiles] at hinv
    have hkept : ∀ n ∈ listing.filter
        (fun n => decide (visitEntry pl re (path.Base f0) ti ts n = some true)),
        n ≠ path.Base f0 ∧ isBareName n = true := by
      intro n hn
      rw [List.mem_filter] at hn
      obtain ⟨hmem, hv⟩ := hn
      obtain ⟨hne, lm, f, hl, hg, hok⟩ :=
        visitEntry_true_inv pl re (path.Base f0) ti ts n (by simpa using hv)
      exact ⟨hne, isBareName_of_parsed_field n f
        (FindStringSubmatch_entries_in_name re n lm hl f (goIndex_mem lm _ f hg)) hok (hslash n hmem)⟩
    have hmapnd : (List.map (path.Join (path.Dir f0)) (listing.filter
        (fun n => decide (visitEntry pl re (path.Base f0) ti ts n = some true)))).Nodup := by
      apply List.Nodup.map_on _ (hnd.filter _)
      intro a ha b hb2 hab
      exact Join_injective_on_bare _ a b (hkept a ha).2 (hkept b hb2).2 hab
    have hnot : f0 ∉ List.map (path.Join (path.Dir f0)) (listing.filter
        (fun n => decide (visitEntry pl re (path.Base f0) ti ts n = some true))) := by
      intro hmem
      rw [List.mem_map] at hmem
      obtain ⟨n, hn, hj⟩ := hmem
      have h1 := Base_Join_bare (path.Dir f0) n (hkept n hn).2
      rw [hj] at h1
      exact (hkept n hn).1 h1.symm
    rw [hinv]
    simp only [List.singleton_append, List.nodup_cons, List.head?_cons, List.tail_cons]
    exact ⟨⟨hnot, hmapnd⟩, trivial, hnot⟩
  · intro hfiles hdir hbare hb
    unfold buildFullPcapList at hb
    rw [hdir] at hb
    cases listing with
    | nil =>
      simp only [Option.some.injEq, Prod.mk.injEq, and_true] at hb
      rw [← hb, hfiles]
      exact List.nodup_nil
    | cons a l =>
      cases hre : pl.FileParsing with
      | none => simp [hre] at hb
      | some re =>
        simp only [hre, Option.some.injEq, Prod.mk.injEq, and_true] at hb
        rw [← hb]
        simp only [scanAll_eq, hfiles, List.nil_append]
        apply List.Nodup.map_on _ (hnd.filter _)
        intro x hx y hy hxy
        exact Join_injective_on_bare _ x y (hbare x (List.mem_of_mem_filter hx))
          (hbare y (List.mem_of_mem_filter hy)) hxy

/-- Witness of C17: seed mode from `/data/cap.1.100.pcap` and full-scan mode,
each on the listing `cap.1.100.pcap, cap.1.150.pcap, cap.1.200.pcap`. -/
theorem entries_are_unique_witness :
    (buildPcapList
        (fun _ => some ["cap.1.100.pcap".toList, "cap.1.150.pcap".toList, "cap.1.200.pcap".toList])
        { capList with Files := ["/data/cap.1.100.pcap".toList] } =
      some ({ capList with Files := ["/data/cap.1.100.pcap".toList, "/data/cap.1.150.pcap".toList,
        "/data/cap.1.200.pcap".toList] }, none) ∧
     ({ capList with Files := ["/data/cap.1.100.pcap".toList, "/data/cap.1.150.pcap".toList,
        "/data/cap.1.200.pcap".toList] } : PcapFileList).Files.Nodup ∧
     "/data/cap.1.100.pcap".toList ∉
      ({ capList with Files := ["/data/cap.1.100.pcap".toList, "/data/cap.1.150.pcap".toList,
        "/data/cap.1.200.pcap".toList] } : PcapFileList).Files.tail) ∧
    (buildFullPcapList
        (fun _ => some ["cap.1.100.pcap".toList, "cap.1.150.pcap".toList, "cap.1.200.pcap".toList])
        capList =
      some ({ capList with Files := ["/data/cap.1.100.pcap".toList, "/data/cap.1.150.pcap".toList,
        "/data/cap.1.200.pcap".toList] }, none) ∧
     ({ capList with Files := ["/data/cap.1.100.pcap".toList, "/data/cap.1.150.pcap".toList,
        "/data/cap.1.200.pcap".toList] } : PcapFileList).Files.Nodup) := by
  have h := (entries_are_unique
    (fun _ => some ["cap.1.100.pcap".toList, "cap.1.150.pcap".toList, "cap.1.200.pcap".toList])
    { capList with Files := ["/data/cap.1.100.pcap".toList] }
    { capList with Files := ["/data/cap.1.100.pcap".toList, "/data/cap.1.150.pcap".toList,
        "/data/cap.1.200.pcap".toList] }
    ["cap.1.100.pcap".toList, "cap.1.150.pcap".toList, "cap.1.200.pcap".toList]
    (by decide)).1 "/data/cap.1.100.pcap".toList rfl rfl (by decide) (by decide)
  have h2 := (entries_are_unique
    (fun _ => some ["cap.1.100.pcap".toList, "cap.1.150.pcap".toList, "cap.1.200.pcap".toList])
    capList
    { capList with Files := ["/data/cap.1.100.pcap".toList, "/data/cap.1.150.pcap".toList,
        "/data/cap.1.200.pcap".toList] }
    ["cap.1.100.pcap".toList, "cap.1.150.pcap".toList, "cap.1.200.pcap".toList]
    (by decide)).2 rfl rfl (by decide) (by decide)
  exact ⟨⟨by decide, h.1, h.2.2⟩, by decide, h2⟩

/-! ## Seed mode on a template with one thread token and one `%t` -/

/-- For a template of literal characters with one thread token and one `%t`,
the ordinals that `buildPcapNameParsing` stores are those of the groups of the
two tokens. -/
theorem ordinals_of_pieces (ps : List Piece) (thr : Tok) (hlit : literalPieces ps = true)
    (hthr : thr = Tok.n ∨ thr = Tok.i)
    (htoks : piecesToks ps = [thr, Tok.t] ∨ piecesToks ps = [Tok.t, thr]) :
    (if threadTokenIndex (templateText ps) = -1 then (-1 : Int)
      else if threadTokenIndex (templateText ps) < strings.Index (templateText ps) tokT
      then 1 else 2) = tokOrdinal thr ps ∧
    (if threadTokenIndex (templateText ps) = -1 then (1 : Int)
      else if threadTokenIndex (templateText ps) < strings.Index (templateText ps) tokT
      then 2 else 1) = tokOrdinal Tok.t ps := by
  have hnp := noPercent_of_literalPieces ps hlit
  have hN := Index_templateText Tok.n ps hnp
  have hI := Index_templateText Tok.i ps hnp
  have hT := Index_templateText Tok.t ps hnp
  simp only [Tok.text] at hN hI hT
  rcases hthr with rfl | rfl
  · rcases htoks with h | h
    · obtain ⟨a, b, h1, h2, h3⟩ := tokOffset_lt Tok.n Tok.t (by decide) ps [Tok.t] h (by decide)
      rw [h1] at hN
      rw [h2] at hT
      have e1 : ¬ ((a : Int) = -1) := by omega
      have e2 : (a : Int) < (b : Int) := by omega
      simp only [threadTokenIndex, hN, hT, e1, e2, if_true, if_false, tokOrdinal, h]
      decide
    · obtain ⟨a, b, h1, h2, h3⟩ := tokOffset_lt Tok.t Tok.n (by decide) ps [Tok.n] h (by decide)
      rw [h1] at hT
      rw [h2] at hN
      have e1 : ¬ ((b : Int) = -1) := by omega
      have e2 : ¬ ((b : Int) < (a : Int)) := by omega
      simp only [threadTokenIndex, hN, hT, e1, e2, if_false, tokOrdinal, h]
      decide
  · rcases htoks with h | h
    · obtain ⟨a, b, h1, h2, h3⟩ := tokOffset_lt Tok.i Tok.t (by decide) ps [Tok.t] h (by decide)
      have h0 := tokOffset_eq_none Tok.n ps (by rw [h]; decide)
      rw [h0] at hN
      rw [h1] at hI
      rw [h2] at hT
      have e1 : ¬ ((a : Int) = -1) := by omega
      have e2 : (a : Int) < (b : Int) := by omega
      simp only [threadTokenIndex, hN, hI, hT, e1, e2, if_true, if_false, tokOrdinal, h]
      decide
    · obtain ⟨a, b, h1, h2, h3⟩ := tokOffset_lt Tok.t Tok.i (by decide) ps [Tok.i] h (by decide)
      have h0 := tokOffset_eq_none Tok.n ps (by rw [h]; decide)
      rw [h0] at hN
      rw [h1] at hT
      rw [h2] at hI
      have e1 : ¬ ((b : Int) = -1) := by omega
      have e2 : ¬ ((b : Int) < (a : Int)) := by omega
      simp only [threadTokenIndex, hN, hI, hT, e1, e2, if_true, if_false, tokOrdinal, h]
      decide

/-- A value that `strconv.ParseInt` returns without error is at least `-2^63`. -/
theorem ParseInt_ok_ge (f : Str) (h : (strconv.ParseInt f).2 = none) :
    -9223372036854775808 ≤ (strconv.ParseInt f).1 := by
  cases f with
  | nil => simp [strconv.ParseInt] at h
  | cons c cs =>
    simp only [strconv.ParseInt] at h ⊢
    generalize strconv.ParseUint (if c = '+' ∨ c = '-' then cs else c :: cs) = r at h ⊢
    obtain ⟨un, e⟩ := r
    have key : ∀ u : Nat,
        ((if (!decide (c = '-')) = true ∧ u ≥ 2 ^ 63 then
            ((2 : Int) ^ 63 - 1, some NumError.ErrRange)
          else if decide (c = '-') = true ∧ u > 2 ^ 63 then
            (-(2 : Int) ^ 63, some NumError.ErrRange)
          else if decide (c = '-') = true then (-(u : Int), none)
          else ((u : Int), (none : Option NumError))).2 = none) →
        -9223372036854775808 ≤
          (if (!decide (c = '-')) = true ∧ u ≥ 2 ^ 63 then
            ((2 : Int) ^ 63 - 1, some NumError.ErrRange)
          else if decide (c = '-') = true ∧ u > 2 ^ 63 then
            (-(2 : Int) ^ 63, some NumError.ErrRange)
          else if decide (c = '-') = true then (-(u : Int), none)
          else ((u : Int), (none : Option NumError))).1 := by
      intro u hu
      split_ifs at hu ⊢ with h1 h2 h3
      · have hle : u ≤ 2 ^ 63 := by
          by_contra hc
          exact h2 ⟨h3, by omega⟩
        show -9223372036854775808 ≤ -(u : Int)
        have : (u : Int) ≤ 9223372036854775808 := by exact_mod_cast hle
        omega
      · show -9223372036854775808 ≤ (u : Int)
        omega
    cases e with
    | none => exact key un h
    | some err =>
      cases err with
      | ErrSyntax => simp at h
      | ErrRange => exact key un h

theorem seedSelects_plain_of_range (re : Regexp) (ThreadIndex TimestampIndex : Int) (seed : Str)
    (tv sv : Int) (hsv1 : -9223372036854775808 ≤ sv) (hsv2 : sv ≤ maxPlainTimestamp)
    (listing : List Str) (hrange : timestampsInRange re TimestampIndex listing = true) :
    listing.filter (seedSelects laterUnix re ThreadIndex TimestampIndex seed tv sv) =
      listing.filter (seedSelects laterPlain re ThreadIndex TimestampIndex seed tv sv) := by
  apply List.filter_congr
  intro n hn
  have hr := (List.all_eq_true.mp hrange) n hn
  unfold seedSelects
  cases hl : re.FindStringSubmatch n with
  | none => rfl
  | some lm =>
    simp only [hl] at hr ⊢
    cases hv : fieldValue lm TimestampIndex with
    | none => rfl
    | some v =>
      simp only [hv, decide_eq_true_eq] at hr ⊢
      obtain ⟨f, _, hp⟩ := fieldValue_eq_some lm _ v hv
      have hge := ParseInt_ok_ge f (by rw [hp])
      rw [hp] at hge
      rw [laterUnix_eq_laterPlain sv v hsv1 hsv2 hge hr]

/-- C1 (amended): for a template made of literal characters (none of them `%`
or a regex metacharacter other than `.`), one thread token and one `%t`, the
stored ordinals are those of the groups of the two tokens; and for a bare seed
name that the compiled rule matches, whose thread and timestamp fields parse as
64-bit integers, when the seed's timestamp and the timestamp of every listing
entry are at most 9223371974719179007, `NewPcapFileList` returns a list whose
`Files` is the seed path followed by `path.Join(dir, name)` (`dir` being the
directory of the seed path) for exactly the entries of the listing of `dir`,
in listing order, that are not named like the seed, match the rule, have a
thread field that parses and equals the seed's, and have a timestamp field that
parses and is strictly greater than the seed's. -/
theorem seed_mode_exact (readDir : Str → Option (List Str)) (dname seed : Str)
    (ps : List Piece) (thr : Tok) (pl : PcapFileList) (re : Regexp) (m : List Str) (tv sv : Int)
    (hlit : literalPieces ps = true) (hthr : thr = Tok.n ∨ thr = Tok.i)
    (htoks : piecesToks ps = [thr, Tok.t] ∨ piecesToks ps = [Tok.t, thr])
    (hpl : buildPcapNameParsing { PcapFileList.zero with DirName := dname } (templateText ps) =
      some pl)
    (hre : pl.FileParsing = some re)
    (hbare : isBareName seed = true)
    (hm : re.FindStringSubmatch seed = some m)
    (htv : fieldValue m (tokOrdinal thr ps) = some tv)
    (hsv : fieldValue m (tokOrdinal Tok.t ps) = some sv)
    (hsv2 : sv ≤ maxPlainTimestamp)
    (hrange : timestampsInRange re (tokOrdinal Tok.t ps)
      ((readDir (path.Dir (path.Join dname seed))).getD []) = true) :
    pl.ThreadIndex = tokOrdinal thr ps ∧ pl.TimestampIndex = tokOrdinal Tok.t ps ∧
    re = ⟨catAll (piecesRegex 0 ps), 2⟩ ∧
    NewPcapFileList readDir dname ⟨seed⟩ (templateText ps) =
      some (some { pl with
                   Files := path.Join dname seed ::
                     (((readDir (path.Dir (path.Join dname seed))).getD []).filter
                       (seedSelects laterPlain re (tokOrdinal thr ps) (tokOrdinal Tok.t ps) seed
                         tv sv)).map (path.Join (path.Dir (path.Join dname seed))),
                   FileName := seed }) := by
  have hthrt : thr ≠ Tok.t := by
    rcases hthr with h | h <;> rw [h] <;> decide
  have hnd : (piecesToks ps).Nodup := by
    rcases htoks with h | h <;> rw [h] <;> simp [hthrt, Ne.symm hthrt]
  have hlen2 : (piecesToks ps).length = 2 := by
    rcases htoks with h | h <;> rw [h] <;> rfl
  have hb := buildPcapNameParsing_pieces { PcapFileList.zero with DirName := dname } ps hlit hnd
  obtain ⟨ho1, ho2⟩ := ordinals_of_pieces ps thr hlit hthr htoks
  rw [ho1, ho2, hlen2] at hb
  have hpleq := hb.symm.trans hpl
  simp only [Option.some.injEq] at hpleq
  have hTI : pl.ThreadIndex = tokOrdinal thr ps := by rw [← hpleq]
  have hTS : pl.TimestampIndex = tokOrdinal Tok.t ps := by rw [← hpleq]
  have hRE : re = ⟨catAll (piecesRegex 0 ps), 2⟩ := by
    rw [← hpleq] at hre
    simp only [Option.some.injEq] at hre
    exact hre.symm
  have hfiles : pl.Files = [] := by rw [← hpleq]; rfl
  refine ⟨hTI, hTS, hRE, ?_⟩
  have hne : seed ≠ [] := ((isBareName_iff seed).mp hbare).1
  have hti : pl.ThreadIndex ≠ -1 := by
    rw [hTI]
    unfold tokOrdinal
    omega
  have hbase := Base_Join_bare dname seed hbare
  have key := buildPcapList_eq readDir { pl with Files := pl.Files ++ [path.Join dname seed] } re
    (path.Join dname seed) [] m tv sv (by simp [hfiles]) hre hti (by rw [hbase]; exact hm)
    (by rw [hTI]; exact htv) (by rw [hTS]; exact hsv)
  simp only [hfiles, List.nil_append, hbase, hTI, hTS] at key
  obtain ⟨f, _, hp⟩ := fieldValue_eq_some m _ sv hsv
  have hge := ParseInt_ok_ge f (by rw [hp])
  rw [hp] at hge
  rw [seedSelects_plain_of_range re _ _ seed tv sv hge hsv2 _ hrange] at key
  rw [(NewPcapFileList_branches readDir dname (templateText ps) ⟨seed⟩ pl hpl).2 hne]
  simp only [hfiles, List.nil_append, hTI, hTS, key, Option.map_some', listOrNil,
    List.singleton_append]

/-- Witness of C1: the listing `cap.1.100.pcap, cap.1.150.pcap, cap.1.50.pcap,
cap.2.200.pcap` with seed `cap.1.100.pcap` and template `cap.%n.%t.pcap` gives
exactly `cap.1.100.pcap, cap.1.150.pcap`. -/
theorem seed_mode_exact_witness :
    templateText capPieces = "cap.%n.%t.pcap".toList ∧
    NewPcapFileList
        (fun _ => some ["cap.1.100.pcap".toList, "cap.1.150.pcap".toList,
          "cap.1.50.pcap".toList, "cap.2.200.pcap".toList])
        [] ⟨"cap.1.100.pcap".toList⟩ (templateText capPieces) =
      some (some { PcapFileList.zero with
                   Files := ["cap.1.100.pcap".toList, "cap.1.150.pcap".toList],
                   FileName := "cap.1.100.pcap".toList, FileParsing := some capRule,
                   ThreadIndex := 1, TimestampIndex := 2 }) :=
  ⟨by decide,
   (seed_mode_exact _ [] "cap.1.100.pcap".toList capPieces Tok.n
      { PcapFileList.zero with FileParsing := some capRule, ThreadIndex := 1,
                               TimestampIndex := 2 }
      capRule ["cap.1.100.pcap".toList, "1".toList, "100".toList] 1 100
      (by decide) (Or.inl rfl) (Or.inl (by decide)) (by decide) rfl (by decide) (by decide)
      (by decide) (by decide) (by decide) (by decide)).2.2.2.trans (by decide)⟩

/-! ## Seed mode on a template with both thread tokens -/

/-- C12 (evaluation at the failing input): for the template
`cap.%n.%i.%t.pcap` the stored `TimestampIndex` is 2, the group of `%i`; the
seed `cap.1.2.99999999999999999999.pcap` matches and its `%t` digits are beyond
64 bits, yet the code parses `2` as the timestamp, returns no error and
`NewPcapFileList` returns a list. -/
theorem timestamp_read_at_thread_id_hides_bad_timestamp :
    buildPcapNameParsing { PcapFileList.zero with DirName := "/data".toList }
      "cap.%n.%i.%t.pcap".toList = some threeGroupList ∧
    threeGroupRule.FindStringSubmatch "cap.1.2.99999999999999999999.pcap".toList =
      some ["cap.1.2.99999999999999999999.pcap".toList, "1".toList, "2".toList,
        "99999999999999999999".toList] ∧
    strconv.ParseInt "99999999999999999999".toList =
      (9223372036854775807, some NumError.ErrRange) ∧
    buildPcapList (fun _ => some [])
        { threeGroupList with Files := ["/data/cap.1.2.99999999999999999999.pcap".toList] } =
      some ({ threeGroupList with
              Files := ["/data/cap.1.2.99999999999999999999.pcap".toList] }, none) ∧
    NewPcapFileList (fun _ => some []) "/data".toList
        ⟨"cap.1.2.99999999999999999999.pcap".toList⟩ "cap.%n.%i.%t.pcap".toList =
      some (some { threeGroupList with
                   Files := ["/data/cap.1.2.99999999999999999999.pcap".toList],
                   FileName := "cap.1.2.99999999999999999999.pcap".toList }) := by
  decide

/-- C13 (evaluation at the failing input): for the template
`cap.%i.%n.%t.pcap` the stored `TimestampIndex` is 2, the group of `%n`; in
the seed `cap.1.99999999999999999999.100.pcap` the timestamp `100` parses and
the thread number is beyond 64 bits, yet the code parses the thread number as
the timestamp, returns "Invalid timestamp in file name" and `NewPcapFileList`
returns nil. -/
theorem timestamp_read_at_thread_number_makes_bad_thread_fatal :
    buildPcapNameParsing { PcapFileList.zero with DirName := "/data".toList }
      "cap.%i.%n.%t.pcap".toList = some threeGroupList ∧
    threeGroupRule.FindStringSubmatch "cap.1.99999999999999999999.100.pcap".toList =
      some ["cap.1.99999999999999999999.100.pcap".toList, "1".toList,
        "99999999999999999999".toList, "100".toList] ∧
    strconv.ParseInt "100".toList = (100, none) ∧
    buildPcapList (fun _ => some [])
        { threeGroupList with Files := ["/data/cap.1.99999999999999999999.100.pcap".toList] } =
      some ({ threeGroupList with
              Files := ["/data/cap.1.99999999999999999999.100.pcap".toList] },
        some GoError.InvalidTimestamp) ∧
    NewPcapFileList (fun _ => some []) "/data".toList
        ⟨"cap.1.99999999999999999999.100.pcap".toList⟩ "cap.%i.%n.%t.pcap".toList =
      some none := by
  decide

/-- C15 (evaluation at the failing input): for the template
`cap.%n.%i.%t.pcap` and the seed `cap.1.99999999999999999999.100.pcap`, which
matches and whose timestamp `100` parses, the code parses the `%i` digits as
the timestamp; with an unreadable directory `buildPcapList` returns "Invalid
timestamp in file name" and `NewPcapFileList` returns nil instead of the list
of the seed path. -/
theorem timestamp_read_at_thread_id_loses_valid_seed :
    buildPcapNameParsing { PcapFileList.zero with DirName := "/data".toList }
      "cap.%n.%i.%t.pcap".toList = some threeGroupList ∧
    threeGroupRule.FindStringSubmatch "cap.1.99999999999999999999.100.pcap".toList =
      some ["cap.1.99999999999999999999.100.pcap".toList, "1".toList,
        "99999999999999999999".toList, "100".toList] ∧
    strconv.ParseInt "100".toList = (100, none) ∧
    buildPcapList (fun _ => none)
        { threeGroupList with Files := ["/data/cap.1.99999999999999999999.100.pcap".toList] } =
      some ({ threeGroupList with
              Files := ["/data/cap.1.99999999999999999999.100.pcap".toList] },
        some GoError.InvalidTimestamp) ∧
    NewPcapFileList (fun _ => none) "/data".toList
        ⟨"cap.1.99999999999999999999.100.pcap".toList⟩ "cap.%n.%i.%t.pcap".toList =
      some none := by
  decide

end Extract
